import Mathlib

/-!
The rai wallet (rai/node/wallet.cpp).

A shallow embedding of the keystore (`rai::wallet_store`), the proof-of-work pool
(`rai::work_pool`), the per-account action queue (`rai::wallets`) and the send path of
`rai::wallet`.

Conventions.
* A 32-byte `uint256_union` is the natural number its bytes spell in big-endian order
  (what `number ()` returns); `uint64_t` and `uint32_t` values are naturals, reduced
  modulo `2^64` / `2^32` wherever the source arithmetic can wrap.
* A wallet table (one LMDB database) is a list of `(key, wallet_value)` pairs in key order.
  The transaction handle that the source threads through every call is the table itself;
  `attempt_password_read` tells the caller's read transaction from the write transactions
  that the upgrades open.
* The cryptographic libraries (AES-CTR, Ed25519, Blake2b, Argon2) and the random pool are
  parameters: every theorem holds for all of them.
* `assert`s of the source are not executed by the embedding; they appear as hypotheses of
  the theorems that need them. In `send_action` a failed `assert` is an outcome of its own.
-/

set_option linter.constructorNameAsVariable false

namespace rai

/-! ## Data model -/

/-- The 40-byte record of a wallet table: the 32-byte slot `key` and the 8-byte `work`. -/
structure wallet_value where
  key : Nat
  work : Nat
deriving DecidableEq, Repr

/-- The constructor `wallet_value (uint256_union const &)`: slot set, work zero. -/
def wallet_value.of_key (value_a : Nat) : wallet_value := ⟨value_a, 0⟩

/-- One LMDB database: `(key, value)` pairs, kept in increasing key order by `Table.put`. -/
abbrev Table := List (Nat × wallet_value)

namespace Table

/-- The operation `mdb_get`: the value stored under `k`, if any. -/
def get : Table → Nat → Option wallet_value
  | [], _ => none
  | (k', v) :: t, k => if k' = k then some v else get t k

/-- The operation `mdb_put` (flags 0): insert in key order, replacing an equal key. -/
def put : Table → Nat → wallet_value → Table
  | [], k, v => [(k, v)]
  | (k', v') :: t, k, v =>
    if k < k' then (k, v) :: (k', v') :: t
    else if k = k' then (k, v) :: t
    else (k', v') :: put t k v

/-- The operation `mdb_del`: remove the entry stored under `k`. -/
def del (t : Table) (k : Nat) : Table := t.filter (fun e => !decide (e.1 = k))

/-- A `store_iterator (transaction, handle, key)`: the cursor is placed on the first entry
whose key is at least `k` (MDB_SET_RANGE) and runs to the end of the table, so it visits the
entries with key `≥ k` in table order. -/
def seek (t : Table) (k : Nat) : Table := t.filter (fun e => decide (k ≤ e.1))

/-- Keys strictly increasing: the shape of every LMDB table. -/
def Ordered (t : Table) : Prop := t.Pairwise (fun a b => a.1 < b.1)

instance (t : Table) : Decidable (Ordered t) := by unfold Ordered; infer_instance

end Table

/-- The enumeration `rai::key_type`, with the values `wallet_store::key_type` returns. -/
inductive key_type where
  | unknown
  | adhoc
  | deterministic
deriving DecidableEq, Repr

/-- The external libraries and constants the wallet is compiled against. -/
structure Primitives where
  /-- 32 bytes of AES-256-CTR keystream for a key and a 16-byte initial counter. -/
  aes_ctr : Nat → Nat → Nat
  /-- The function `ed25519_publickey`: private key bytes to public key bytes. -/
  ed25519_publickey : Nat → Nat
  /-- Blake2b with the given digest length over a byte string. -/
  blake2b : Nat → List Nat → List Nat
  /-- Argon2 `PHS` with the wallet's fixed cost parameters: password and salt to 32 bytes. -/
  PHS : String → Nat → Nat
  /-- The constant `rai::work_pool::publish_threshold` (declared in the header). -/
  publish_threshold : Nat

/-- Big-endian bytes of `n`, `len` of them. -/
def be_bytes : Nat → Nat → List Nat
  | 0, _ => []
  | len + 1, n => be_bytes len (n / 256) ++ [n % 256]

/-- The number spelled by a big-endian byte string. -/
def of_be_bytes (bs : List Nat) : Nat := bs.foldl (fun acc b => acc * 256 + b) 0

/-- Little-endian bytes of `n`, `len` of them (the memory image of a `uint64_t`). -/
def le_bytes : Nat → Nat → List Nat
  | 0, _ => []
  | len + 1, n => (n % 256) :: le_bytes len (n / 256)

/-- The number spelled by a little-endian byte string. -/
def of_le_bytes : List Nat → Nat
  | [] => 0
  | b :: bs => b + 256 * of_le_bytes bs

/-- The member `owords [0]` of a `uint256_union`: its first sixteen bytes. -/
def owords0 (x : Nat) : Nat := x / 2 ^ 128

/-- Modelled from the spec: `uint256_union::encrypt` (rai/lib/numbers.cpp is not among the
sources). "A length-preserving symmetric cipher (CTR-mode stream)": the cleartext is XORed
with the keystream of `(key, iv)`. -/
def encrypt (P : Primitives) (cleartext key iv : Nat) : Nat := cleartext ^^^ P.aes_ctr key iv

/-- Modelled from the spec: `raw_key::decrypt` (rai/lib/numbers.cpp is not among the
sources). CTR mode decrypts by XORing the same keystream. -/
def decrypt (P : Primitives) (ciphertext key iv : Nat) : Nat := ciphertext ^^^ P.aes_ctr key iv

/-! ## The keystore `rai::wallet_store` -/

/-- The keystore object: its table and the cached password held by the `fan` member
(`password.value ()` is the XOR of the fan's shares; the embedding keeps the value). -/
structure wallet_store where
  table : Table
  password : Nat
deriving DecidableEq, Repr

namespace wallet_store

def version_1 : Nat := 1
def version_2 : Nat := 2
def version_3 : Nat := 3
def version_current : Nat := version_3
def version_special : Nat := 0
def salt_special : Nat := 1
def wallet_key_special : Nat := 2
def check_special : Nat := 3
def representative_special : Nat := 4
def seed_special : Nat := 5
def deterministic_index_special : Nat := 6
def special_count : Nat := 7

/-- The value `std::numeric_limits <uint64_t>::max ()`. -/
def uint64_max : Nat := 2 ^ 64 - 1

def entry_get_raw (s : wallet_store) (pub_a : Nat) : wallet_value :=
  match s.table.get pub_a with
  | some value => value
  | none => ⟨0, 0⟩

def entry_put_raw (s : wallet_store) (pub_a : Nat) (entry_a : wallet_value) : wallet_store :=
  ⟨s.table.put pub_a entry_a, s.password⟩

def erase (s : wallet_store) (pub : Nat) : wallet_store :=
  ⟨s.table.del pub, s.password⟩

def check (s : wallet_store) : Nat := (entry_get_raw s check_special).key

def salt (s : wallet_store) : Nat := (entry_get_raw s salt_special).key

def wallet_key (P : Primitives) (s : wallet_store) : Nat :=
  let value := entry_get_raw s wallet_key_special
  let password_l := s.password
  decrypt P value.key password_l (owords0 (salt s))

def seed (P : Primitives) (s : wallet_store) : Nat :=
  let value := entry_get_raw s seed_special
  let password_l := wallet_key P s
  decrypt P value.key password_l (owords0 (salt s))

/-- The classification of a slot by magnitude. `convert_to <uint32_t>` keeps the low 32
bits. -/
def key_type (value_a : wallet_value) : rai.key_type :=
  let number := value_a.key
  if number > uint64_max then rai.key_type.adhoc
  else if (number >>> 32) % 2 ^ 32 = 1 then rai.key_type.deterministic
  else rai.key_type.unknown

/-- The iterator `begin (transaction)`: from the first user entry (key `≥ 7`) on. -/
def begin (s : wallet_store) : Table := s.table.seek special_count

/-- The iterator `begin (transaction, key)`. -/
def begin_at (s : wallet_store) (key : Nat) : Table := s.table.seek key

/-- The lookup `find`: the iterator placed at `key` when it sits on exactly that key,
`end ()` (here `none`) otherwise. -/
def find (s : wallet_store) (key : Nat) : Option (Nat × wallet_value) :=
  match begin_at s key with
  | [] => none
  | e :: _ => if e.1 = key then some e else none

/-- The member `exists`: `find (transaction, pub) != end ()`. -/
def store_exists (s : wallet_store) (pub : Nat) : Bool := (find s pub).isSome

def valid_password (P : Primitives) (s : wallet_store) : Bool :=
  let zero := 0
  let wallet_key_l := wallet_key P s
  let check_l := encrypt P zero wallet_key_l (owords0 (salt s))
  decide (check s = check_l)

def derive_key (P : Primitives) (s : wallet_store) (password_a : String) : Nat :=
  let salt_l := salt s
  P.PHS password_a salt_l

def version (s : wallet_store) : Nat :=
  let value := entry_get_raw s version_special
  value.key % 256

def version_put (s : wallet_store) (version_a : Nat) : wallet_store :=
  entry_put_raw s version_special (wallet_value.of_key version_a)

def deterministic_key (P : Primitives) (s : wallet_store) (index_a : Nat) : Nat :=
  let seed_l := seed P s
  of_be_bytes (P.blake2b 32 (be_bytes 32 seed_l ++ be_bytes 4 index_a))

def deterministic_index_get (s : wallet_store) : Nat :=
  let value := entry_get_raw s deterministic_index_special
  value.key % 2 ^ 32

def deterministic_index_set (s : wallet_store) (index_a : Nat) : wallet_store :=
  entry_put_raw s deterministic_index_special (wallet_value.of_key index_a)

/-- The loop of `deterministic_clear`. The iterator is its seek key `c`: `++i` moves to the
first entry above the current key, `i = begin (transaction, key)` re-seeks at the key just
erased. Every round shortens `seek c`, so `fuel` above its length is never used up
(`deterministic_clear_loop_eq`). -/
def deterministic_clear_loop : Nat → wallet_store → Nat → wallet_store
  | 0, s, _ => s
  | fuel + 1, s, c =>
    match begin_at s c with
    | [] => s
    | (k, v) :: _ =>
      match key_type v with
      | rai.key_type.deterministic => deterministic_clear_loop fuel (erase s k) k
      | _ => deterministic_clear_loop fuel s (k + 1)

/-- The same loop with its two ways out told apart: `some` is the exit of the `for` at
`i == n` (the iterator is at `end ()`), `none` is a run of `fuel` rounds that has not
reached it. -/
def deterministic_clear_run : Nat → wallet_store → Nat → Option wallet_store
  | 0, _, _ => none
  | fuel + 1, s, c =>
    match begin_at s c with
    | [] => some s
    | (k, v) :: _ =>
      match key_type v with
      | rai.key_type.deterministic => deterministic_clear_run fuel (erase s k) k
      | _ => deterministic_clear_run fuel s (k + 1)

def deterministic_clear (s : wallet_store) : wallet_store :=
  deterministic_index_set (deterministic_clear_loop (s.table.length + 1) s special_count) 0

def seed_set (P : Primitives) (s : wallet_store) (prv_a : Nat) : wallet_store :=
  let password_l := wallet_key P s
  let ciphertext := encrypt P prv_a password_l (owords0 (salt s))
  deterministic_clear (entry_put_raw s seed_special (wallet_value.of_key ciphertext))

/-- The `while (exists (transaction_a, result))` loop of `deterministic_insert` on the
`uint32_t` index. The table does not change inside the loop and the index has period
`2^32`, so the loop ends within `2^32` tests or never: `none` is the run that never ends. -/
def deterministic_insert_loop (P : Primitives) (s : wallet_store) :
    Nat → Nat → Nat → Option (Nat × Nat)
  | 0, _, _ => none
  | fuel + 1, index, result =>
    if store_exists s result then
      let index1 := (index + 1) % 2 ^ 32
      deterministic_insert_loop P s fuel index1
        (P.ed25519_publickey (deterministic_key P s index1))
    else some (index, result)

def deterministic_insert (P : Primitives) (s : wallet_store) : Option (Nat × wallet_store) :=
  let index := deterministic_index_get s
  let prv := deterministic_key P s index
  let result := P.ed25519_publickey prv
  match deterministic_insert_loop P s (2 ^ 32) index result with
  | none => none
  | some (index, result) =>
    let marker := ((1 <<< 32) ||| index) % 2 ^ 64
    let s1 := entry_put_raw s result (wallet_value.of_key marker)
    let index := (index + 1) % 2 ^ 32
    some (result, deterministic_index_set s1 index)

def insert_adhoc (P : Primitives) (s : wallet_store) (prv : Nat) : Nat × wallet_store :=
  let pub := P.ed25519_publickey prv
  let password_l := wallet_key P s
  let ciphertext := encrypt P prv password_l (owords0 (salt s))
  (pub, entry_put_raw s pub (wallet_value.of_key ciphertext))

/-- The member `fetch`: `none` is the error return (`true`), `some prv` the success return
with the private key written to the out-parameter. -/
def fetch (P : Primitives) (s : wallet_store) (pub : Nat) : Option Nat :=
  if valid_password P s then
    let value := entry_get_raw s pub
    if value.key ≠ 0 then
      let prv : Option Nat :=
        match key_type value with
        | rai.key_type.deterministic =>
          let index := value.key % 2 ^ 32
          some (deterministic_key P s index)
        | rai.key_type.adhoc =>
          let password_l := wallet_key P s
          some (decrypt P value.key password_l (owords0 (salt s)))
        | rai.key_type.unknown => none
      match prv with
      | some prv =>
        let compare := P.ed25519_publickey prv
        if pub = compare then some prv else none
      | none => none
    else none
  else none

def accounts (s : wallet_store) : List Nat := (begin s).map (fun i => i.1)

/-- The member `rekey`: the returned flag is the error (`true` when the store is locked). -/
def rekey (P : Primitives) (s : wallet_store) (password_a : String) : Bool × wallet_store :=
  if valid_password P s then
    let password_new := derive_key P s password_a
    let wallet_key_l := wallet_key P s
    let password_l := s.password
    let values0 := (s.password ^^^ password_l) ^^^ password_new
    let encrypted := encrypt P wallet_key_l password_new (owords0 (salt s))
    (false, ⟨(entry_put_raw s wallet_key_special (wallet_value.of_key encrypted)).table, values0⟩)
  else (true, s)

def work_get (s : wallet_store) (pub_a : Nat) : Option Nat :=
  let entry := entry_get_raw s pub_a
  if entry.key ≠ 0 then some entry.work else none

def work_put (s : wallet_store) (pub_a : Nat) (work_a : Nat) : wallet_store :=
  let entry := entry_get_raw s pub_a
  entry_put_raw s pub_a ⟨entry.key, work_a⟩

/-- One round of the loop of `upgrade_v1_v2` for the entry `key`. -/
def upgrade_v1_v2_entry (P : Primitives) (zero_password empty_password : Nat)
    (s : wallet_store) (key : Nat) : wallet_store :=
  match fetch P s key with
  | some _ => s
  | none =>
    let data := entry_get_raw s key
    let prv := decrypt P data.key zero_password (owords0 (salt s))
    let compare := P.ed25519_publickey prv
    if compare = key then (insert_adhoc P s prv).2
    else
      let data := entry_get_raw s key
      let prv := decrypt P data.key empty_password (owords0 (salt s))
      let compare := P.ed25519_publickey prv
      if compare = key then (insert_adhoc P s prv).2 else s

/-- The upgrade from version 1. Its loop only rewrites the entry the iterator stands on, so
it visits the keys that `begin` lists when the loop starts. -/
def upgrade_v1_v2 (P : Primitives) (s : wallet_store) : wallet_store :=
  let value := entry_get_raw s wallet_key_special
  let kdf := 0
  let zero_password := decrypt P value.key kdf (owords0 (salt s))
  let kdf := derive_key P s ""
  let empty_password := decrypt P value.key kdf (owords0 (salt s))
  let s1 := (accounts s).foldl (upgrade_v1_v2_entry P zero_password empty_password) s
  version_put s1 2

/-- The upgrade from version 2; `seed` is the block drawn from the random pool. -/
def upgrade_v2_v3 (P : Primitives) (s : wallet_store) (seed : Nat) : wallet_store :=
  let s1 := seed_set P s seed
  let s2 := entry_put_raw s1 deterministic_index_special (wallet_value.of_key 0)
  version_put s2 3

/-- The member `attempt_password`: the returned flag is the error (`true` = still locked).
`seed` is the random block an upgrade from version 2 would draw. -/
def attempt_password (P : Primitives) (s : wallet_store) (password_a : String) (seed : Nat) :
    Bool × wallet_store :=
  let password_l := derive_key P s password_a
  let s1 : wallet_store := ⟨s.table, password_l⟩
  let result := !valid_password P s1
  if !result then
    let s2 := if version s1 = version_1 then upgrade_v1_v2 P s1 else s1
    let s3 := if version s2 = version_2 then upgrade_v2_v3 P s2 seed else s2
    (result, s3)
  else (result, s1)

/-- The member `attempt_password` with the caller's transaction told apart from the write
transactions that the upgrades open for themselves. `view` is the table as `transaction_a`
reads it: both callers (`wallet::enter_password`, `wallet::import`) pass a read transaction,
and a read transaction of the backing store keeps reading the state it began on. `s` holds
the committed table, which `upgrade_v1_v2 ()` and `upgrade_v2_v3 ()` read and write through
`rai::transaction transaction (environment, nullptr, true)`. The salt, the check and both
tests of the version are read through `transaction_a`. -/
def attempt_password_read (P : Primitives) (view : Table) (s : wallet_store)
    (password_a : String) (seed : Nat) : Bool × wallet_store :=
  let transaction_a : wallet_store := ⟨view, s.password⟩
  let password_l := derive_key P transaction_a password_a
  let s1 : wallet_store := ⟨s.table, password_l⟩
  let transaction_a : wallet_store := ⟨view, password_l⟩
  let result := !valid_password P transaction_a
  if !result then
    let s2 := if version transaction_a = version_1 then upgrade_v1_v2 P s1 else s1
    let s3 := if version transaction_a = version_2 then upgrade_v2_v3 P s2 seed else s2
    (result, s3)
  else (result, s1)

/-- The non-JSON constructor on the table `t` that `initialize` opened: when `t` has no
version entry the wallet is created. `salt_l`, `wallet_key` and `seed` are the three blocks
drawn from the random pool, in that order. -/
def create (P : Primitives) (t : Table) (representative_a salt_l wallet_key seed : Nat) :
    wallet_store :=
  let s0 : wallet_store := ⟨t, 0⟩
  match t.get version_special with
  | some _ => s0
  | none =>
    let s1 := version_put s0 version_current
    let s2 := entry_put_raw s1 salt_special (wallet_value.of_key salt_l)
    let password_l := 0
    let s3 : wallet_store := ⟨s2.table, password_l⟩
    let zero := 0
    let encrypted := encrypt P wallet_key zero (owords0 salt_l)
    let s4 := entry_put_raw s3 wallet_key_special (wallet_value.of_key encrypted)
    let check := encrypt P zero wallet_key (owords0 salt_l)
    let s5 := entry_put_raw s4 check_special (wallet_value.of_key check)
    let s6 := entry_put_raw s5 representative_special (wallet_value.of_key representative_a)
    let s7 := seed_set P s6 seed
    entry_put_raw s7 deterministic_index_special (wallet_value.of_key 0)

/-- The member `move`: the flag is the sticky error; the pair is `(this, other_a)`. -/
def move (P : Primitives) (s other_a : wallet_store) :
    List Nat → Bool → Bool × wallet_store × wallet_store
  | [], result => (result, s, other_a)
  | i :: keys, result =>
    let prv := fetch P other_a i
    let error := prv.isNone
    let result := result || error
    match prv with
    | some prv =>
      if !result then
        move P (insert_adhoc P s prv).2 (erase other_a i) keys result
      else move P s other_a keys result
    | none => move P s other_a keys result

end wallet_store

/-! ## Repeated calls -/

namespace wallet_store

/-- The public key the spec names for a seed and an index:
`Ed25519Pub (Blake2b-256 (seed ‖ big_endian_u32 (index)))`. -/
def deterministic_public (P : Primitives) (seed index : Nat) : Nat :=
  P.ed25519_publickey (of_be_bytes (P.blake2b 32 (be_bytes 32 seed ++ be_bytes 4 index)))

/-- The first `n` calls of `deterministic_insert`, one after the other: the public keys
they return, in order, and the store they leave; `none` when one of them does not return. -/
def deterministic_insert_n (P : Primitives) : Nat → wallet_store →
    Option (List Nat × wallet_store)
  | 0, s => some ([], s)
  | n + 1, s =>
    match deterministic_insert P s with
    | none => none
    | some r =>
      match deterministic_insert_n P n r.2 with
      | none => none
      | some rs => some (r.1 :: rs.1, rs.2)

end wallet_store

/-! ## Keystore states and their invariant -/

namespace wallet_store

/-- The slot `v` stored under `k` in `s` is one that `fetch` resolves to a private key of
`k`: ciphertext (at least `2^64`) whose cleartext has public key `k`, or a deterministic
marker whose derived key has public key `k`. -/
def fetchable (P : Primitives) (s : wallet_store) (k : Nat) (v : wallet_value) : Prop :=
  (2 ^ 64 ≤ v.key ∧
    P.ed25519_publickey (decrypt P v.key (wallet_key P s) (owords0 (salt s))) = k) ∨
  (v.key ≤ 2 ^ 64 ∧ v.key >>> 32 = 1 ∧
    P.ed25519_publickey (deterministic_key P s (v.key % 2 ^ 32)) = k)

/-- The invariant of a well-kept unlocked keystore: the table is in key order, the store is
unlocked, the seven reserved entries are present, and every user entry is fetchable. -/
def invariant (P : Primitives) (s : wallet_store) : Prop :=
  Table.Ordered s.table ∧ valid_password P s = true ∧
  (∀ k, k < special_count → (Table.get s.table k).isSome = true) ∧
  ∀ k v, special_count ≤ k → Table.get s.table k = some v → fetchable P s k v

/-- The keystore states reached from `create` on an empty table through `insert_adhoc` (of
a private key whose public key is not a reserved key and whose ciphertext is at least
`2^64`), `deterministic_insert` (when its loop ends), `rekey`, `seed_set`, and `erase` and
`work_put` of an account of the wallet. -/
inductive reachable (P : Primitives) : wallet_store → Prop where
  | create (representative_a salt_l wallet_key seed : Nat) :
    reachable P (create P [] representative_a salt_l wallet_key seed)
  | insert_adhoc (s : wallet_store) (prv : Nat) :
    reachable P s → special_count ≤ P.ed25519_publickey prv →
    2 ^ 64 ≤ encrypt P prv (wallet_key P s) (owords0 (salt s)) →
    reachable P (insert_adhoc P s prv).2
  | deterministic_insert (s : wallet_store) (r : Nat × wallet_store) :
    reachable P s → deterministic_insert P s = some r → reachable P r.2
  | rekey (s : wallet_store) (password_a : String) :
    reachable P s → reachable P (rekey P s password_a).2
  | seed_set (s : wallet_store) (prv_a : Nat) :
    reachable P s → reachable P (seed_set P s prv_a)
  | erase (s : wallet_store) (pub : Nat) :
    reachable P s → pub ∈ accounts s → reachable P (erase s pub)
  | work_put (s : wallet_store) (pub work_a : Nat) :
    reachable P s → pub ∈ accounts s → reachable P (work_put s pub work_a)

/-- The bound on deterministic markers: every user entry (key `≥ 7`) that `key_type`
classifies deterministic carries an index below the stored deterministic index. -/
def index_bound (s : wallet_store) : Prop :=
  ∀ k v, special_count ≤ k → Table.get s.table k = some v →
    key_type v = rai.key_type.deterministic → v.key % 2 ^ 32 < deterministic_index_get s

/-- The keystore states reached from `create` on an empty table through
`deterministic_insert` calls that leave the stored index larger than it was (the `uint32_t`
index did not wrap), `insert_adhoc` and `move` of private keys whose public key is not a
reserved key and whose ciphertext is at least `2^64`, `seed_set`, `rekey`, and `erase` of
keys that are not reserved. A `move` reaches both the store moved into and the store moved
from. -/
inductive reachable_index (P : Primitives) : wallet_store → Prop where
  | create (representative_a salt_l wallet_key seed : Nat) :
    reachable_index P (create P [] representative_a salt_l wallet_key seed)
  | deterministic_insert (s : wallet_store) (r : Nat × wallet_store) :
    reachable_index P s → deterministic_insert P s = some r →
    deterministic_index_get s < deterministic_index_get r.2 → reachable_index P r.2
  | insert_adhoc (s : wallet_store) (prv : Nat) :
    reachable_index P s → special_count ≤ P.ed25519_publickey prv →
    2 ^ 64 ≤ encrypt P prv (wallet_key P s) (owords0 (salt s)) →
    reachable_index P (insert_adhoc P s prv).2
  | seed_set (s : wallet_store) (prv_a : Nat) :
    reachable_index P s → reachable_index P (seed_set P s prv_a)
  | rekey (s : wallet_store) (password_a : String) :
    reachable_index P s → reachable_index P (rekey P s password_a).2
  | erase (s : wallet_store) (pub : Nat) :
    reachable_index P s → special_count ≤ pub → reachable_index P (erase s pub)
  | move_self (s other_a : wallet_store) (keys : List Nat) :
    reachable_index P s → reachable_index P other_a →
    (∀ k ∈ keys, special_count ≤ k ∧ ∀ prv, fetch P other_a k = some prv →
      2 ^ 64 ≤ encrypt P prv (wallet_key P s) (owords0 (salt s))) →
    reachable_index P (move P s other_a keys false).2.1
  | move_other (s other_a : wallet_store) (keys : List Nat) :
    reachable_index P s → reachable_index P other_a →
    (∀ k ∈ keys, special_count ≤ k) →
    reachable_index P (move P s other_a keys false).2.2

end wallet_store

/-! ## JSON export and import -/

/-- The lowercase hexadecimal digit of `d mod 16`. -/
def hex_digit (d : Nat) : Char :=
  if d % 16 < 10 then Char.ofNat (48 + d % 16) else Char.ofNat (87 + d % 16)

/-- The value of a hexadecimal digit, in either case. -/
def hex_value (c : Char) : Option Nat :=
  if 48 ≤ c.toNat ∧ c.toNat ≤ 57 then some (c.toNat - 48)
  else if 97 ≤ c.toNat ∧ c.toNat ≤ 102 then some (c.toNat - 87)
  else if 65 ≤ c.toNat ∧ c.toNat ≤ 70 then some (c.toNat - 55)
  else none

/-- The `len` low hexadecimal digits of `x`, most significant first. -/
def hex_chars : Nat → Nat → List Char
  | 0, _ => []
  | len + 1, x => hex_chars len (x / 16) ++ [hex_digit (x % 16)]

/-- The number spelled by hexadecimal digits after `acc`; `none` on any other character. -/
def decode_chars : List Char → Nat → Option Nat
  | [], acc => some acc
  | c :: cs, acc =>
    match hex_value c with
    | none => none
    | some d => decode_chars cs (acc * 16 + d)

/-- Modelled from the spec: `uint256_union::to_string` / `encode_hex` (rai/lib/numbers.cpp is
not among the sources). "lowercase-hex(Hash256)": 64 hexadecimal digits. -/
def to_string (x : Nat) : String := String.mk (hex_chars 64 x)

/-- Modelled from the spec: `uint256_union::decode_hex` (rai/lib/numbers.cpp is not among
the sources). "Every hex must be exactly 64 chars": `none` is the error return (`true`),
`some x` the success return with the decoded number. -/
def decode_hex (text : String) : Option Nat :=
  if text.data.length = 64 then decode_chars text.data 0 else none

/-- A `boost::property_tree::ptree` whose children are string leaves, in insertion order.
The JSON text of an export is this tree written by `write_json`; an import reads it back
with `read_json`. -/
abbrev ptree := List (String × String)

/-- The call `tree.put (key, value)` for a key without a path separator: the first child of
that name gets the value, or a new child is added at the end. -/
def ptree_put : ptree → String → String → ptree
  | [], key, value => [(key, value)]
  | (k, v) :: tree, key, value =>
    if k = key then (k, value) :: tree else (k, v) :: ptree_put tree key value

/-- The call `tree.get <std::string> (key)`: the data of the first child of that name. -/
def ptree_get : ptree → String → Option String
  | [], _ => none
  | (k, v) :: tree, key => if k = key then some v else ptree_get tree key

namespace wallet_store

def serialize_json (s : wallet_store) : ptree :=
  s.table.foldl (fun tree i => ptree_put tree (to_string i.1) (to_string i.2.key)) []

/-- The `for` loop of the JSON constructor over the children of `wallet_l`; `init_a` is
assigned anew in every round. -/
def load_loop (wallet_l : ptree) : List (String × String) → Bool → wallet_store →
    Bool × wallet_store
  | [], init_a, s => (init_a, s)
  | i :: rest, _, s =>
    match decode_hex i.1 with
    | some key =>
      match (ptree_get wallet_l i.1).bind decode_hex with
      | some value => load_loop wallet_l rest false (entry_put_raw s key (wallet_value.of_key value))
      | none => load_loop wallet_l rest true s
    | none => load_loop wallet_l rest true s

/-- The JSON constructor on the table `t` that `initialize` opened. `json_a` is what
`read_json` makes of the text: `none` when it throws. The flag is `init_a`. -/
def load (t : Table) (json_a : Option ptree) : Bool × wallet_store :=
  let init_a := json_a.isNone
  let wallet_l := json_a.getD []
  let r := load_loop wallet_l wallet_l init_a ⟨t, 0⟩
  let init_a := r.1
  let init_a := init_a || (r.2.table.get version_special).isNone
  let init_a := init_a || (r.2.table.get wallet_key_special).isNone
  let init_a := init_a || (r.2.table.get salt_special).isNone
  let init_a := init_a || (r.2.table.get check_special).isNone
  let init_a := init_a || (r.2.table.get representative_special).isNone
  (init_a, ⟨r.2.table, 0⟩)

end wallet_store

/-! ## `rai::wallet` -/

namespace wallet

/-- The member `enter_password` on the wallet's store (the pending search it schedules and
the lock observer do not touch the store). -/
def enter_password (P : Primitives) (store : wallet_store) (password_a : String) (seed : Nat) :
    Bool × wallet_store :=
  wallet_store.attempt_password P store password_a seed

def enter_initial_password (P : Primitives) (store : wallet_store) (seed : Nat) :
    wallet_store :=
  let password_l := store.password
  if password_l = 0 then
    let store1 :=
      if wallet_store.valid_password P store then (wallet_store.rekey P store "").2 else store
    (enter_password P store1 "" seed).2
  else store

/-- The member `work_update`. `latest_root` is the ledger's `latest_root (transaction_a, ·)`,
a collaborator of the wallet; the discarded work is only logged. -/
def work_update (store : wallet_store) (latest_root : Nat → Nat) (account_a root_a work_a : Nat) :
    wallet_store :=
  let latest := latest_root account_a
  if latest = root_a then wallet_store.work_put store account_a work_a else store

end wallet

/-! ## The work pool `rai::work_pool` -/

/-- The pool's shared state: the `ticket` counter (an unbounded counter here: the source's
`int` would need `2^32` completed requests during one search to come round), the FIFO of
pending `(root, callback)` requests, and the `done` flag. -/
structure work_pool where
  ticket : Nat
  pending : List (Nat × Nat)
  done : Bool
deriving DecidableEq, Repr

namespace work_pool

/-- The hash of the eight bytes of `work_a` (in memory order) followed by the root's bytes,
digest length 8, read back as a `uint64_t`. -/
def work_value (P : Primitives) (root_a work_a : Nat) : Nat :=
  of_le_bytes (P.blake2b 8 (le_bytes 8 work_a ++ be_bytes 32 root_a))

def work_validate (P : Primitives) (root_a work_a : Nat) : Bool :=
  let result := decide (work_value P root_a work_a < P.publish_threshold)
  result

/-- The inner `while (iteration && output < publish_threshold)` loop of `loop`. `rng n` is
the `n`-th value of `rng.next ()`. The hash state is re-initialised after every `final`, so
each `output` is `work_value` of the root and the `work` just drawn. The result is the
number of draws so far, `work` and `output`. -/
def loop_inner (P : Primitives) (root : Nat) (rng : Nat → Nat) :
    Nat → Nat → Nat → Nat → Nat × Nat × Nat
  | 0, n, work, output => (n, work, output)
  | iteration + 1, n, work, output =>
    if output < P.publish_threshold then
      let work := rng n
      let output := work_value P root work
      loop_inner P root rng iteration (n + 1) work output
    else (n, work, output)

/-- The outer `while (ticket == ticket_l && output < publish_threshold)` loop, run without
the lock. `observed k` is the value of the shared `ticket` read at the `k`-th test of the
loop condition; `none` is a search that is still running when `fuel` rounds are over. -/
def loop_search (P : Primitives) (root : Nat) (rng : Nat → Nat) (observed : Nat → Nat)
    (ticket_l : Nat) : Nat → Nat → Nat → Nat → Nat → Option (Nat × Nat × Nat)
  | 0, _, _, _, _ => none
  | fuel + 1, k, n, work, output =>
    if observed k = ticket_l ∧ output < P.publish_threshold then
      let r := loop_inner P root rng 256 n work output
      loop_search P root rng observed ticket_l fuel (k + 1) r.1 r.2.1 r.2.2
    else some (n, work, output)

/-- The end of a round of `loop`, with the lock taken again on the pool `now`: when the
ticket is still the snapshot `ticket_l` the worker is the solver, it bumps the ticket, calls
the callback with `work` and pops the request. The second component lists the callback
invocations `(callback, argument)`. -/
def loop_deliver (now : work_pool) (ticket_l : Nat) (current_l : Nat × Nat) (work : Nat) :
    work_pool × List (Nat × Option Nat) :=
  if now.ticket = ticket_l then
    (⟨now.ticket + 1, now.pending.tail, now.done⟩, [(current_l.2, some work)])
  else (now, [])

/-- One round of the worker `loop` on a non-empty queue: snapshot of the front request and
of the ticket on `pool`, search without the lock, delivery on the pool `now` found when the
lock is taken again. `work0` is the content of the uninitialised local `work`. -/
def loop_round (P : Primitives) (pool : work_pool) (rng : Nat → Nat) (observed : Nat → Nat)
    (now : work_pool) (work0 fuel : Nat) : Option (work_pool × List (Nat × Option Nat)) :=
  match pool.pending with
  | [] => none
  | current_l :: _ =>
    let ticket_l := pool.ticket
    match loop_search P current_l.1 rng observed ticket_l fuel 0 0 work0 0 with
    | none => none
    | some r => some (loop_deliver now ticket_l current_l r.2.1)

/-- The `remove_if` of `cancel` with its predicate, which is run once on every request in
queue order: a request of the root is removed and its callback is called with
`boost::none`. The result is the queue that is left and the callback invocations. -/
def cancel_remove (root_a : Nat) : List (Nat × Nat) → List (Nat × Nat) × List (Nat × Option Nat)
  | [] => ([], [])
  | item_a :: rest =>
    let r := cancel_remove root_a rest
    if item_a.1 = root_a then (r.1, (item_a.2, none) :: r.2) else (item_a :: r.1, r.2)

/-- The member `cancel`, one locked region: the ticket is bumped when the front request is
of the root, then the requests of the root are removed. -/
def cancel (pool : work_pool) (root_a : Nat) : work_pool × List (Nat × Option Nat) :=
  let ticket :=
    match pool.pending with
    | [] => pool.ticket
    | front :: _ => if front.1 = root_a then pool.ticket + 1 else pool.ticket
  let r := cancel_remove root_a pool.pending
  (⟨ticket, r.1, pool.done⟩, r.2)

end work_pool

/-! ## The action queue of `rai::wallets` -/

/-- Modelled from the spec: the members `pending_actions` and `current_actions` are declared
in wallet.hpp, which is not among the sources. "`pending_actions`: map account → ordered
multimap (priority, thunk). Higher priority runs first"; "`current_actions`: set of accounts
with an in-flight action". A multimap is the list of its `(priority, action)` entries in
iteration order (largest priority first); an action is named by a number. -/
structure wallets where
  pending_actions : List (Nat × List (Nat × Nat))
  current_actions : List Nat
deriving DecidableEq, Repr

namespace wallets

/-- The lookup `pending_actions.find (account_a)`. -/
def pending_find : List (Nat × List (Nat × Nat)) → Nat → Option (List (Nat × Nat))
  | [], _ => none
  | (a, entries) :: m, account_a => if a = account_a then some entries else pending_find m account_a

/-- Assignment to `pending_actions [account_a]`. -/
def pending_set : List (Nat × List (Nat × Nat)) → Nat → List (Nat × Nat) →
    List (Nat × List (Nat × Nat))
  | [], account_a, entries => [(account_a, entries)]
  | (a, old) :: m, account_a, entries =>
    if a = account_a then (a, entries) :: m else (a, old) :: pending_set m account_a entries

/-- The call `pending_actions.erase (existing)`. -/
def pending_erase (m : List (Nat × List (Nat × Nat))) (account_a : Nat) :
    List (Nat × List (Nat × Nat)) :=
  m.filter (fun e => !decide (e.1 = account_a))

/-- Modelled from the spec: `multimap::insert` under the ordering "highest priority = largest
key" first; an entry goes after the entries of equal priority. -/
def multimap_insert : List (Nat × Nat) → Nat → Nat → List (Nat × Nat)
  | [], amount_a, action_a => [(amount_a, action_a)]
  | (q, g) :: entries, amount_a, action_a =>
    if q < amount_a then (amount_a, action_a) :: (q, g) :: entries
    else (q, g) :: multimap_insert entries amount_a action_a

/-- The member `queue_wallet_action`, one locked region. The flag tells whether
`current_actions.insert` was new, that is whether a `do_wallet_actions (account_a)` task is
handed to `node.background`. -/
def queue_wallet_action (w : wallets) (account_a amount_a action_a : Nat) : wallets × Bool :=
  let entries := (pending_find w.pending_actions account_a).getD []
  let pending := pending_set w.pending_actions account_a
    (multimap_insert entries amount_a action_a)
  if account_a ∈ w.current_actions then (⟨pending, w.current_actions⟩, false)
  else (⟨pending, account_a :: w.current_actions⟩, true)

/-- What one pass through the body of the `while` loop of `do_wallet_actions` does. -/
inductive outcome where
  | finished
  | erased
  | run (first : Nat × Nat)
deriving DecidableEq, Repr

/-- One test of the loop condition and one pass through the loop body, under the lock:
`existing == end` ends the loop; an empty multimap is erased together with the account's
`current_actions` entry; otherwise the first entry is removed and is to be run. -/
def do_wallet_actions_iteration (w : wallets) (account_a : Nat) : wallets × outcome :=
  match pending_find w.pending_actions account_a with
  | none => (w, outcome.finished)
  | some [] =>
    (⟨pending_erase w.pending_actions account_a,
      w.current_actions.filter (fun a => !decide (a = account_a))⟩, outcome.erased)
  | some (first :: entries) =>
    (⟨pending_set w.pending_actions account_a entries, w.current_actions⟩, outcome.run first)

/-- One locked region of `do_wallet_actions`: from taking the lock to either the end of the
loop (`none`) or the `unlock` before an action is run (`some first`). -/
def do_wallet_actions_locked : Nat → wallets → Nat → Option (wallets × Option (Nat × Nat))
  | 0, _, _ => none
  | fuel + 1, w, account_a =>
    match do_wallet_actions_iteration w account_a with
    | (w1, outcome.finished) => some (w1, none)
    | (w1, outcome.erased) => do_wallet_actions_locked fuel w1 account_a
    | (w1, outcome.run first) => some (w1, some first)

/-- The whole of `do_wallet_actions` when nothing else touches the queue while it runs: the
entries run, in order, and the final state. -/
def do_wallet_actions : Nat → wallets → Nat → Option (List (Nat × Nat) × wallets)
  | 0, _, _ => none
  | fuel + 1, w, account_a =>
    match do_wallet_actions_iteration w account_a with
    | (w1, outcome.finished) => some ([], w1)
    | (w1, outcome.erased) => do_wallet_actions fuel w1 account_a
    | (w1, outcome.run first) =>
      match do_wallet_actions fuel w1 account_a with
      | none => none
      | some r => some (first :: r.1, r.2)

/-- The queue together with the `do_wallet_actions` tasks that `node.background` holds: for
each task its account and the action it is running outside the lock, if any. -/
structure node_state where
  wallets : wallets
  tasks : List (Nat × Option (Nat × Nat))

/-- The atomic steps of the action queue: a `queue_wallet_action` call by any thread, a
locked region of a task that ends its loop, a locked region that takes an action out to run
it, and the end of a running action. -/
inductive step : node_state → node_state → Prop where
  | queue (st : node_state) (account_a amount_a action_a : Nat) :
    step st ⟨(queue_wallet_action st.wallets account_a amount_a action_a).1,
      if (queue_wallet_action st.wallets account_a amount_a action_a).2
      then st.tasks ++ [(account_a, none)] else st.tasks⟩
  | locked_end (w w1 : wallets) (before after : List (Nat × Option (Nat × Nat)))
    (account_a fuel : Nat) :
    do_wallet_actions_locked fuel w account_a = some (w1, none) →
    step ⟨w, before ++ (account_a, none) :: after⟩ ⟨w1, before ++ after⟩
  | locked_run (w w1 : wallets) (before after : List (Nat × Option (Nat × Nat)))
    (account_a fuel : Nat) (first : Nat × Nat) :
    do_wallet_actions_locked fuel w account_a = some (w1, some first) →
    step ⟨w, before ++ (account_a, none) :: after⟩
      ⟨w1, before ++ (account_a, some first) :: after⟩
  | action_end (w : wallets) (before after : List (Nat × Option (Nat × Nat)))
    (account_a : Nat) (first : Nat × Nat) :
    step ⟨w, before ++ (account_a, some first) :: after⟩
      ⟨w, before ++ (account_a, none) :: after⟩

/-- The states the queue can be in, started empty with no task. -/
def reachable (st : node_state) : Prop :=
  Relation.ReflTransGen step ⟨⟨[], []⟩, []⟩ st

/-- The value `erased` that `current_actions.erase (account_a)` returns in the state `w`:
the number of elements it removes. -/
def erased (w : wallets) (account_a : Nat) : Nat := w.current_actions.count account_a

/-- The accounts that have a key in `pending_actions` are those of `current_actions`, each
of them there once. -/
def keys_current (w : wallets) : Prop :=
  (∀ a, (pending_find w.pending_actions a).isSome = true ↔ a ∈ w.current_actions) ∧
  w.current_actions.Nodup

end wallets

/-! ## `rai::wallet`: sending -/

/-- The block that `new rai::send_block (previous, destination, balance, prv, pub, work)`
builds, as the arguments of its constructor (the class is declared outside wallet.cpp). -/
structure send_block where
  previous : Nat
  destination : Nat
  balance : Nat
  prv : Nat
  pub : Nat
  work : Nat
deriving DecidableEq, Repr

/-- The members of `rai::node` that the wallet's send path calls, all defined outside
wallet.cpp: `ledger.account_balance` (a `uint128_t`), `ledger.store.account_get` (`none` is
its error return, `some head` gives `info.head`), `generate_work`, `block::hash`, and the
name of the closure `work_generate (account, hash)` as an action of the queue. -/
structure node where
  account_balance : Nat → Nat
  account_get : Nat → Option Nat
  generate_work : Nat → Nat
  hash : send_block → Nat
  work_generate : Nat → Nat → Nat

namespace wallets

def generate_priority : Nat := 2 ^ 128 - 1

def high_priority : Nat := 2 ^ 128 - 1 - 1

end wallets

namespace wallet

/-- The member `work_fetch`: the cached work when there is one and it passes, freshly
generated work otherwise (`work_validate` returns true for insufficient work). -/
def work_fetch (P : Primitives) (N : node) (store : wallet_store) (account_a root_a : Nat) :
    Nat :=
  match wallet_store.work_get store account_a with
  | none => N.generate_work root_a
  | some result =>
    if work_pool.work_validate P root_a result then N.generate_work root_a else result

/-- The first block of `send_action`, up to the closing brace of the transaction: `none`
is a failed `assert`, `some none` the null block, `some (some b)` the block built. The
difference `balance - amount_a` is taken in `uint128_t`. -/
def send_action_block (P : Primitives) (N : node) (store : wallet_store)
    (source_a account_a amount_a : Nat) : Option (Option send_block) :=
  if wallet_store.valid_password P store then
    match wallet_store.find store source_a with
    | some _ =>
      let balance := N.account_balance source_a
      if balance ≠ 0 then
        if balance ≥ amount_a then
          match N.account_get source_a with
          | none => none
          | some head =>
            match wallet_store.fetch P store source_a with
            | none => none
            | some prv =>
              some (some ⟨head, account_a, (balance + 2 ^ 128 - amount_a) % 2 ^ 128, prv,
                source_a, work_fetch P N store source_a head⟩)
        else some none
      else some none
    | none => some none
  else some none

/-- The member `send_action`: the block returned (`none` is the null pointer) and the
action queue afterwards; the outer `none` is a failed `assert`. The call
`node.process_receive_republish (block)` acts on the node only and is left out. -/
def send_action (P : Primitives) (N : node) (store : wallet_store) (w : wallets)
    (source_a account_a amount_a : Nat) : Option (Option send_block × wallets) :=
  match send_action_block P N store source_a account_a amount_a with
  | none => none
  | some none => some (none, w)
  | some (some block) =>
    let hash := N.hash block
    some (some block, (wallets.queue_wallet_action w source_a wallets.generate_priority
      (N.work_generate source_a hash)).1)

/-- What a call that waits on a promise ends in: a value, a failed `assert`, or a read
through a null pointer. -/
inductive sync_result (α : Type) where
  | value (v : α)
  | assertion_failed
  | null_dereference
deriving DecidableEq, Repr

/-- The continuation that `change_sync` and `receive_sync` install:
`result.set_value (block_a == nullptr)`. -/
def change_sync_continuation (block_a : Option send_block) : sync_result Bool :=
  sync_result.value block_a.isNone

/-- The continuation that `send_sync` installs: `result.set_value (block_a->hash ())`; the
arrow reads through `block_a`. -/
def send_sync_continuation (N : node) (block_a : Option send_block) : sync_result Nat :=
  match block_a with
  | none => sync_result.null_dereference
  | some block => sync_result.value (N.hash block)

/-- The member `send_sync`, when the action it queues through `send_async` is run: the
closure calls `send_action` and hands its block to the continuation, whose value the
promise returns. -/
def send_sync (P : Primitives) (N : node) (store : wallet_store) (w : wallets)
    (source_a account_a amount_a : Nat) : sync_result Nat :=
  match send_action P N store w source_a account_a amount_a with
  | none => sync_result.assertion_failed
  | some (block, _) => send_sync_continuation N block

end wallet

/-! ## A concrete instance, for evaluating the definitions -/

/-- A small stand-in for the libraries: the keystream of `(key, iv)` is `key + iv + 1` in
the bytes above the low eight, a private key `prv` has public key `prv + 2`, the digest of a
byte string is the sum of its big-endian and little-endian readings, and a password of
length `n` derives to `n + salt + 1`. The threshold is the live network's. -/
def example_primitives : Primitives :=
  ⟨fun key iv => (key + iv + 1) * 2 ^ 64, fun prv => prv + 2,
   fun len bs => le_bytes len (of_be_bytes bs + of_le_bytes bs),
   fun password salt => password.length + salt + 1, 0xffffffc000000000⟩

/-- A wallet created on an empty table with representative 100, salt `5 * 2^128 + 9`,
wallet key 1234 and seed 77. -/
def example_store : wallet_store :=
  wallet_store.create example_primitives [] 100 (5 * 2 ^ 128 + 9) 1234 77

/-- A second stand-in in which derived keys collide in pairs: the digest is the last bytes
of the input, so that with seed 0 the key derived for index `i` is `i`, and the public key
of `prv` is `prv / 2 + 7`. -/
def example_primitives_colliding : Primitives :=
  ⟨fun key iv => (key + iv + 1) * 2 ^ 64, fun prv => prv / 2 + 7,
   fun len bs => be_bytes len (of_be_bytes bs),
   fun password salt => password.length + salt + 1, 0xffffffc000000000⟩

/-- A third stand-in in which the cipher and the key derivation write 32 bytes: the
keystream of `(key, iv)` is `key + iv + 1` and the derived key of a password of length `n`
is `n + salt + 1`, both reduced modulo `2^256`. -/
def example_primitives_bytes : Primitives :=
  ⟨fun key iv => (key + iv + 1) % 2 ^ 256, fun prv => prv + 2,
   fun len bs => le_bytes len (of_be_bytes bs + of_le_bytes bs),
   fun password salt => (password.length + salt + 1) % 2 ^ 256, 0xffffffc000000000⟩

/-- The example wallet after `insert_adhoc` of the private key 11 (account 13). -/
def example_store_adhoc : wallet_store :=
  (wallet_store.insert_adhoc example_primitives example_store 11).2

/-- The result of `deterministic_insert` on `example_store_adhoc`: the new account and the
store. -/
def example_deterministic : Nat × wallet_store :=
  (wallet_store.deterministic_insert example_primitives example_store_adhoc).getD
    (0, example_store_adhoc)

/-- The example wallet with the account 13, re-keyed to the password "abc" and marked as a
version 1 wallet. -/
def example_store_v1 : wallet_store :=
  wallet_store.version_put
    (wallet_store.rekey example_primitives example_store_adhoc "abc").2 wallet_store.version_1

/-- A second wallet, created with the wallet key 4321, holding the ad-hoc accounts of the
private keys 11, 20 and `1240 * 2^64` (the accounts 13, 22 and `1240 * 2^64 + 2`). -/
def example_store_other : wallet_store :=
  (wallet_store.insert_adhoc example_primitives
    (wallet_store.insert_adhoc example_primitives
      (wallet_store.insert_adhoc example_primitives
        (wallet_store.create example_primitives [] 100 (5 * 2 ^ 128 + 9) 4321 77) 11).2 20).2
    (1240 * 2 ^ 64)).2

/-- A stand-in for the node: every account has the balance 1000 and the head 7, generated
work is the root plus one, the hash of a block is its balance, and the action
`work_generate (account, hash)` is named `account + hash`. -/
def example_node : node :=
  ⟨fun _ => 1000, fun _ => some 7, fun root => root + 1, fun block => block.balance,
   fun account hash => account + hash⟩

/-! # Theorems -/

/-! ## Tables -/

namespace Table

theorem get_put_self (t : Table) (k : Nat) (v : wallet_value) : get (put t k v) k = some v := by
  induction t with
  | nil => simp [put, get]
  | cons e t ih =>
    obtain ⟨k', v'⟩ := e
    simp only [put]
    split_ifs with h1 h2
    · simp [get]
    · simp [get]
    · have h3 : ¬ k' = k := fun h => h2 h.symm
      simp [get, h3, ih]

theorem get_put_ne (t : Table) {j k : Nat} (v : wallet_value) (h : j ≠ k) :
    get (put t k v) j = get t j := by
  induction t with
  | nil =>
    have h3 : ¬ k = j := fun e => h e.symm
    simp [put, get, h3]
  | cons e t ih =>
    obtain ⟨k', v'⟩ := e
    have h3 : ¬ k = j := fun e => h e.symm
    simp only [put]
    split_ifs with h1 h2
    · simp [get, h3]
    · subst h2
      simp [get, h3]
    · simp [get, ih]

theorem get_del_self (t : Table) (k : Nat) : get (del t k) k = none := by
  induction t with
  | nil => simp [del, get]
  | cons e t ih =>
    obtain ⟨k', v'⟩ := e
    by_cases h : k' = k
    · simpa [del, h] using ih
    · simpa [del, h, get] using ih

theorem get_del_ne (t : Table) {j k : Nat} (h : j ≠ k) : get (del t k) j = get t j := by
  induction t with
  | nil => simp [del, get]
  | cons e t ih =>
    obtain ⟨k', v'⟩ := e
    have ih2 : get (List.filter (fun e => !decide (e.1 = k)) t) j = get t j := ih
    by_cases h1 : k' = k
    · subst h1
      have h2 : ¬ k' = j := fun e => h e.symm
      simp [del, get, h2, ih2]
    · by_cases h2 : k' = j
      · subst h2
        have h3 : ¬ k' = k := h1
        simp [del, h3, get]
      · simp [del, h1, get, h2, ih2]

theorem mem_put {t : Table} {k : Nat} {v : wallet_value} {e : Nat × wallet_value}
    (h : e ∈ put t k v) : e = (k, v) ∨ e ∈ t := by
  induction t with
  | nil => simpa [put] using h
  | cons a t ih =>
    obtain ⟨k', v'⟩ := a
    simp only [put] at h
    split_ifs at h with h1 h2
    · simpa using h
    · rcases List.mem_cons.1 h with h | h
      · exact Or.inl h
      · exact Or.inr (List.mem_cons_of_mem _ h)
    · rcases List.mem_cons.1 h with h | h
      · exact Or.inr (h ▸ List.mem_cons_self _ _)
      · rcases ih h with h | h
        · exact Or.inl h
        · exact Or.inr (List.mem_cons_of_mem _ h)

theorem ordered_nil : Ordered [] := List.Pairwise.nil

theorem ordered_put {t : Table} (h : Ordered t) (k : Nat) (v : wallet_value) :
    Ordered (put t k v) := by
  induction t with
  | nil => simp [put, Ordered]
  | cons a t ih =>
    obtain ⟨k', v'⟩ := a
    have hc := List.pairwise_cons.1 h
    simp only [put]
    split_ifs with h1 h2
    · refine List.pairwise_cons.2 ⟨?_, h⟩
      intro e he
      rcases List.mem_cons.1 he with he | he
      · subst he; exact h1
      · exact lt_trans h1 (hc.1 e he)
    · subst h2
      exact List.pairwise_cons.2 ⟨hc.1, hc.2⟩
    · refine List.pairwise_cons.2 ⟨?_, ih hc.2⟩
      intro e he
      rcases mem_put he with he | he
      · subst he
        show k' < k
        omega
      · exact hc.1 e he

theorem ordered_del {t : Table} (h : Ordered t) (k : Nat) : Ordered (del t k) :=
  List.Pairwise.filter _ h

theorem ordered_filter {t : Table} (h : Ordered t) (p : Nat × wallet_value → Bool) :
    Ordered (t.filter p) :=
  List.Pairwise.filter _ h

theorem mem_of_get {t : Table} {k : Nat} {v : wallet_value} (h : get t k = some v) :
    (k, v) ∈ t := by
  induction t with
  | nil => simp [get] at h
  | cons a t ih =>
    obtain ⟨k', v'⟩ := a
    simp only [get] at h
    split_ifs at h with h1
    · subst h1
      simp only [Option.some.injEq] at h
      subst h
      exact List.mem_cons_self _ _
    · exact List.mem_cons_of_mem _ (ih h)

theorem get_none_of_lt {t : Table} {k : Nat} (h : ∀ e ∈ t, k < e.1) : get t k = none := by
  induction t with
  | nil => simp [get]
  | cons a t ih =>
    obtain ⟨k', v'⟩ := a
    have h1 : k < k' := h (k', v') (List.mem_cons_self _ _)
    have h2 : ¬ k' = k := by omega
    simp only [get, h2, if_false]
    exact ih (fun e he => h e (List.mem_cons_of_mem _ he))

theorem get_of_mem {t : Table} (ho : Ordered t) {k : Nat} {v : wallet_value}
    (h : (k, v) ∈ t) : get t k = some v := by
  induction t with
  | nil => simp at h
  | cons a t ih =>
    obtain ⟨k', v'⟩ := a
    have hc := List.pairwise_cons.1 ho
    rcases List.mem_cons.1 h with h | h
    · simp only [Prod.mk.injEq] at h
      simp [get, h.1, h.2]
    · have h1 : k' < k := hc.1 (k, v) h
      have h2 : ¬ k' = k := by omega
      simp only [get, h2, if_false]
      exact ih hc.2 h

theorem get_filter {t : Table} (ho : Ordered t) (p : Nat × wallet_value → Bool) (k : Nat) :
    get (t.filter p) k = (get t k).filter (fun v => p (k, v)) := by
  induction t with
  | nil => simp [get]
  | cons a t ih =>
    obtain ⟨k', v'⟩ := a
    have hc := List.pairwise_cons.1 ho
    by_cases hp : p (k', v') = true
    · rw [List.filter_cons_of_pos hp]
      by_cases hk : k' = k
      · subst hk
        simp [get, Option.filter, hp]
      · simp [get, hk, ih hc.2]
    · rw [List.filter_cons_of_neg hp]
      by_cases hk : k' = k
      · subst hk
        have hn : get t k' = none := get_none_of_lt (fun e he => hc.1 e he)
        rw [ih hc.2, hn]
        simp [get, Option.filter, hp]
      · simp [get, hk, ih hc.2]

theorem seek_head {t : Table} (ho : Ordered t) (k : Nat) :
    (match seek t k with
      | [] => none
      | e :: _ => if e.1 = k then some e else none) = (get t k).map (fun v => (k, v)) := by
  induction t with
  | nil => simp [seek, get]
  | cons a t ih =>
    obtain ⟨k', v'⟩ := a
    have hc := List.pairwise_cons.1 ho
    by_cases hk : k ≤ k'
    · have hs : seek ((k', v') :: t) k = (k', v') :: seek t k := by
        simp [seek, hk]
      rw [hs]
      by_cases he : k' = k
      · subst he
        simp [get]
      · have hn : get t k = none :=
          get_none_of_lt (fun e h => by have := hc.1 e h; simp only at this; omega)
        simp [get, he, hn]
    · have hs : seek ((k', v') :: t) k = seek t k := by
        simp [seek, hk]
      have he : ¬ k' = k := by omega
      rw [hs, ih hc.2]
      simp [get, he]

end Table

/-! ## Keystore: entries, framing, encryption -/

namespace wallet_store

theorem decrypt_encrypt (P : Primitives) (x k iv : Nat) :
    decrypt P (encrypt P x k iv) k iv = x := by
  unfold decrypt encrypt
  exact Nat.xor_cancel_right _ _

theorem encrypt_decrypt (P : Primitives) (x k iv : Nat) :
    encrypt P (decrypt P x k iv) k iv = x := by
  unfold decrypt encrypt
  exact Nat.xor_cancel_right _ _

theorem entry_get_raw_put_self (s : wallet_store) (k : Nat) (v : wallet_value) :
    entry_get_raw (entry_put_raw s k v) k = v := by
  simp [entry_get_raw, entry_put_raw, Table.get_put_self]

theorem entry_get_raw_put_ne (s : wallet_store) {j k : Nat} (v : wallet_value) (h : j ≠ k) :
    entry_get_raw (entry_put_raw s k v) j = entry_get_raw s j := by
  simp [entry_get_raw, entry_put_raw, Table.get_put_ne _ _ h]

theorem entry_get_raw_erase_ne (s : wallet_store) {j k : Nat} (h : j ≠ k) :
    entry_get_raw (erase s k) j = entry_get_raw s j := by
  simp [entry_get_raw, erase, Table.get_del_ne _ h]

theorem entry_get_raw_congr {s s' : wallet_store} {k : Nat}
    (h : Table.get s'.table k = Table.get s.table k) :
    entry_get_raw s' k = entry_get_raw s k := by
  simp [entry_get_raw, h]

theorem salt_congr {s s' : wallet_store}
    (h1 : entry_get_raw s' salt_special = entry_get_raw s salt_special) : salt s' = salt s := by
  simp [salt, h1]

theorem wallet_key_congr (P : Primitives) {s s' : wallet_store}
    (hp : s'.password = s.password)
    (h1 : entry_get_raw s' salt_special = entry_get_raw s salt_special)
    (h2 : entry_get_raw s' wallet_key_special = entry_get_raw s wallet_key_special) :
    wallet_key P s' = wallet_key P s := by
  simp [wallet_key, salt, hp, h1, h2]

theorem valid_password_congr (P : Primitives) {s s' : wallet_store}
    (hp : s'.password = s.password)
    (h1 : entry_get_raw s' salt_special = entry_get_raw s salt_special)
    (h2 : entry_get_raw s' wallet_key_special = entry_get_raw s wallet_key_special)
    (h3 : entry_get_raw s' check_special = entry_get_raw s check_special) :
    valid_password P s' = valid_password P s := by
  simp [valid_password, check, wallet_key_congr P hp h1 h2, salt_congr h1, h3]

theorem seed_congr (P : Primitives) {s s' : wallet_store}
    (hp : s'.password = s.password)
    (h1 : entry_get_raw s' salt_special = entry_get_raw s salt_special)
    (h2 : entry_get_raw s' wallet_key_special = entry_get_raw s wallet_key_special)
    (h5 : entry_get_raw s' seed_special = entry_get_raw s seed_special) :
    seed P s' = seed P s := by
  simp [seed, wallet_key_congr P hp h1 h2, salt_congr h1, h5]

theorem deterministic_key_congr (P : Primitives) {s s' : wallet_store}
    (hp : s'.password = s.password)
    (h1 : entry_get_raw s' salt_special = entry_get_raw s salt_special)
    (h2 : entry_get_raw s' wallet_key_special = entry_get_raw s wallet_key_special)
    (h5 : entry_get_raw s' seed_special = entry_get_raw s seed_special) (i : Nat) :
    deterministic_key P s' i = deterministic_key P s i := by
  simp [deterministic_key, seed_congr P hp h1 h2 h5]

/-- A store passes `valid_password` exactly when the keystream of its wallet key is the
stored check value. -/
theorem valid_password_iff (P : Primitives) (s : wallet_store) :
    valid_password P s = true ↔ check s = P.aes_ctr (wallet_key P s) (owords0 (salt s)) := by
  simp [valid_password, encrypt]

theorem mem_seek {t : Table} {c : Nat} {e : Nat × wallet_value} :
    e ∈ Table.seek t c ↔ e ∈ t ∧ c ≤ e.1 := by
  simp [Table.seek, List.mem_filter]

theorem seek_cons_mem {t : Table} {c : Nat} {e : Nat × wallet_value} {rest : Table}
    (h : Table.seek t c = e :: rest) : e ∈ t ∧ c ≤ e.1 :=
  mem_seek.1 (h ▸ List.mem_cons_self _ _)

theorem deterministic_clear_loop_password (fuel : Nat) (s : wallet_store) (c : Nat) :
    (deterministic_clear_loop fuel s c).password = s.password := by
  induction fuel generalizing s c with
  | zero => rfl
  | succ fuel ih =>
    unfold deterministic_clear_loop
    split
    · rfl
    · split
      · rw [ih]; rfl
      · rw [ih]

/-- The loop of `deterministic_clear` started at `c` leaves every key below `c` alone. -/
theorem deterministic_clear_loop_get_lt (fuel : Nat) (s : wallet_store) (c : Nat) {k : Nat}
    (hk : k < c) :
    Table.get (deterministic_clear_loop fuel s c).table k = Table.get s.table k := by
  induction fuel generalizing s c with
  | zero => rfl
  | succ fuel ih =>
    unfold deterministic_clear_loop
    split
    · rfl
    · rename_i k0 v0 rest hseek
      have hm := seek_cons_mem hseek
      have hc : c ≤ k0 := hm.2
      split
      · rw [ih (erase s k0) k0 (by omega)]
        exact Table.get_del_ne _ (by omega)
      · exact ih s (k0 + 1) (by omega)

theorem seed_set_password (P : Primitives) (s : wallet_store) (prv_a : Nat) :
    (seed_set P s prv_a).password = s.password := by
  simp [seed_set, deterministic_clear, deterministic_index_set, entry_put_raw,
    deterministic_clear_loop_password]

/-- The function `seed_set` writes the seed and the index and no other reserved entry. -/
theorem seed_set_entry (P : Primitives) (s : wallet_store) (prv_a : Nat) {k : Nat}
    (hk : k < 7) (h5 : k ≠ 5) (h6 : k ≠ 6) :
    entry_get_raw (seed_set P s prv_a) k = entry_get_raw s k := by
  unfold seed_set deterministic_clear deterministic_index_set
  simp only []
  rw [entry_get_raw_put_ne _ _ (by simpa [deterministic_index_special] using h6)]
  rw [entry_get_raw_congr (deterministic_clear_loop_get_lt _ _ _ (by simpa [special_count] using hk))]
  exact entry_get_raw_put_ne _ _ (by simpa [seed_special] using h5)

theorem seed_set_seed_entry (P : Primitives) (s : wallet_store) (prv_a : Nat) :
    entry_get_raw (seed_set P s prv_a) seed_special =
      wallet_value.of_key (encrypt P prv_a (wallet_key P s) (owords0 (salt s))) := by
  unfold seed_set deterministic_clear deterministic_index_set
  simp only []
  rw [entry_get_raw_put_ne _ _ (by decide)]
  rw [entry_get_raw_congr (deterministic_clear_loop_get_lt _ _ _ (by decide))]
  exact entry_get_raw_put_self _ _ _

/-- What `create` leaves in the reserved entries that the password check reads. -/
theorem create_core (P : Primitives) (t : Table) (representative_a salt_l wallet_key seed : Nat)
    (ht : Table.get t version_special = none) :
    (create P t representative_a salt_l wallet_key seed).password = 0 ∧
    entry_get_raw (create P t representative_a salt_l wallet_key seed) version_special =
      wallet_value.of_key 3 ∧
    entry_get_raw (create P t representative_a salt_l wallet_key seed) salt_special =
      wallet_value.of_key salt_l ∧
    entry_get_raw (create P t representative_a salt_l wallet_key seed) wallet_key_special =
      wallet_value.of_key (encrypt P wallet_key 0 (owords0 salt_l)) ∧
    entry_get_raw (create P t representative_a salt_l wallet_key seed) check_special =
      wallet_value.of_key (encrypt P 0 wallet_key (owords0 salt_l)) := by
  unfold create
  simp only [ht]
  refine ⟨?_, ?_, ?_, ?_, ?_⟩
  · simp [entry_put_raw, seed_set_password]
  · rw [entry_get_raw_put_ne _ _ (by decide), seed_set_entry _ _ _ (by decide) (by decide) (by decide)]
    rw [entry_get_raw_put_ne _ _ (by decide), entry_get_raw_put_ne _ _ (by decide),
      entry_get_raw_put_ne _ _ (by decide)]
    show entry_get_raw (entry_put_raw (version_put _ _) salt_special _) version_special = _
    rw [entry_get_raw_put_ne _ _ (by decide)]
    exact entry_get_raw_put_self _ _ _
  · rw [entry_get_raw_put_ne _ _ (by decide), seed_set_entry _ _ _ (by decide) (by decide) (by decide)]
    rw [entry_get_raw_put_ne _ _ (by decide), entry_get_raw_put_ne _ _ (by decide),
      entry_get_raw_put_ne _ _ (by decide)]
    show entry_get_raw (entry_put_raw (version_put _ _) salt_special _) salt_special = _
    exact entry_get_raw_put_self _ _ _
  · rw [entry_get_raw_put_ne _ _ (by decide), seed_set_entry _ _ _ (by decide) (by decide) (by decide)]
    rw [entry_get_raw_put_ne _ _ (by decide), entry_get_raw_put_ne _ _ (by decide)]
    exact entry_get_raw_put_self _ _ _
  · rw [entry_get_raw_put_ne _ _ (by decide), seed_set_entry _ _ _ (by decide) (by decide) (by decide)]
    rw [entry_get_raw_put_ne _ _ (by decide)]
    exact entry_get_raw_put_self _ _ _

end wallet_store

/-! ## Keystore: classification and fetch -/

/-- The classification of a slot, as three equivalences. -/
theorem wallet_store.key_type_iff (value_a : wallet_value) :
    (wallet_store.key_type value_a = key_type.adhoc ↔ 2 ^ 64 ≤ value_a.key) ∧
    (wallet_store.key_type value_a = key_type.deterministic ↔
      value_a.key ≤ 2 ^ 64 ∧ value_a.key >>> 32 = 1) ∧
    (wallet_store.key_type value_a = key_type.unknown ↔
      ¬ (2 ^ 64 ≤ value_a.key) ∧ ¬ (value_a.key ≤ 2 ^ 64 ∧ value_a.key >>> 32 = 1)) := by
  have hs : value_a.key >>> 32 = value_a.key / 2 ^ 32 := Nat.shiftRight_eq_div_pow _ _
  unfold wallet_store.key_type wallet_store.uint64_max
  simp only [hs]
  by_cases h1 : value_a.key > 2 ^ 64 - 1
  · simp only [h1, if_true]
    refine ⟨by simp; omega, by simp; omega, by simp; omega⟩
  · simp only [h1, if_false]
    by_cases h2 : (value_a.key / 2 ^ 32) % 2 ^ 32 = 1
    · simp only [h2, if_true]
      refine ⟨by simp; omega, by simp; omega, by simp; omega⟩
    · simp only [h2, if_false]
      refine ⟨by simp; omega, by simp; omega, by simp; omega⟩

namespace wallet_store

theorem key_type_adhoc {v : wallet_value} (h : 2 ^ 64 ≤ v.key) :
    key_type v = rai.key_type.adhoc :=
  (key_type_iff v).1.2 h

theorem key_type_deterministic {v : wallet_value} (h : v.key ≤ 2 ^ 64)
    (h1 : v.key >>> 32 = 1) : key_type v = rai.key_type.deterministic :=
  (key_type_iff v).2.1.2 ⟨h, h1⟩

/-- A deterministic marker is not zero. -/
theorem ne_zero_of_shift {n : Nat} (h : n >>> 32 = 1) : n ≠ 0 := by
  intro h0
  subst h0
  simp at h

/-- An ad-hoc slot whose cleartext has the entry's public key fetches that cleartext. -/
theorem fetch_adhoc (P : Primitives) (s : wallet_store) (pub : Nat)
    (hv : valid_password P s = true) (h : 2 ^ 64 ≤ (entry_get_raw s pub).key)
    (hp : P.ed25519_publickey
      (decrypt P (entry_get_raw s pub).key (wallet_key P s) (owords0 (salt s))) = pub) :
    fetch P s pub =
      some (decrypt P (entry_get_raw s pub).key (wallet_key P s) (owords0 (salt s))) := by
  have hz : (entry_get_raw s pub).key ≠ 0 := by
    have : 0 < (2 : Nat) ^ 64 := by norm_num
    omega
  unfold fetch
  simp only [hv, if_true, hz, ne_eq, not_false_eq_true, key_type_adhoc h]
  simp [hp]

/-- A deterministic marker whose derived key has the entry's public key fetches that key. -/
theorem fetch_deterministic (P : Primitives) (s : wallet_store) (pub : Nat)
    (hv : valid_password P s = true) (h : (entry_get_raw s pub).key ≤ 2 ^ 64)
    (h1 : (entry_get_raw s pub).key >>> 32 = 1)
    (hp : P.ed25519_publickey
      (deterministic_key P s ((entry_get_raw s pub).key % 2 ^ 32)) = pub) :
    fetch P s pub = some (deterministic_key P s ((entry_get_raw s pub).key % 2 ^ 32)) := by
  have hz : (entry_get_raw s pub).key ≠ 0 := ne_zero_of_shift h1
  unfold fetch
  simp only [hv, if_true, hz, ne_eq, not_false_eq_true, key_type_deterministic h h1]
  rw [if_pos hp.symm]

/-- Whatever `fetch` returns has the requested public key. -/
theorem fetch_some_pub (P : Primitives) (s : wallet_store) (pub prv : Nat)
    (h : fetch P s pub = some prv) : P.ed25519_publickey prv = pub := by
  unfold fetch at h
  simp only [] at h
  split_ifs at h with h1 h2
  split at h
  · rename_i prv1 he
    split_ifs at h with h3
    simp only [Option.some.injEq] at h
    rw [← h, ← h3]
  · simp at h

end wallet_store

/-! ## Keystore: creation, rekey, password attempts -/

namespace wallet_store

theorem create_salt (P : Primitives) (t : Table) (representative_a salt_l wallet_key seed : Nat)
    (ht : Table.get t version_special = none) :
    salt (create P t representative_a salt_l wallet_key seed) = salt_l := by
  have h := create_core P t representative_a salt_l wallet_key seed ht
  simp [salt, h.2.2.1, wallet_value.of_key]

theorem create_wallet_key (P : Primitives) (t : Table)
    (representative_a salt_l wallet_key_a seed : Nat)
    (ht : Table.get t version_special = none) :
    wallet_key P (create P t representative_a salt_l wallet_key_a seed) = wallet_key_a := by
  have h := create_core P t representative_a salt_l wallet_key_a seed ht
  unfold wallet_key
  simp only [create_salt P t representative_a salt_l wallet_key_a seed ht, h.1, h.2.2.2.1,
    wallet_value.of_key]
  exact decrypt_encrypt P _ _ _

theorem create_check (P : Primitives) (t : Table) (representative_a salt_l wallet_key seed : Nat)
    (ht : Table.get t version_special = none) :
    check (create P t representative_a salt_l wallet_key seed) =
      P.aes_ctr wallet_key (owords0 salt_l) := by
  have h := create_core P t representative_a salt_l wallet_key seed ht
  simp [check, h.2.2.2.2, wallet_value.of_key, encrypt]

theorem create_valid_password (P : Primitives) (t : Table)
    (representative_a salt_l wallet_key seed : Nat)
    (ht : Table.get t version_special = none) :
    valid_password P (create P t representative_a salt_l wallet_key seed) = true := by
  rw [valid_password_iff, create_check P t _ _ _ _ ht, create_wallet_key P t _ _ _ _ ht,
    create_salt P t _ _ _ _ ht]

theorem create_version (P : Primitives) (t : Table) (representative_a salt_l wallet_key seed : Nat)
    (ht : Table.get t version_special = none) :
    version (create P t representative_a salt_l wallet_key seed) = 3 := by
  have h := create_core P t representative_a salt_l wallet_key seed ht
  simp [version, h.2.1, wallet_value.of_key]

/-- On an unlocked store `rekey` succeeds, caches the new derived key and rewrites only the
wallet-key envelope. -/
theorem rekey_of_valid (P : Primitives) (s : wallet_store) (password_a : String)
    (hv : valid_password P s = true) :
    rekey P s password_a =
      (false, ⟨s.table.put wallet_key_special (wallet_value.of_key
        (encrypt P (wallet_key P s) (derive_key P s password_a) (owords0 (salt s)))),
        derive_key P s password_a⟩) := by
  unfold rekey
  simp [hv, entry_put_raw, Nat.xor_self]

/-- The flag `attempt_password` returns is the failed check under the derived key. -/
theorem attempt_password_fst (P : Primitives) (s : wallet_store) (password_a : String)
    (seed : Nat) :
    (attempt_password P s password_a seed).1 =
      !valid_password P ⟨s.table, derive_key P s password_a⟩ := by
  unfold attempt_password
  simp only []
  split <;> rfl

/-- The check on a table whose envelope was replaced by `c`, under any cached key `d`. -/
theorem valid_password_put_envelope (P : Primitives) (s : wallet_store) (c d : Nat) :
    valid_password P ⟨s.table.put wallet_key_special (wallet_value.of_key c), d⟩ = true ↔
      check s = P.aes_ctr (c ^^^ P.aes_ctr d (owords0 (salt s))) (owords0 (salt s)) := by
  have e1 : Table.get (s.table.put wallet_key_special (wallet_value.of_key c)) salt_special =
      Table.get s.table salt_special :=
    Table.get_put_ne _ _ (by decide)
  have e3 : Table.get (s.table.put wallet_key_special (wallet_value.of_key c)) check_special =
      Table.get s.table check_special :=
    Table.get_put_ne _ _ (by decide)
  have e2 : Table.get (s.table.put wallet_key_special (wallet_value.of_key c))
      wallet_key_special = some (wallet_value.of_key c) :=
    Table.get_put_self _ _ _
  rw [valid_password_iff]
  simp only [wallet_value.of_key] at e1 e2 e3 ⊢
  simp only [check, salt, wallet_key, entry_get_raw, e1, e2, e3, decrypt]

/-- The check `valid_password` on the table left by `rekey`, under any cached key `d`. -/
theorem valid_password_after_rekey (P : Primitives) (s : wallet_store) (password_a : String)
    (hv : valid_password P s = true) (d : Nat) :
    valid_password P ⟨(rekey P s password_a).2.table, d⟩ = true ↔
      P.aes_ctr ((wallet_key P s ^^^ P.aes_ctr (derive_key P s password_a) (owords0 (salt s)))
        ^^^ P.aes_ctr d (owords0 (salt s))) (owords0 (salt s)) =
      P.aes_ctr (wallet_key P s) (owords0 (salt s)) := by
  rw [rekey_of_valid P s password_a hv]
  show valid_password P ⟨s.table.put wallet_key_special (wallet_value.of_key _), d⟩ = true ↔ _
  rw [valid_password_put_envelope, (valid_password_iff P s).1 hv]
  unfold encrypt
  exact eq_comm

theorem salt_after_rekey (P : Primitives) (s : wallet_store) (password_a : String) (d : Nat) :
    salt ⟨(rekey P s password_a).2.table, d⟩ = salt s := by
  unfold rekey
  split
  · simp [salt, entry_get_raw, entry_put_raw,
      Table.get_put_ne _ _ (show salt_special ≠ wallet_key_special by decide)]
  · rfl

theorem xor_xor_eq_left {a b c : Nat} (h : (a ^^^ b) ^^^ c = a) : b = c := by
  rw [Nat.xor_assoc] at h
  have h2 : a ^^^ (b ^^^ c) = a ^^^ 0 := by rw [h, Nat.xor_zero]
  exact Nat.xor_eq_zero.1 (Nat.xor_right_injective h2)

end wallet_store

/-! ## Keystore: the loop of `deterministic_clear` -/

namespace wallet_store

/-- In a table in key order the entry under the cursor is the least at or above the seek
key, it is the only entry of its key, and the entries after it are those above its key. -/
theorem seek_cons_ordered {t : Table} (ho : Table.Ordered t) {c k : Nat} {v : wallet_value}
    {rest : Table} (h : Table.seek t c = (k, v) :: rest) :
    (∀ e ∈ t, c ≤ e.1 → k ≤ e.1) ∧ (∀ e ∈ t, e.1 = k → e = (k, v)) ∧
    Table.seek t (k + 1) = rest ∧ Table.seek (Table.del t k) k = rest := by
  have hm := seek_cons_mem h
  have hso : Table.Ordered (Table.seek t c) := Table.ordered_filter ho _
  rw [h] at hso
  have hc := List.pairwise_cons.1 hso
  have hmin : ∀ e ∈ t, c ≤ e.1 → k ≤ e.1 := by
    intro e he hce
    have : e ∈ Table.seek t c := mem_seek.2 ⟨he, hce⟩
    rw [h] at this
    rcases List.mem_cons.1 this with h1 | h1
    · rw [h1]
    · exact le_of_lt (hc.1 e h1)
  have huniq : ∀ e ∈ t, e.1 = k → e = (k, v) := by
    intro e he hek
    have h1 := Table.get_of_mem ho (show (e.1, e.2) ∈ t from he)
    have h2 := Table.get_of_mem ho hm.1
    rw [hek, h2] at h1
    have h3 : v = e.2 := Option.some.inj h1
    rw [h3, ← hek]
  have hnext : Table.seek t (k + 1) = rest := by
    have h1 : Table.seek t (k + 1) = (Table.seek t c).filter (fun e => decide (k + 1 ≤ e.1)) := by
      unfold Table.seek
      rw [List.filter_filter]
      apply List.filter_congr
      intro e _
      have hck : c ≤ k := hm.2
      by_cases hke : k + 1 ≤ e.1
      · have : c ≤ e.1 := by omega
        simp [hke, this]
      · simp [hke]
    rw [h1, h]
    have hk : ¬ k + 1 ≤ k := by omega
    simp only [List.filter_cons, hk, decide_False, Bool.false_eq_true, if_false]
    rw [List.filter_eq_self]
    intro e he
    have := hc.1 e he
    simp only [decide_eq_true_eq]
    simp only at this
    omega
  refine ⟨hmin, huniq, hnext, ?_⟩
  rw [← hnext]
  unfold Table.seek Table.del
  rw [List.filter_filter]
  apply List.filter_congr
  intro e _
  by_cases h1 : k + 1 ≤ e.1
  · have h2 : k ≤ e.1 := by omega
    have h3 : ¬ e.1 = k := by omega
    simp [h1, h2, h3]
  · by_cases h2 : k ≤ e.1
    · have h3 : e.1 = k := by omega
      simp [h1, h3]
    · simp [h1, h2]

/-- On a table in key order, with fuel above the number of entries under the cursor, the
loop of `deterministic_clear` removes exactly the entries at or above the seek key whose
slot is a deterministic marker. -/
theorem deterministic_clear_loop_eq (fuel : Nat) (s : wallet_store) (c : Nat)
    (ho : Table.Ordered s.table) (hf : (Table.seek s.table c).length < fuel) :
    (deterministic_clear_loop fuel s c).table =
      s.table.filter (fun e => !(decide (c ≤ e.1) &&
        decide (key_type e.2 = rai.key_type.deterministic))) := by
  induction fuel generalizing s c with
  | zero => omega
  | succ fuel ih =>
    unfold deterministic_clear_loop
    split
    · rename_i hnil
      symm
      rw [List.filter_eq_self]
      intro e he
      have hne : ¬ c ≤ e.1 := by
        intro hce
        have : e ∈ Table.seek s.table c := mem_seek.2 ⟨he, hce⟩
        simp only [begin_at] at hnil
        rw [hnil] at this
        simp at this
      simp [hne]
    · rename_i k v rest hseek
      simp only [begin_at] at hseek
      obtain ⟨hmin, huniq, hnext, hdel⟩ := seek_cons_ordered ho hseek
      have hck : c ≤ k := (seek_cons_mem hseek).2
      have hlen : rest.length < fuel := by
        rw [hseek] at hf
        simp only [List.length_cons] at hf
        omega
      split
      · rename_i hdet
        rw [ih (erase s k) k (Table.ordered_del ho k) (by
          show (Table.seek (Table.del s.table k) k).length < fuel
          rw [hdel]; exact hlen)]
        show (Table.del s.table k).filter _ = _
        unfold Table.del
        rw [List.filter_filter]
        apply List.filter_congr
        intro e he
        by_cases h1 : e.1 = k
        · have he2 := huniq e he h1
          subst he2
          simp [hck, hdet]
        · by_cases h2 : c ≤ e.1
          · have h3 : k ≤ e.1 := hmin e he h2
            simp [h1, h2, h3]
          · have h3 : ¬ k ≤ e.1 := by omega
            simp [h1, h2, h3]
      · rename_i hdet
        rw [ih s (k + 1) ho (by rw [hnext]; exact hlen)]
        apply List.filter_congr
        intro e he
        by_cases h1 : e.1 = k
        · have he2 := huniq e he h1
          subst he2
          have hd : ¬ key_type v = rai.key_type.deterministic := fun h => hdet h
          simp [hd]
        · by_cases h2 : c ≤ e.1
          · have h3 : k + 1 ≤ e.1 := by
              have := hmin e he h2
              omega
            simp [h2, h3]
          · have h3 : ¬ k + 1 ≤ e.1 := by omega
            simp [h2, h3]

theorem deterministic_clear_loop_ordered (s : wallet_store) (ho : Table.Ordered s.table) :
    Table.Ordered (deterministic_clear_loop (s.table.length + 1) s special_count).table := by
  rw [deterministic_clear_loop_eq _ s _ ho
    (Nat.lt_succ_of_le (List.length_filter_le _ _))]
  exact Table.ordered_filter ho _

/-- A user entry that is left after the loop of `deterministic_clear` was there before and
is not a deterministic marker. -/
theorem deterministic_clear_loop_get (s : wallet_store) (ho : Table.Ordered s.table)
    (k : Nat) (v : wallet_value) (hk : special_count ≤ k)
    (h : Table.get (deterministic_clear_loop (s.table.length + 1) s special_count).table k
      = some v) :
    Table.get s.table k = some v ∧ key_type v ≠ rai.key_type.deterministic := by
  rw [deterministic_clear_loop_eq _ s _ ho (Nat.lt_succ_of_le (List.length_filter_le _ _)),
    Table.get_filter ho] at h
  cases hg : Table.get s.table k with
  | none => rw [hg] at h; simp [Option.filter] at h
  | some v2 =>
    rw [hg] at h
    simp only [Option.filter] at h
    split_ifs at h with hp
    simp only [Option.some.injEq] at h
    subst h
    refine ⟨rfl, ?_⟩
    intro hd
    simp [hk, hd] at hp

end wallet_store

/-! ## Keystore: the invariant under each operation -/

namespace wallet_store

theorem fetchable_congr (P : Primitives) {s s' : wallet_store} (hs : salt s' = salt s)
    (hw : wallet_key P s' = wallet_key P s)
    (h5 : entry_get_raw s' seed_special = entry_get_raw s seed_special)
    (k : Nat) (v : wallet_value) (h : fetchable P s k v) : fetchable P s' k v := by
  have hd : ∀ i, deterministic_key P s' i = deterministic_key P s i := by
    intro i
    simp [deterministic_key, seed, hs, hw, h5]
  unfold fetchable at h ⊢
  rw [hs, hw, hd]
  exact h

theorem fetchable_work (P : Primitives) (s : wallet_store) (k : Nat) (v : wallet_value)
    (work_a : Nat) (h : fetchable P s k v) : fetchable P s k ⟨v.key, work_a⟩ := h

/-- An account listed by `accounts` is a user key with an entry in the table. -/
theorem mem_accounts {s : wallet_store} (ho : Table.Ordered s.table) {pub : Nat}
    (h : pub ∈ accounts s) :
    special_count ≤ pub ∧ ∃ v, Table.get s.table pub = some v := by
  unfold accounts wallet_store.begin at h
  obtain ⟨e, he, rfl⟩ := List.mem_map.1 h
  have hm := mem_seek.1 he
  exact ⟨hm.2, e.2, Table.get_of_mem ho hm.1⟩

/-- On a store that keeps the invariant every listed account is fetched, and the key that
comes back has the account as its public key. -/
theorem invariant_fetch (P : Primitives) (s : wallet_store) (h : invariant P s) (pub : Nat)
    (hp : pub ∈ accounts s) :
    ∃ prv, fetch P s pub = some prv ∧ P.ed25519_publickey prv = pub := by
  obtain ⟨ho, hv, _, hall⟩ := h
  obtain ⟨h7, v, hg⟩ := mem_accounts ho hp
  have he : entry_get_raw s pub = v := by simp [entry_get_raw, hg]
  rcases hall pub v h7 hg with ⟨h1, h2⟩ | ⟨h1, h2, h3⟩
  · refine ⟨_, fetch_adhoc P s pub hv (by rw [he]; exact h1) (by rw [he]; exact h2), ?_⟩
    rw [he]; exact h2
  · refine ⟨_, fetch_deterministic P s pub hv (by rw [he]; exact h1) (by rw [he]; exact h2)
      (by rw [he]; exact h3), ?_⟩
    rw [he]; exact h3

/-- Writing under the index key or a user key, with a fetchable slot in the latter case,
keeps the invariant. -/
theorem invariant_put (P : Primitives) (s : wallet_store) (h : invariant P s) (k : Nat)
    (v : wallet_value) (hk : deterministic_index_special ≤ k)
    (hv : special_count ≤ k → fetchable P s k v) :
    invariant P (entry_put_raw s k v) := by
  obtain ⟨ho, hval, hsp, hall⟩ := h
  have hk6 : 6 ≤ k := hk
  have e1 := entry_get_raw_put_ne s v (show salt_special ≠ k by simp [salt_special]; omega)
  have e2 := entry_get_raw_put_ne s v
    (show wallet_key_special ≠ k by simp [wallet_key_special]; omega)
  have e3 := entry_get_raw_put_ne s v (show check_special ≠ k by simp [check_special]; omega)
  have e5 := entry_get_raw_put_ne s v (show seed_special ≠ k by simp [seed_special]; omega)
  have hp : (entry_put_raw s k v).password = s.password := rfl
  refine ⟨Table.ordered_put ho k v, (valid_password_congr P hp e1 e2 e3).trans hval, ?_, ?_⟩
  · intro j hj
    show (Table.get (Table.put s.table k v) j).isSome = true
    by_cases hjk : j = k
    · subst hjk
      rw [Table.get_put_self]
      rfl
    · rw [Table.get_put_ne _ _ hjk]
      exact hsp j hj
  · intro j w hj hg
    apply fetchable_congr P (salt_congr e1) (wallet_key_congr P hp e1 e2) e5
    by_cases hjk : j = k
    · subst hjk
      have : Table.get (Table.put s.table j v) j = some w := hg
      rw [Table.get_put_self] at this
      rw [← Option.some.inj this]
      exact hv hj
    · have : Table.get (Table.put s.table k v) j = some w := hg
      rw [Table.get_put_ne _ _ hjk] at this
      exact hall j w hj this

theorem invariant_insert_adhoc (P : Primitives) (s : wallet_store) (h : invariant P s)
    (prv : Nat) (hk : special_count ≤ P.ed25519_publickey prv)
    (hct : 2 ^ 64 ≤ encrypt P prv (wallet_key P s) (owords0 (salt s))) :
    invariant P (insert_adhoc P s prv).2 := by
  apply invariant_put P s h _ _ (le_trans (by decide) hk)
  intro _
  left
  refine ⟨hct, ?_⟩
  show P.ed25519_publickey (decrypt P (encrypt P prv _ _) _ _) = _
  rw [decrypt_encrypt]

theorem invariant_erase (P : Primitives) (s : wallet_store) (h : invariant P s) (pub : Nat)
    (hp : pub ∈ accounts s) : invariant P (erase s pub) := by
  obtain ⟨ho, hval, hsp, hall⟩ := h
  have hk7 : 7 ≤ pub := (mem_accounts ho hp).1
  have e1 := entry_get_raw_erase_ne s (show salt_special ≠ pub by simp [salt_special]; omega)
  have e2 := entry_get_raw_erase_ne s
    (show wallet_key_special ≠ pub by simp [wallet_key_special]; omega)
  have e3 := entry_get_raw_erase_ne s (show check_special ≠ pub by simp [check_special]; omega)
  have e5 := entry_get_raw_erase_ne s (show seed_special ≠ pub by simp [seed_special]; omega)
  have hpw : (erase s pub).password = s.password := rfl
  refine ⟨Table.ordered_del ho pub, (valid_password_congr P hpw e1 e2 e3).trans hval, ?_, ?_⟩
  · intro j hj
    have hj7 : j < 7 := hj
    show (Table.get (Table.del s.table pub) j).isSome = true
    rw [Table.get_del_ne _ (by omega)]
    exact hsp j hj
  · intro j w hj hg
    apply fetchable_congr P (salt_congr e1) (wallet_key_congr P hpw e1 e2) e5
    have hg2 : Table.get (Table.del s.table pub) j = some w := hg
    by_cases hjk : j = pub
    · subst hjk
      rw [Table.get_del_self] at hg2
      simp at hg2
    · rw [Table.get_del_ne _ hjk] at hg2
      exact hall j w hj hg2

theorem invariant_work_put (P : Primitives) (s : wallet_store) (h : invariant P s)
    (pub work_a : Nat) (hp : pub ∈ accounts s) : invariant P (work_put s pub work_a) := by
  obtain ⟨h7, v, hg⟩ := mem_accounts h.1 hp
  have he : entry_get_raw s pub = v := by simp [entry_get_raw, hg]
  unfold work_put
  simp only [he]
  exact invariant_put P s h pub _ (le_trans (by decide) h7)
    (fun _ => fetchable_work P s pub v work_a (h.2.2.2 pub v h7 hg))

theorem put_envelope_get (s : wallet_store) (c d : Nat) {j : Nat}
    (hj : j ≠ wallet_key_special) :
    entry_get_raw ⟨s.table.put wallet_key_special (wallet_value.of_key c), d⟩ j =
      entry_get_raw s j := by
  simp only [entry_get_raw, Table.get_put_ne _ _ hj]

theorem put_envelope_salt (s : wallet_store) (c d : Nat) :
    salt ⟨s.table.put wallet_key_special (wallet_value.of_key c), d⟩ = salt s := by
  unfold salt
  rw [put_envelope_get s c d (by decide)]

theorem put_envelope_wallet_key (P : Primitives) (s : wallet_store) (c d : Nat) :
    wallet_key P ⟨s.table.put wallet_key_special (wallet_value.of_key c), d⟩ =
      decrypt P c d (owords0 (salt s)) := by
  unfold wallet_key
  simp only [put_envelope_salt]
  simp only [entry_get_raw, Table.get_put_self, wallet_value.of_key]

theorem invariant_rekey (P : Primitives) (s : wallet_store) (h : invariant P s)
    (password_a : String) : invariant P (rekey P s password_a).2 := by
  obtain ⟨ho, hval, hsp, hall⟩ := h
  have hv2 := (valid_password_after_rekey P s password_a hval (derive_key P s password_a)).2
    (by rw [Nat.xor_cancel_right])
  rw [rekey_of_valid P s password_a hval] at hv2 ⊢
  simp only [] at hv2 ⊢
  have hs := put_envelope_salt s (encrypt P (wallet_key P s) (derive_key P s password_a)
    (owords0 (salt s))) (derive_key P s password_a)
  have hw : wallet_key P ⟨s.table.put wallet_key_special (wallet_value.of_key (encrypt P
      (wallet_key P s) (derive_key P s password_a) (owords0 (salt s)))),
      derive_key P s password_a⟩ = wallet_key P s := by
    rw [put_envelope_wallet_key]
    exact decrypt_encrypt P _ _ _
  have h5 := put_envelope_get s (encrypt P (wallet_key P s) (derive_key P s password_a)
    (owords0 (salt s))) (derive_key P s password_a) (show seed_special ≠ wallet_key_special
      by decide)
  refine ⟨Table.ordered_put ho _ _, hv2, ?_, ?_⟩
  · intro j hj
    by_cases hj2 : j = wallet_key_special
    · subst hj2
      show (Table.get (Table.put s.table wallet_key_special _) wallet_key_special).isSome = true
      rw [Table.get_put_self]
      rfl
    · show (Table.get (Table.put s.table wallet_key_special _) j).isSome = true
      rw [Table.get_put_ne _ _ hj2]
      exact hsp j hj
  · intro j w hj hg
    apply fetchable_congr P hs hw h5
    have hj7 : 7 ≤ j := hj
    have hg2 : Table.get (Table.put s.table wallet_key_special (wallet_value.of_key
      (encrypt P (wallet_key P s) (derive_key P s password_a) (owords0 (salt s))))) j =
      some w := hg
    rw [Table.get_put_ne _ _ (by simp [wallet_key_special]; omega)] at hg2
    exact hall j w hj hg2

theorem get_isSome_iff (t : Table) (k : Nat) :
    (Table.get t k).isSome = true ↔ k ∈ t.map Prod.fst := by
  induction t with
  | nil => simp [Table.get]
  | cons e t ih =>
    obtain ⟨k', v'⟩ := e
    by_cases h : k' = k
    · simp [Table.get, h]
    · have h2 : ¬ k = k' := fun e => h e.symm
      simp [Table.get, h, h2, ih]

theorem create_keys (P : Primitives) (representative_a salt_l wallet_key seed : Nat) :
    (create P [] representative_a salt_l wallet_key seed).table.map Prod.fst =
      [0, 1, 2, 3, 4, 5, 6] := by
  simp [create, Table.get, Table.put, version_put, entry_put_raw, seed_set, deterministic_clear,
    deterministic_clear_loop, deterministic_index_set, begin_at, Table.seek,
    wallet_value.of_key, version_special, version_current, version_3, salt_special,
    wallet_key_special, check_special, representative_special, seed_special,
    deterministic_index_special, special_count]

theorem invariant_create (P : Primitives) (representative_a salt_l wallet_key seed : Nat) :
    invariant P (create P [] representative_a salt_l wallet_key seed) := by
  have hk := create_keys P representative_a salt_l wallet_key seed
  refine ⟨?_, create_valid_password P [] _ _ _ _ rfl, ?_, ?_⟩
  · unfold Table.Ordered
    have : List.Pairwise (fun a b : Nat => a < b)
        ((create P [] representative_a salt_l wallet_key seed).table.map Prod.fst) := by
      rw [hk]; decide
    exact (List.pairwise_map.1 this)
  · intro k hk7
    rw [get_isSome_iff, hk]
    have : k < 7 := hk7
    interval_cases k <;> simp
  · intro k v hk7 hg
    have h1 : (Table.get (create P [] representative_a salt_l wallet_key seed).table k).isSome
        = true := by rw [hg]; rfl
    rw [get_isSome_iff, hk] at h1
    have : 7 ≤ k := hk7
    simp at h1
    omega

theorem invariant_seed_set (P : Primitives) (s : wallet_store) (h : invariant P s)
    (prv_a : Nat) : invariant P (seed_set P s prv_a) := by
  obtain ⟨ho, hval, hsp, hall⟩ := h
  have e1 := seed_set_entry P s prv_a (show salt_special < 7 by decide) (by decide) (by decide)
  have e2 := seed_set_entry P s prv_a (show wallet_key_special < 7 by decide) (by decide)
    (by decide)
  have e3 := seed_set_entry P s prv_a (show check_special < 7 by decide) (by decide)
    (by decide)
  have hp := seed_set_password P s prv_a
  have hs := salt_congr e1
  have hw := wallet_key_congr P hp e1 e2
  have ho0 : Table.Ordered (entry_put_raw s seed_special (wallet_value.of_key
      (encrypt P prv_a (wallet_key P s) (owords0 (salt s))))).table :=
    Table.ordered_put ho _ _
  refine ⟨?_, (valid_password_congr P hp e1 e2 e3).trans hval, ?_, ?_⟩
  · exact Table.ordered_put (deterministic_clear_loop_ordered _ ho0) _ _
  · intro j hj
    show (Table.get (Table.put (deterministic_clear_loop _ _ _).table
      deterministic_index_special _) j).isSome = true
    by_cases h6 : j = deterministic_index_special
    · subst h6
      rw [Table.get_put_self]; rfl
    · rw [Table.get_put_ne _ _ h6, deterministic_clear_loop_get_lt _ _ _ hj]
      show (Table.get (Table.put s.table seed_special _) j).isSome = true
      by_cases h5 : j = seed_special
      · subst h5
        rw [Table.get_put_self]; rfl
      · rw [Table.get_put_ne _ _ h5]
        exact hsp j hj
  · intro j w hj hg
    have hj7 : 7 ≤ j := hj
    have hg1 : Table.get (Table.put (deterministic_clear_loop
        ((entry_put_raw s seed_special (wallet_value.of_key (encrypt P prv_a (wallet_key P s)
          (owords0 (salt s))))).table.length + 1)
        (entry_put_raw s seed_special (wallet_value.of_key (encrypt P prv_a (wallet_key P s)
          (owords0 (salt s))))) special_count).table
        deterministic_index_special (wallet_value.of_key 0)) j = some w := hg
    rw [Table.get_put_ne _ _ (by simp [deterministic_index_special]; omega)] at hg1
    obtain ⟨hg2, hnd⟩ := deterministic_clear_loop_get _ ho0 j w hj hg1
    have hg3 : Table.get (Table.put s.table seed_special (wallet_value.of_key
        (encrypt P prv_a (wallet_key P s) (owords0 (salt s))))) j = some w := hg2
    rw [Table.get_put_ne _ _ (by simp [seed_special]; omega)] at hg3
    rcases hall j w hj hg3 with ⟨h1, h2⟩ | ⟨h1, h2, _⟩
    · left
      rw [hs, hw]
      exact ⟨h1, h2⟩
    · exact absurd (key_type_deterministic h1 h2) hnd

end wallet_store

/-! ## Keystore: `deterministic_insert` -/

namespace wallet_store

theorem store_exists_eq (s : wallet_store) (ho : Table.Ordered s.table) (k : Nat) :
    store_exists s k = (Table.get s.table k).isSome := by
  unfold store_exists find begin_at
  rw [Table.seek_head ho k]
  cases Table.get s.table k <;> rfl

theorem marker_eq (i : Nat) (h : i < 2 ^ 32) : ((1 <<< 32) ||| i) % 2 ^ 64 = 2 ^ 32 + i := by
  have h1 : (1 <<< 32 : Nat) = 2 ^ 32 * 1 := by decide
  rw [h1, ← Nat.mul_add_lt_is_or h]
  have : (2 : Nat) ^ 32 = 4294967296 := by norm_num
  omega

/-- When the loop of `deterministic_insert` ends, it ends on an index below `2^32` whose
derived public key is not in the table. -/
theorem deterministic_insert_loop_some (P : Primitives) (s : wallet_store)
    (fuel index result : Nat) (r : Nat × Nat)
    (h : deterministic_insert_loop P s fuel index result = some r) (hi : index < 2 ^ 32)
    (hr : result = P.ed25519_publickey (deterministic_key P s index)) :
    r.1 < 2 ^ 32 ∧ r.2 = P.ed25519_publickey (deterministic_key P s r.1) ∧
      store_exists s r.2 = false := by
  induction fuel generalizing index result with
  | zero => simp [deterministic_insert_loop] at h
  | succ fuel ih =>
    unfold deterministic_insert_loop at h
    split_ifs at h with he
    · exact ih _ _ h (Nat.mod_lt _ (by norm_num)) rfl
    · simp only [Option.some.injEq] at h
      subst h
      exact ⟨hi, hr, by simpa using he⟩

/-- The loop of `deterministic_insert` started at `d` ends on the least index `i ≥ d` below
`2^32` whose derived public key is not in the table, when there is one. -/
theorem deterministic_insert_loop_find (P : Primitives) (s : wallet_store) (i : Nat)
    (hi : i < 2 ^ 32)
    (hne : store_exists s (P.ed25519_publickey (deterministic_key P s i)) = false)
    (fuel d : Nat) (hdi : d ≤ i) (hf : i - d < fuel)
    (hex : ∀ j, d ≤ j → j < i →
      store_exists s (P.ed25519_publickey (deterministic_key P s j)) = true) :
    deterministic_insert_loop P s fuel d (P.ed25519_publickey (deterministic_key P s d)) =
      some (i, P.ed25519_publickey (deterministic_key P s i)) := by
  induction fuel generalizing d with
  | zero => omega
  | succ fuel ih =>
    unfold deterministic_insert_loop
    by_cases hd : d = i
    · subst hd
      simp [hne]
    · have hlt : d < i := by omega
      have hmod : (d + 1) % 2 ^ 32 = d + 1 := Nat.mod_eq_of_lt (by omega)
      simp only [hex d (le_refl d) hlt, if_true, hmod]
      exact ih (d + 1) (by omega) (by omega) (fun j h1 h2 => hex j (by omega) h2)

/-- A call of `deterministic_insert` that returns has written a marker under a new user
key and stepped the index. -/
theorem deterministic_insert_some (P : Primitives) (s : wallet_store)
    (r : Nat × wallet_store) (h : deterministic_insert P s = some r) :
    ∃ i, i < 2 ^ 32 ∧ r.1 = P.ed25519_publickey (deterministic_key P s i) ∧
      store_exists s r.1 = false ∧
      r.2 = deterministic_index_set
        (entry_put_raw s r.1 (wallet_value.of_key (2 ^ 32 + i))) ((i + 1) % 2 ^ 32) := by
  unfold deterministic_insert at h
  simp only [] at h
  split at h
  · simp at h
  · rename_i i res hl
    have hloop := deterministic_insert_loop_some P s _ _ _ (i, res) hl
      (by unfold deterministic_index_get; exact Nat.mod_lt _ (by norm_num)) rfl
    simp only [Option.some.injEq] at h
    subst h
    refine ⟨i, hloop.1, hloop.2.1, hloop.2.2, ?_⟩
    simp only [marker_eq i hloop.1]

theorem invariant_deterministic_insert (P : Primitives) (s : wallet_store)
    (h : invariant P s) (r : Nat × wallet_store) (hr : deterministic_insert P s = some r) :
    invariant P r.2 := by
  obtain ⟨i, hi, hpub, hne, hst⟩ := deterministic_insert_some P s r hr
  have h7 : special_count ≤ r.1 := by
    by_contra hlt
    have hsome := h.2.2.1 r.1 (by omega)
    rw [store_exists_eq s h.1, hsome] at hne
    simp at hne
  rw [hst]
  have hi2 : (2 : Nat) ^ 32 = 4294967296 := by norm_num
  apply invariant_put P _ _ _ _ (le_refl _) (fun hc => absurd hc (by decide))
  apply invariant_put P s h _ _ (le_trans (by decide) h7)
  intro _
  right
  simp only [wallet_value.of_key]
  refine ⟨by omega, ?_, ?_⟩
  · rw [Nat.shiftRight_eq_div_pow]
    omega
  · have : (2 ^ 32 + i) % 2 ^ 32 = i := by omega
    rw [this, ← hpub]

theorem reachable_invariant (P : Primitives) (s : wallet_store) (h : reachable P s) :
    invariant P s := by
  induction h with
  | create representative_a salt_l wallet_key seed =>
    exact invariant_create P representative_a salt_l wallet_key seed
  | insert_adhoc s prv _ hk hct ih => exact invariant_insert_adhoc P s ih prv hk hct
  | deterministic_insert s r _ hr ih => exact invariant_deterministic_insert P s ih r hr
  | rekey s password_a _ ih => exact invariant_rekey P s ih password_a
  | seed_set s prv_a _ ih => exact invariant_seed_set P s ih prv_a
  | erase s pub _ hp ih => exact invariant_erase P s ih pub hp
  | work_put s pub work_a _ hp ih => exact invariant_work_put P s ih pub work_a hp

/-- The body of C1. -/
theorem reachable_fetch (P : Primitives) (s : wallet_store) (h : reachable P s) (pub : Nat)
    (hp : pub ∈ accounts s) :
    ∃ prv, fetch P s pub = some prv ∧ P.ed25519_publickey prv = pub :=
  invariant_fetch P s (reachable_invariant P s h) pub hp

end wallet_store

/-! ## Claim C1 -/

/-- C1 (counterexample): on the example wallet, `insert_adhoc` of the private key equal to
the keystream stores the slot 0 under the account `1240 * 2^64 + 2`, which `accounts` lists
and `fetch` does not resolve; and `insert_adhoc` of the private key 0, whose public key is
the reserved key 2, overwrites the wallet-key envelope, after which the account 13 inserted
before is listed and not fetched. -/
theorem C1_counterexample :
    (1240 * 2 ^ 64 + 2 ∈ wallet_store.accounts
      (wallet_store.insert_adhoc example_primitives example_store (1240 * 2 ^ 64)).2 ∧
     wallet_store.fetch example_primitives
      (wallet_store.insert_adhoc example_primitives example_store (1240 * 2 ^ 64)).2
      (1240 * 2 ^ 64 + 2) = none) ∧
    (13 ∈ wallet_store.accounts (wallet_store.insert_adhoc example_primitives
      (wallet_store.insert_adhoc example_primitives example_store 11).2 0).2 ∧
     wallet_store.fetch example_primitives (wallet_store.insert_adhoc example_primitives
      (wallet_store.insert_adhoc example_primitives example_store 11).2 0).2 13 = none) := by
  decide

/-- C1 (amended): for every keystore state reached from `create` (on an empty table)
through `insert_adhoc` of private keys whose public key is not a reserved key (it is at
least 7) and whose ciphertext is at least `2^64`, `deterministic_insert`, `rekey`,
`seed_set`, and `erase` and `work_put` of accounts of the wallet, and for every public key
`P` returned by `accounts ()`, `fetch (P)` reports success and returns a private key whose
Ed25519 public key equals `P`. -/
theorem C1_fetch_accounts (P : Primitives) (s : wallet_store)
    (h : wallet_store.reachable P s) (pub : Nat) (hp : pub ∈ wallet_store.accounts s) :
    ∃ prv, wallet_store.fetch P s pub = some prv ∧ P.ed25519_publickey prv = pub :=
  wallet_store.reachable_fetch P s h pub hp

set_option maxRecDepth 20000 in
/-- C1 (witness): the example wallet after `insert_adhoc (11)` and one
`deterministic_insert`; the ad-hoc account 13 and the deterministic account are fetched. -/
theorem C1_fetch_accounts_witness :
    wallet_store.reachable example_primitives example_deterministic.2 ∧
    (∃ prv, wallet_store.fetch example_primitives example_deterministic.2 13 = some prv ∧
      example_primitives.ed25519_publickey prv = 13) ∧
    (∃ prv, wallet_store.fetch example_primitives example_deterministic.2
      example_deterministic.1 = some prv ∧
      example_primitives.ed25519_publickey prv = example_deterministic.1) :=
  have hr : wallet_store.reachable example_primitives example_deterministic.2 :=
    wallet_store.reachable.deterministic_insert example_store_adhoc example_deterministic
      (wallet_store.reachable.insert_adhoc example_store 11
        (wallet_store.reachable.create 100 (5 * 2 ^ 128 + 9) 1234 77) (by decide) (by decide))
      (by decide)
  ⟨hr, C1_fetch_accounts example_primitives example_deterministic.2 hr 13 (by decide),
    C1_fetch_accounts example_primitives example_deterministic.2 hr example_deterministic.1
      (by decide)⟩

/-! ## Claim C5 -/

namespace wallet_store

theorem deterministic_key_public (P : Primitives) (s : wallet_store) (i : Nat) :
    P.ed25519_publickey (deterministic_key P s i) = deterministic_public P (seed P s) i := rfl

/-- After `seed_set (sd)` the decrypted seed is `sd` and the stored index is 0. -/
theorem seed_set_seed (P : Primitives) (s : wallet_store) (sd : Nat) :
    seed P (seed_set P s sd) = sd ∧ deterministic_index_get (seed_set P s sd) = 0 := by
  have e1 := seed_set_entry P s sd (show salt_special < 7 by decide) (by decide) (by decide)
  have e2 := seed_set_entry P s sd (show wallet_key_special < 7 by decide) (by decide)
    (by decide)
  have hp := seed_set_password P s sd
  constructor
  · unfold seed
    simp only [wallet_key_congr P hp e1 e2, salt_congr e1, seed_set_seed_entry,
      wallet_value.of_key]
    exact decrypt_encrypt P _ _ _
  · unfold deterministic_index_get seed_set deterministic_clear deterministic_index_set
    simp only [entry_get_raw_put_self, wallet_value.of_key]
    rfl

/-- The closed form of a call of `deterministic_insert` that finds the index `i`. -/
theorem deterministic_insert_eq (P : Primitives) (s : wallet_store) (i : Nat)
    (hi : i < 2 ^ 32) (hd : deterministic_index_get s ≤ i)
    (hex : ∀ j, deterministic_index_get s ≤ j → j < i →
      store_exists s (deterministic_public P (seed P s) j) = true)
    (hne : store_exists s (deterministic_public P (seed P s) i) = false) :
    deterministic_insert P s =
      some (deterministic_public P (seed P s) i,
        deterministic_index_set (entry_put_raw s (deterministic_public P (seed P s) i)
          (wallet_value.of_key (2 ^ 32 + i))) ((i + 1) % 2 ^ 32)) := by
  have hl := deterministic_insert_loop_find P s i hi hne (2 ^ 32) (deterministic_index_get s)
    hd (by omega) hex
  unfold deterministic_insert
  simp only [hl, marker_eq i hi]
  rfl

/-- The stored index after the two writes of `deterministic_insert`. -/
theorem deterministic_index_get_set (s : wallet_store) (i : Nat) :
    deterministic_index_get (deterministic_index_set s i) = i % 2 ^ 32 := by
  unfold deterministic_index_get deterministic_index_set
  rw [entry_get_raw_put_self]
  rfl

/-- The body of the single-call part of C5. -/
theorem deterministic_insert_call (P : Primitives) (s : wallet_store) (i : Nat)
    (hi : i < 2 ^ 32) (hd : deterministic_index_get s ≤ i)
    (hex : ∀ j, deterministic_index_get s ≤ j → j < i →
      store_exists s (deterministic_public P (seed P s) j) = true)
    (hne : store_exists s (deterministic_public P (seed P s) i) = false) :
    ∃ s2, deterministic_insert P s = some (deterministic_public P (seed P s) i, s2) ∧
      deterministic_index_get s2 = (i + 1) % 2 ^ 32 := by
  refine ⟨_, deterministic_insert_eq P s i hi hd hex hne, ?_⟩
  rw [deterministic_index_get_set, Nat.mod_mod]

theorem deterministic_insert_n_succ (P : Primitives) (n : Nat) (s : wallet_store)
    (r : Nat × wallet_store) (rs : List Nat × wallet_store)
    (h1 : deterministic_insert P s = some r) (h2 : deterministic_insert_n P n r.2 = some rs) :
    deterministic_insert_n P (n + 1) s = some (r.1 :: rs.1, rs.2) := by
  rw [deterministic_insert_n]
  simp only [h1, h2]

/-- The calls from index `m` on, when the next `n` derived keys are user keys, pairwise
distinct, and the table holds only reserved keys and the keys derived below `m`. -/
theorem deterministic_insert_n_from (P : Primitives) (sd : Nat) (n m : Nat)
    (s : wallet_store) (ho : Table.Ordered s.table) (hs : seed P s = sd)
    (hm : deterministic_index_get s = m) (hlt : m + n < 2 ^ 32)
    (htab : ∀ k, store_exists s k = true →
      k < special_count ∨ ∃ j, j < m ∧ k = deterministic_public P sd j)
    (h7 : ∀ i, i < m + n → special_count ≤ deterministic_public P sd i)
    (hinj : ∀ i j, i < m + n → j < m + n →
      deterministic_public P sd i = deterministic_public P sd j → i = j) :
    ∃ s2, deterministic_insert_n P n s =
        some ((List.range n).map (fun i => deterministic_public P sd (m + i)), s2) ∧
      deterministic_index_get s2 = m + n := by
  induction n generalizing m s with
  | zero => exact ⟨s, rfl, hm⟩
  | succ n ih =>
    have hne : store_exists s (deterministic_public P (seed P s) m) = false := by
      rw [hs]
      by_contra hex
      rw [Bool.not_eq_false] at hex
      rcases htab _ hex with h | ⟨j, hj, hjk⟩
      · have := h7 m (by omega)
        omega
      · have := hinj m j (by omega) (by omega) hjk
        omega
    have hcall := deterministic_insert_eq P s m (by omega) (le_of_eq hm)
      (fun j h1 h2 => by omega) hne
    rw [hs] at hcall
    have hk7 : 7 ≤ deterministic_public P sd m := h7 m (by omega)
    have e : ∀ j, j < 6 → entry_get_raw (deterministic_index_set (entry_put_raw s
        (deterministic_public P sd m) (wallet_value.of_key (2 ^ 32 + m)))
        ((m + 1) % 2 ^ 32)) j = entry_get_raw s j := by
      intro j hj
      unfold deterministic_index_set
      rw [entry_get_raw_put_ne _ _ (by simp [deterministic_index_special]; omega),
        entry_get_raw_put_ne _ _ (by omega)]
    have hpw : (deterministic_index_set (entry_put_raw s (deterministic_public P sd m)
        (wallet_value.of_key (2 ^ 32 + m))) ((m + 1) % 2 ^ 32)).password = s.password := rfl
    obtain ⟨s2, h1, h2⟩ := ih (m + 1)
      (deterministic_index_set (entry_put_raw s (deterministic_public P sd m)
        (wallet_value.of_key (2 ^ 32 + m))) ((m + 1) % 2 ^ 32))
      (Table.ordered_put (Table.ordered_put ho _ _) _ _)
      ((seed_congr P hpw (e 1 (by omega)) (e 2 (by omega)) (e 5 (by omega))).trans hs)
      (by rw [deterministic_index_get_set, Nat.mod_mod, Nat.mod_eq_of_lt (by omega)])
      (by omega)
      (by
        intro k hk
        rw [store_exists_eq _ (Table.ordered_put (Table.ordered_put ho _ _) _ _)] at hk
        by_cases hk6 : k = deterministic_index_special
        · left; rw [hk6]; decide
        · by_cases hkm : k = deterministic_public P sd m
          · right; exact ⟨m, by omega, hkm⟩
          · have hk2 : (Table.get (Table.put (Table.put s.table (deterministic_public P sd m)
                (wallet_value.of_key (2 ^ 32 + m))) deterministic_index_special
                (wallet_value.of_key ((m + 1) % 2 ^ 32))) k).isSome = true := hk
            rw [Table.get_put_ne _ _ hk6, Table.get_put_ne _ _ hkm,
              ← store_exists_eq s ho] at hk2
            rcases htab k hk2 with h | ⟨j, hj, hjk⟩
            · left; exact h
            · right; exact ⟨j, by omega, hjk⟩)
      (fun i hi => h7 i (by omega))
      (fun i j hi hj => hinj i j (by omega) (by omega))
    refine ⟨s2, ?_, by rw [h2]; omega⟩
    rw [deterministic_insert_n_succ P n s _ _ hcall h1]
    have hl : (List.range (n + 1)).map (fun i => deterministic_public P sd (m + i)) =
        deterministic_public P sd m ::
          (List.range n).map (fun i => deterministic_public P sd (m + 1 + i)) := by
      rw [List.range_succ_eq_map, List.map_cons, List.map_map, Nat.add_zero]
      refine congrArg (List.cons _) ?_
      apply List.map_congr_left
      intro i _
      simp only [Function.comp]
      rw [show m + i.succ = m + 1 + i by omega]
    rw [hl]

/-- On a table in key order without user entries only reserved keys exist. -/
theorem store_exists_no_accounts (s : wallet_store) (ho : Table.Ordered s.table)
    (ha : accounts s = []) (k : Nat) (hk : store_exists s k = true) : k < special_count := by
  by_contra h7
  rw [store_exists_eq s ho] at hk
  cases hg : Table.get s.table k with
  | none => rw [hg] at hk; simp at hk
  | some v =>
    have hm : (k, v) ∈ Table.seek s.table special_count :=
      mem_seek.2 ⟨Table.mem_of_get hg, by simp only; omega⟩
    have : k ∈ accounts s := List.mem_map.2 ⟨(k, v), hm, rfl⟩
    rw [ha] at this
    simp at this

/-- The body of C5. -/
theorem seed_set_deterministic_insert (P : Primitives) (s0 : wallet_store) (sd : Nat) :
    (seed P (seed_set P s0 sd) = sd ∧ deterministic_index_get (seed_set P s0 sd) = 0) ∧
    (∀ (s : wallet_store) (i : Nat), seed P s = sd → i < 2 ^ 32 →
      deterministic_index_get s ≤ i →
      (∀ j, deterministic_index_get s ≤ j → j < i →
        store_exists s (deterministic_public P sd j) = true) →
      store_exists s (deterministic_public P sd i) = false →
      ∃ s2, deterministic_insert P s = some (deterministic_public P sd i, s2) ∧
        deterministic_index_get s2 = (i + 1) % 2 ^ 32) ∧
    (∀ n : Nat, Table.Ordered s0.table → accounts (seed_set P s0 sd) = [] → n < 2 ^ 32 →
      (∀ i, i < n → special_count ≤ deterministic_public P sd i) →
      (∀ i j, i < n → j < n →
        deterministic_public P sd i = deterministic_public P sd j → i = j) →
      ∃ s2, deterministic_insert_n P n (seed_set P s0 sd) =
          some ((List.range n).map (fun i => deterministic_public P sd i), s2) ∧
        deterministic_index_get s2 = n) := by
  have hseed := seed_set_seed P s0 sd
  refine ⟨hseed, ?_, ?_⟩
  · intro s i hs hi hd hex hne
    rw [← hs] at hex hne ⊢
    exact deterministic_insert_call P s i hi hd hex hne
  · intro n ho ha hn h7 hinj
    have ho2 : Table.Ordered (seed_set P s0 sd).table :=
      Table.ordered_put (deterministic_clear_loop_ordered _ (Table.ordered_put ho _ _)) _ _
    have := deterministic_insert_n_from P sd n 0 (seed_set P s0 sd) ho2 hseed.1 hseed.2
      (by omega) (fun k hk => Or.inl (store_exists_no_accounts _ ho2 ha k hk))
      (fun i hi => h7 i (by omega)) (fun i j hi hj => hinj i j (by omega) (by omega))
    simpa using this

end wallet_store

set_option maxRecDepth 20000 in
/-- C5 (counterexample): (1) on a store with seed 5 whose stored index is `2^32 - 1`, the
key derived for `i = 2^32 - 1` is not in the wallet, `deterministic_insert` returns it and
stores the index 0, not `i + 1 = 2^32`; (2) in the instance whose derived keys collide in
pairs, after `seed_set (0)` on a wallet without user entries the first two calls return the
keys 7 and 8 (indices 0 and 2) and leave the index 3, while the keys for `i = 0, 1` are 7
and 7. -/
theorem C5_counterexample :
    (wallet_store.deterministic_index_get (wallet_store.deterministic_index_set
        (wallet_store.seed_set example_primitives example_store 5) (2 ^ 32 - 1)) = 2 ^ 32 - 1 ∧
     wallet_store.store_exists (wallet_store.deterministic_index_set
        (wallet_store.seed_set example_primitives example_store 5) (2 ^ 32 - 1))
        (wallet_store.deterministic_public example_primitives 5 (2 ^ 32 - 1)) = false ∧
     (wallet_store.deterministic_insert example_primitives (wallet_store.deterministic_index_set
        (wallet_store.seed_set example_primitives example_store 5) (2 ^ 32 - 1))).map
        (fun r => (r.1, wallet_store.deterministic_index_get r.2)) =
      some (wallet_store.deterministic_public example_primitives 5 (2 ^ 32 - 1), 0)) ∧
    (wallet_store.accounts (wallet_store.seed_set example_primitives_colliding
        (wallet_store.create example_primitives_colliding [] 100 (5 * 2 ^ 128 + 9) 1234 77) 0)
        = [] ∧
     (wallet_store.deterministic_insert_n example_primitives_colliding 2
        (wallet_store.seed_set example_primitives_colliding
          (wallet_store.create example_primitives_colliding [] 100 (5 * 2 ^ 128 + 9) 1234 77)
          0)).map (fun r => (r.1, wallet_store.deterministic_index_get r.2)) =
      some ([7, 8], 3) ∧
     [0, 1].map (wallet_store.deterministic_public example_primitives_colliding 0) = [7, 7]) := by
  decide

/-- C5 (amended): after `seed_set (s)` the decrypted seed is `s` and the stored index is 0.
Each `deterministic_insert` call on a store with seed `s` returns
`Ed25519Pub (Blake2b-256 (s ‖ big_endian_u32 (i)))` for the smallest index `i` at or above
the stored deterministic index and below `2^32` whose derived public key is not already in
the wallet table, when there is one, and stores `(i + 1) mod 2^32` as the new deterministic
index. So, for `N < 2^32`, with no user entries after the `seed_set` and the derived public
keys for `i = 0..N-1` pairwise distinct and none of them a reserved key, the first `N` calls
return the keys for `i = 0..N-1` and the index ends at `N`. -/
theorem C5_deterministic_insert (P : Primitives) (s0 : wallet_store) (sd : Nat) :
    (wallet_store.seed P (wallet_store.seed_set P s0 sd) = sd ∧
      wallet_store.deterministic_index_get (wallet_store.seed_set P s0 sd) = 0) ∧
    (∀ (s : wallet_store) (i : Nat), wallet_store.seed P s = sd → i < 2 ^ 32 →
      wallet_store.deterministic_index_get s ≤ i →
      (∀ j, wallet_store.deterministic_index_get s ≤ j → j < i →
        wallet_store.store_exists s (wallet_store.deterministic_public P sd j) = true) →
      wallet_store.store_exists s (wallet_store.deterministic_public P sd i) = false →
      ∃ s2, wallet_store.deterministic_insert P s =
          some (wallet_store.deterministic_public P sd i, s2) ∧
        wallet_store.deterministic_index_get s2 = (i + 1) % 2 ^ 32) ∧
    (∀ n : Nat, Table.Ordered s0.table →
      wallet_store.accounts (wallet_store.seed_set P s0 sd) = [] → n < 2 ^ 32 →
      (∀ i, i < n → wallet_store.special_count ≤ wallet_store.deterministic_public P sd i) →
      (∀ i j, i < n → j < n →
        wallet_store.deterministic_public P sd i = wallet_store.deterministic_public P sd j →
        i = j) →
      ∃ s2, wallet_store.deterministic_insert_n P n (wallet_store.seed_set P s0 sd) =
          some ((List.range n).map (fun i => wallet_store.deterministic_public P sd i), s2) ∧
        wallet_store.deterministic_index_get s2 = n) :=
  wallet_store.seed_set_deterministic_insert P s0 sd

set_option maxRecDepth 20000 in
/-- C5 (witness): the example wallet, seed 5, the first three calls. -/
theorem C5_deterministic_insert_witness :
    ∃ s2, wallet_store.deterministic_insert_n example_primitives 3
        (wallet_store.seed_set example_primitives example_store 5) =
        some ((List.range 3).map
          (fun i => wallet_store.deterministic_public example_primitives 5 i), s2) ∧
      wallet_store.deterministic_index_get s2 = 3 :=
  (C5_deterministic_insert example_primitives example_store 5).2.2 3 (by decide) (by decide)
    (by norm_num)
    (by intro i hi; interval_cases i <;> decide)
    (by intro i j hi hj; interval_cases i <;> interval_cases j <;> decide)

/-! ## Claim C2 -/

/-- The body of C2: under the two side conditions the inserted key is fetched back. -/
theorem wallet_store.insert_adhoc_fetch (P : Primitives) (s : wallet_store) (prv : Nat)
    (hv : wallet_store.valid_password P s = true)
    (h1 : P.ed25519_publickey prv ≠ wallet_store.salt_special)
    (h2 : P.ed25519_publickey prv ≠ wallet_store.wallet_key_special)
    (h3 : P.ed25519_publickey prv ≠ wallet_store.check_special)
    (hct : 2 ^ 64 ≤ encrypt P prv (wallet_store.wallet_key P s)
      (owords0 (wallet_store.salt s))) :
    (wallet_store.insert_adhoc P s prv).1 = P.ed25519_publickey prv ∧
    wallet_store.fetch P (wallet_store.insert_adhoc P s prv).2 (P.ed25519_publickey prv) =
      some prv := by
  refine ⟨rfl, ?_⟩
  have hgen : ∀ ct : Nat, 2 ^ 64 ≤ ct →
      decrypt P ct (wallet_store.wallet_key P s) (owords0 (wallet_store.salt s)) = prv →
      wallet_store.fetch P (wallet_store.entry_put_raw s (P.ed25519_publickey prv)
        (wallet_value.of_key ct)) (P.ed25519_publickey prv) = some prv := by
    intro ct hct hdec
    have hp : (wallet_store.entry_put_raw s (P.ed25519_publickey prv)
        (wallet_value.of_key ct)).password = s.password := rfl
    have e1 := wallet_store.entry_get_raw_put_ne s (wallet_value.of_key ct) h1.symm
    have e2 := wallet_store.entry_get_raw_put_ne s (wallet_value.of_key ct) h2.symm
    have e3 := wallet_store.entry_get_raw_put_ne s (wallet_value.of_key ct) h3.symm
    have ee := wallet_store.entry_get_raw_put_self s (P.ed25519_publickey prv)
      (wallet_value.of_key ct)
    have hv2 := (wallet_store.valid_password_congr P hp e1 e2 e3).trans hv
    have hw := wallet_store.wallet_key_congr P hp e1 e2
    have hs := wallet_store.salt_congr e1
    have hd : decrypt P (wallet_store.entry_get_raw (wallet_store.entry_put_raw s
        (P.ed25519_publickey prv) (wallet_value.of_key ct)) (P.ed25519_publickey prv)).key
        (wallet_store.wallet_key P (wallet_store.entry_put_raw s
        (P.ed25519_publickey prv) (wallet_value.of_key ct)))
        (owords0 (wallet_store.salt (wallet_store.entry_put_raw s
        (P.ed25519_publickey prv) (wallet_value.of_key ct)))) = prv := by
      rw [ee, hw, hs]
      exact hdec
    have hf := wallet_store.fetch_adhoc P _ (P.ed25519_publickey prv) hv2
      (by rw [ee]; exact hct) (by rw [hd])
    rw [hf, hd]
  exact hgen _ hct (wallet_store.decrypt_encrypt P _ _ _)

/-- C2 (counterexample): on the unlocked example wallet, the private key equal to the
keystream encrypts to the slot 0 and the fetch right after `insert_adhoc` fails; and the
private key 0, whose public key is the reserved key 2, overwrites the wallet-key envelope, so
the fetch fails as well. -/
theorem C2_counterexample :
    wallet_store.valid_password example_primitives example_store = true ∧
    wallet_store.fetch example_primitives
      (wallet_store.insert_adhoc example_primitives example_store (1240 * 2 ^ 64)).2
      (example_primitives.ed25519_publickey (1240 * 2 ^ 64)) = none ∧
    wallet_store.fetch example_primitives
      (wallet_store.insert_adhoc example_primitives example_store 0).2
      (example_primitives.ed25519_publickey 0) = none := by
  decide

/-- C2 (amended): on every unlocked keystore and for every private key `prv` whose public
key is none of the reserved keys salt (1), wallet_key (2), check (3) and whose ciphertext
under the wallet key is at least `2^64`, `insert_adhoc (prv)` returns the public key of
`prv` and a `fetch` of it made right after succeeds and returns exactly `prv`. -/
theorem C2_insert_adhoc_fetch (P : Primitives) (s : wallet_store) (prv : Nat)
    (hv : wallet_store.valid_password P s = true)
    (h1 : P.ed25519_publickey prv ≠ wallet_store.salt_special)
    (h2 : P.ed25519_publickey prv ≠ wallet_store.wallet_key_special)
    (h3 : P.ed25519_publickey prv ≠ wallet_store.check_special)
    (hct : 2 ^ 64 ≤ encrypt P prv (wallet_store.wallet_key P s)
      (owords0 (wallet_store.salt s))) :
    (wallet_store.insert_adhoc P s prv).1 = P.ed25519_publickey prv ∧
    wallet_store.fetch P (wallet_store.insert_adhoc P s prv).2 (P.ed25519_publickey prv) =
      some prv :=
  wallet_store.insert_adhoc_fetch P s prv hv h1 h2 h3 hct

/-- C2 (witness): the example wallet and the private key 11. -/
theorem C2_insert_adhoc_fetch_witness :
    wallet_store.valid_password example_primitives example_store = true ∧
    (wallet_store.insert_adhoc example_primitives example_store 11).1 = 13 ∧
    wallet_store.fetch example_primitives
      (wallet_store.insert_adhoc example_primitives example_store 11).2 13 = some 11 :=
  ⟨by decide,
    C2_insert_adhoc_fetch example_primitives example_store 11 (by decide) (by decide)
      (by decide) (by decide) (by decide)⟩

/-! ## Claim C3 -/

namespace wallet_store

/-- After `create` and `rekey (p)`, whatever key is cached, the attempt with `q` reports
locked exactly when the check fails under the key derived from `q`. -/
theorem attempt_after_rekey (P : Primitives) (t : Table)
    (representative_a salt_l wallet_key seed : Nat) (p : String)
    (ht : Table.get t version_special = none) (q : String) (cached rnd : Nat) :
    (attempt_password P
      ⟨(rekey P (create P t representative_a salt_l wallet_key seed) p).2.table, cached⟩
      q rnd).1 = true ↔
      P.aes_ctr ((wallet_key ^^^ P.aes_ctr (P.PHS p salt_l) (owords0 salt_l)) ^^^
        P.aes_ctr (P.PHS q salt_l) (owords0 salt_l)) (owords0 salt_l) ≠
        P.aes_ctr wallet_key (owords0 salt_l) := by
  have hv := create_valid_password P t representative_a salt_l wallet_key seed ht
  have hs := create_salt P t representative_a salt_l wallet_key seed ht
  have hw := create_wallet_key P t representative_a salt_l wallet_key seed ht
  rw [attempt_password_fst]
  have hd : derive_key P ⟨(rekey P (create P t
      representative_a salt_l wallet_key seed) p).2.table, cached⟩ q = P.PHS q salt_l := by
    unfold derive_key
    simp only []
    rw [salt_after_rekey, hs]
  have hiff := valid_password_after_rekey P _ p hv (P.PHS q salt_l)
  rw [hs, hw] at hiff
  simp only [derive_key, hs] at hiff
  simp only [hd]
  rw [Bool.not_eq_true', ← Bool.not_eq_true, hiff]

/-- Two passwords with the same derived key are not told apart. -/
theorem attempt_after_rekey_same (P : Primitives) (t : Table)
    (representative_a salt_l wallet_key seed : Nat) (p : String)
    (ht : Table.get t version_special = none) (q : String) (cached rnd : Nat)
    (hq : P.PHS q salt_l = P.PHS p salt_l) :
    (attempt_password P
      ⟨(rekey P (create P t representative_a salt_l wallet_key seed) p).2.table, cached⟩
      q rnd).1 = false := by
  have h := (attempt_after_rekey P t representative_a salt_l wallet_key seed p ht q
    cached rnd).not
  rw [Bool.not_eq_true] at h
  rw [h, hq]
  simp [Nat.xor_cancel_right]

/-- A password whose derived key has another keystream is refused when no other 32-byte key
has the check value of the wallet key. -/
theorem attempt_after_rekey_other (P : Primitives) (t : Table)
    (representative_a salt_l wallet_key seed : Nat) (p : String)
    (ht : Table.get t version_special = none) (q : String) (cached rnd : Nat)
    (hb : ∀ k iv, P.aes_ctr k iv < 2 ^ 256) (hw : wallet_key < 2 ^ 256)
    (hq : P.aes_ctr (P.PHS q salt_l) (owords0 salt_l) ≠
      P.aes_ctr (P.PHS p salt_l) (owords0 salt_l))
    (hu : ∀ k, k < 2 ^ 256 →
      P.aes_ctr k (owords0 salt_l) = P.aes_ctr wallet_key (owords0 salt_l) → k = wallet_key) :
    (attempt_password P
      ⟨(rekey P (create P t representative_a salt_l wallet_key seed) p).2.table, cached⟩
      q rnd).1 = true := by
  rw [attempt_after_rekey P t representative_a salt_l wallet_key seed p ht q cached rnd]
  intro h
  have hlt : (wallet_key ^^^ P.aes_ctr (P.PHS p salt_l) (owords0 salt_l)) ^^^
      P.aes_ctr (P.PHS q salt_l) (owords0 salt_l) < 2 ^ 256 :=
    Nat.xor_lt_two_pow (Nat.xor_lt_two_pow hw (hb _ _)) (hb _ _)
  exact hq (xor_xor_eq_left (hu _ hlt h)).symm

/-- A key derivation into 32 bytes maps two passwords to the same key. -/
theorem derive_collision (P : Primitives) (salt_l : Nat)
    (hb : ∀ pw, P.PHS pw salt_l < 2 ^ 256) :
    ∃ p q : String, q ≠ p ∧ P.PHS q salt_l = P.PHS p salt_l := by
  have hni : ¬ Function.Injective (fun n : Nat =>
      (⟨P.PHS (String.mk (List.replicate n 'a')) salt_l, hb _⟩ : Fin (2 ^ 256))) :=
    not_injective_infinite_finite _
  unfold Function.Injective at hni
  push_neg at hni
  obtain ⟨n, m, hnm, hne⟩ := hni
  refine ⟨String.mk (List.replicate n 'a'), String.mk (List.replicate m 'a'), ?_, ?_⟩
  · intro he
    have hl := congrArg (fun x : String => x.data.length) he
    simp only [List.length_replicate] at hl
    exact hne hl.symm
  · exact (Fin.mk.inj_iff.1 hnm).symm

/-- With a key derivation into 32 bytes, some password other than the one the wallet was
re-keyed to unlocks it. -/
theorem rekey_other_unlocks (P : Primitives) (hb : ∀ pw salt_l, P.PHS pw salt_l < 2 ^ 256)
    (representative_a salt_l wallet_key seed : Nat) :
    ∃ p q : String, q ≠ p ∧ (attempt_password P
      (rekey P (create P [] representative_a salt_l wallet_key seed) p).2 q 0).1 = false := by
  obtain ⟨p, q, hne, hq⟩ := derive_collision P salt_l (fun pw => hb pw salt_l)
  exact ⟨p, q, hne, attempt_after_rekey_same P [] representative_a salt_l wallet_key seed p
    rfl q _ 0 hq⟩

end wallet_store

/-- C3 (counterexample): in the example instance the passwords "a" and "b" derive the same
key, so after `create` and `rekey ("a")` the attempt with "b" reports unlocked; and this is
no accident of the instance: whatever the cipher, the digest and the key derivation are, as
long as the derived key is 32 bytes, the claim fails for some wallet and some pair of
distinct passwords, since infinitely many passwords share `2^256` derived keys. -/
theorem C3_counterexample :
    ("b" ≠ "a" ∧
      (wallet_store.attempt_password example_primitives
        (wallet_store.rekey example_primitives example_store "a").2 "b" 0).1 = false) ∧
    ¬ ∃ P : Primitives, (∀ pw salt_l, P.PHS pw salt_l < 2 ^ 256) ∧
      ∀ (representative_a salt_l wallet_key seed : Nat) (p q : String), q ≠ p →
        (wallet_store.attempt_password P (wallet_store.rekey P
          (wallet_store.create P [] representative_a salt_l wallet_key seed) p).2 q 0).1
          = true := by
  refine ⟨by decide, ?_⟩
  rintro ⟨P, hb, h⟩
  obtain ⟨p, q, hne, hf⟩ := wallet_store.rekey_other_unlocks P hb 0 0 0 0
  rw [h 0 0 0 0 p q hne] at hf
  exact absurd hf (by decide)

/-- C3 (amended): for every password `p`, on a keystore just produced by `create`,
`rekey (p)` succeeds; afterwards `attempt_password (p)` reports unlocked (returns false), as
does `attempt_password (q)` for every `q` with the same derived key; and
`attempt_password (q)` reports locked (returns true) for every `q` whose derived key has a
keystream other than that of the derived key of `p`, when keystreams and the wallet key are
32 bytes and no other 32-byte key has the keystream of the wallet key, which is the stored
check value. The cached password before the attempt is arbitrary. -/
theorem C3_rekey_attempt_password (P : Primitives) (t : Table)
    (representative_a salt_l wallet_key seed : Nat) (p : String)
    (ht : Table.get t wallet_store.version_special = none) :
    (wallet_store.rekey P (wallet_store.create P t representative_a salt_l wallet_key seed)
      p).1 = false ∧
    (∀ cached rnd : Nat, (wallet_store.attempt_password P
      ⟨(wallet_store.rekey P (wallet_store.create P t representative_a salt_l wallet_key seed)
        p).2.table, cached⟩ p rnd).1 = false) ∧
    (∀ (q : String) (cached rnd : Nat), P.PHS q salt_l = P.PHS p salt_l →
      (wallet_store.attempt_password P
        ⟨(wallet_store.rekey P (wallet_store.create P t representative_a salt_l wallet_key seed)
          p).2.table, cached⟩ q rnd).1 = false) ∧
    (∀ (q : String) (cached rnd : Nat),
      (∀ k iv, P.aes_ctr k iv < 2 ^ 256) → wallet_key < 2 ^ 256 →
      P.aes_ctr (P.PHS q salt_l) (owords0 salt_l) ≠
        P.aes_ctr (P.PHS p salt_l) (owords0 salt_l) →
      (∀ k, k < 2 ^ 256 →
        P.aes_ctr k (owords0 salt_l) = P.aes_ctr wallet_key (owords0 salt_l) →
        k = wallet_key) →
      (wallet_store.attempt_password P
        ⟨(wallet_store.rekey P (wallet_store.create P t representative_a salt_l wallet_key seed)
          p).2.table, cached⟩ q rnd).1 = true) :=
  ⟨by rw [wallet_store.rekey_of_valid P _ p
      (wallet_store.create_valid_password P t representative_a salt_l wallet_key seed ht)],
   fun cached rnd => wallet_store.attempt_after_rekey_same P t representative_a salt_l
     wallet_key seed p ht p cached rnd rfl,
   fun q cached rnd hq => wallet_store.attempt_after_rekey_same P t representative_a salt_l
     wallet_key seed p ht q cached rnd hq,
   fun q cached rnd hb hw hq hu => wallet_store.attempt_after_rekey_other P t
     representative_a salt_l wallet_key seed p ht q cached rnd hb hw hq hu⟩

set_option maxRecDepth 20000 in
/-- C3 (witness): a wallet created on the empty table with the 32-byte stand-in, re-keyed
to "abc"; the attempts with "abc" and with "ab". -/
theorem C3_rekey_attempt_password_witness :
    (wallet_store.attempt_password example_primitives_bytes
      ⟨(wallet_store.rekey example_primitives_bytes
        (wallet_store.create example_primitives_bytes [] 100 (5 * 2 ^ 128 + 9) 1234 77)
        "abc").2.table, 0⟩ "abc" 0).1 = false ∧
    (wallet_store.attempt_password example_primitives_bytes
      ⟨(wallet_store.rekey example_primitives_bytes
        (wallet_store.create example_primitives_bytes [] 100 (5 * 2 ^ 128 + 9) 1234 77)
        "abc").2.table, 0⟩ "ab" 0).1 = true :=
  ⟨(C3_rekey_attempt_password example_primitives_bytes [] 100 (5 * 2 ^ 128 + 9) 1234 77 "abc"
      (by decide)).2.1 0 0,
   (C3_rekey_attempt_password example_primitives_bytes [] 100 (5 * 2 ^ 128 + 9) 1234 77 "abc"
      (by decide)).2.2.2 "ab" 0 0 (fun k iv => Nat.mod_lt _ (by norm_num)) (by norm_num)
      (by decide)
      (by
        intro k hk h
        simp only [example_primitives_bytes] at h
        have h5 : owords0 (5 * 2 ^ 128 + 9) = 5 := by decide
        rw [h5] at h
        norm_num at hk h
        omega)⟩

/-! ## Claim C4 -/

/-- C4 (counterexample): the slot `2^64` is classified ad-hoc although `2^64 > 2^64` is
false, and it is not classified unknown although it is neither above `2^64` nor a
deterministic marker. -/
theorem C4_counterexample :
    wallet_store.key_type ⟨2 ^ 64, 0⟩ = key_type.adhoc ∧ ¬ ((2 : Nat) ^ 64 > 2 ^ 64) ∧
      ((2 : Nat) ^ 64 ≤ 2 ^ 64 ∧ ((2 : Nat) ^ 64) >>> 32 ≠ 1) ∧
      wallet_store.key_type ⟨2 ^ 64, 0⟩ ≠ key_type.unknown := by
  decide

/-- C4 (amended): for every slot value `n`, `key_type` returns ad-hoc iff `n ≥ 2^64`,
deterministic iff `n ≤ 2^64` and `n >> 32 = 1`, and unknown in every other case. -/
theorem C4_key_type (value_a : wallet_value) :
    (wallet_store.key_type value_a = key_type.adhoc ↔ 2 ^ 64 ≤ value_a.key) ∧
    (wallet_store.key_type value_a = key_type.deterministic ↔
      value_a.key ≤ 2 ^ 64 ∧ value_a.key >>> 32 = 1) ∧
    (wallet_store.key_type value_a = key_type.unknown ↔
      ¬ (2 ^ 64 ≤ value_a.key) ∧ ¬ (value_a.key ≤ 2 ^ 64 ∧ value_a.key >>> 32 = 1)) :=
  wallet_store.key_type_iff value_a

/-! ## Claim C6 -/

theorem hex_value_digit (d : Nat) (h : d < 16) : hex_value (hex_digit d) = some d := by
  interval_cases d <;> rfl

theorem hex_chars_length (len x : Nat) : (hex_chars len x).length = len := by
  induction len generalizing x with
  | zero => rfl
  | succ len ih => simp [hex_chars, ih]

theorem decode_chars_hex (len x : Nat) (rest : List Char) (acc : Nat) :
    decode_chars (hex_chars len x ++ rest) acc =
      decode_chars rest (acc * 16 ^ len + x % 16 ^ len) := by
  induction len generalizing x rest acc with
  | zero => simp [hex_chars, Nat.mod_one]
  | succ len ih =>
    have hd : hex_value (hex_digit (x % 16)) = some (x % 16) :=
      hex_value_digit _ (Nat.mod_lt _ (by norm_num))
    simp only [hex_chars, List.append_assoc, List.singleton_append]
    rw [ih]
    simp only [decode_chars, hd]
    congr 1
    have hm : x % 16 ^ (len + 1) = x % 16 + 16 * (x / 16 % 16 ^ len) := by
      rw [pow_succ, Nat.mul_comm (16 ^ len) 16, Nat.mod_mul]
    rw [hm, pow_succ]
    ring

theorem decode_to_string (x : Nat) (h : x < 2 ^ 256) : decode_hex (to_string x) = some x := by
  unfold decode_hex to_string
  simp only [hex_chars_length, if_true]
  have := decode_chars_hex 64 x [] 0
  simp only [List.append_nil, zero_mul, zero_add] at this
  rw [this, Nat.mod_eq_of_lt (by norm_num; omega)]
  rfl

theorem to_string_inj {x y : Nat} (hx : x < 2 ^ 256) (hy : y < 2 ^ 256)
    (h : to_string x = to_string y) : x = y := by
  have h1 := decode_to_string x hx
  rw [h, decode_to_string y hy] at h1
  exact (Option.some.inj h1).symm

theorem ptree_put_new (tree : ptree) (key value : String)
    (h : key ∉ tree.map Prod.fst) : ptree_put tree key value = tree ++ [(key, value)] := by
  induction tree with
  | nil => rfl
  | cons e tree ih =>
    obtain ⟨k, v⟩ := e
    simp only [List.map_cons, List.mem_cons, not_or] at h
    have hk : ¬ k = key := fun e => h.1 e.symm
    simp [ptree_put, hk, ih h.2]

namespace wallet_store

/-- The tree exported from a table in key order with 32-byte keys: one child per entry, in
table order. -/
theorem serialize_json_fold (t : Table) (acc : ptree) (ho : Table.Ordered t)
    (hb : ∀ e ∈ t, e.1 < 2 ^ 256)
    (hacc : ∀ e ∈ t, to_string e.1 ∉ acc.map Prod.fst) :
    t.foldl (fun tree i => ptree_put tree (to_string i.1) (to_string i.2.key)) acc =
      acc ++ t.map (fun e => (to_string e.1, to_string e.2.key)) := by
  induction t generalizing acc with
  | nil => simp
  | cons e t ih =>
    have hc := List.pairwise_cons.1 ho
    simp only [List.foldl_cons, List.map_cons]
    rw [ptree_put_new acc _ _ (hacc e (List.mem_cons_self _ _))]
    rw [ih (acc ++ [(to_string e.1, to_string e.2.key)]) hc.2
      (fun x hx => hb x (List.mem_cons_of_mem _ hx))]
    · simp
    · intro x hx
      simp only [List.map_append, List.map_cons, List.map_nil, List.mem_append,
        List.mem_singleton, not_or]
      refine ⟨hacc x (List.mem_cons_of_mem _ hx), ?_⟩
      intro heq
      have hlt : e.1 < x.1 := hc.1 x hx
      have := to_string_inj (hb x (List.mem_cons_of_mem _ hx)) (hb e (List.mem_cons_self _ _)) heq
      omega

theorem serialize_json_eq (t : Table) (pw : Nat) (ho : Table.Ordered t)
    (hb : ∀ e ∈ t, e.1 < 2 ^ 256) :
    serialize_json ⟨t, pw⟩ = t.map (fun e => (to_string e.1, to_string e.2.key)) := by
  unfold serialize_json
  rw [serialize_json_fold t [] ho hb (by simp)]
  simp

theorem ptree_get_map (t : Table) (ho : Table.Ordered t) (hb : ∀ e ∈ t, e.1 < 2 ^ 256)
    (e : Nat × wallet_value) (he : e ∈ t) :
    ptree_get (t.map (fun e => (to_string e.1, to_string e.2.key))) (to_string e.1) =
      some (to_string e.2.key) := by
  induction t with
  | nil => simp at he
  | cons a t ih =>
    have hc := List.pairwise_cons.1 ho
    rcases List.mem_cons.1 he with h | h
    · subst h
      simp [ptree_get]
    · have hlt : a.1 < e.1 := hc.1 e h
      have hne : ¬ to_string a.1 = to_string e.1 := by
        intro heq
        have := to_string_inj (hb a (List.mem_cons_self _ _)) (hb e he) heq
        omega
      simp only [List.map_cons, ptree_get, hne, if_false]
      exact ih hc.2 (fun x hx => hb x (List.mem_cons_of_mem _ hx)) h

theorem put_append (l : Table) (k : Nat) (v : wallet_value) (h : ∀ e ∈ l, e.1 < k) :
    Table.put l k v = l ++ [(k, v)] := by
  induction l with
  | nil => rfl
  | cons a l ih =>
    obtain ⟨k', v'⟩ := a
    have h1 : k' < k := h (k', v') (List.mem_cons_self _ _)
    have h2 : ¬ k < k' := by omega
    have h3 : ¬ k = k' := by omega
    simp [Table.put, h2, h3, ih (fun e he => h e (List.mem_cons_of_mem _ he))]

theorem load_loop_cons_ok (wallet_l : ptree) (i : String × String)
    (rest : List (String × String)) (init_a : Bool) (s : wallet_store) (key value : Nat)
    (hk : decode_hex i.1 = some key)
    (hv : (ptree_get wallet_l i.1).bind decode_hex = some value) :
    load_loop wallet_l (i :: rest) init_a s =
      load_loop wallet_l rest false (entry_put_raw s key (wallet_value.of_key value)) := by
  rw [load_loop]
  simp only [hk, hv]

theorem serialize_json_table (s : wallet_store) :
    serialize_json s = serialize_json ⟨s.table, 0⟩ := rfl

/-- The import loop over the children exported from `rest` writes the entries of `rest`,
with the work reset, in order. -/
theorem load_loop_map (wallet_l : ptree) (rest : Table) (init_a : Bool) (s : wallet_store)
    (h : ∀ e ∈ rest, e.1 < 2 ^ 256 ∧ e.2.key < 2 ^ 256 ∧
      ptree_get wallet_l (to_string e.1) = some (to_string e.2.key)) :
    (load_loop wallet_l (rest.map (fun e => (to_string e.1, to_string e.2.key))) init_a s).2 =
      rest.foldl (fun s e => entry_put_raw s e.1 (wallet_value.of_key e.2.key)) s := by
  induction rest generalizing init_a s with
  | nil => rfl
  | cons e rest ih =>
    obtain ⟨h1, h2, h3⟩ := h e (List.mem_cons_self _ _)
    rw [List.map_cons, List.foldl_cons]
    have hk : decode_hex (to_string e.1, to_string e.2.key).1 = some e.1 :=
      decode_to_string e.1 h1
    have hv : (ptree_get wallet_l (to_string e.1, to_string e.2.key).1).bind decode_hex =
        some e.2.key := by
      show (ptree_get wallet_l (to_string e.1)).bind decode_hex = some e.2.key
      rw [h3, Option.some_bind]
      exact decode_to_string e.2.key h2
    rw [load_loop_cons_ok wallet_l (to_string e.1, to_string e.2.key)
      (rest.map (fun e => (to_string e.1, to_string e.2.key))) init_a s e.1 e.2.key hk hv]
    exact ih _ _ (fun x hx => h x (List.mem_cons_of_mem _ hx))

theorem fold_put_ordered (rest : Table) (s : wallet_store) (ho : Table.Ordered rest)
    (hlt : ∀ a ∈ s.table, ∀ e ∈ rest, a.1 < e.1) :
    (rest.foldl (fun s e => entry_put_raw s e.1 (wallet_value.of_key e.2.key)) s).table =
      s.table ++ rest.map (fun e => (e.1, wallet_value.of_key e.2.key)) := by
  induction rest generalizing s with
  | nil => simp
  | cons e rest ih =>
    have hc := List.pairwise_cons.1 ho
    simp only [List.foldl_cons, List.map_cons]
    have hput : (entry_put_raw s e.1 (wallet_value.of_key e.2.key)).table =
        s.table ++ [(e.1, wallet_value.of_key e.2.key)] :=
      put_append _ _ _ (fun a ha => hlt a ha e (List.mem_cons_self _ _))
    rw [ih _ hc.2, hput]
    · simp
    · intro a ha x hx
      rw [hput] at ha
      rcases List.mem_append.1 ha with ha | ha
      · exact hlt a ha x (List.mem_cons_of_mem _ hx)
      · simp only [List.mem_singleton] at ha
        subst ha
        exact hc.1 x hx

/-- The body of C6. -/
theorem serialize_load_serialize (t : Table) (pw : Nat) (ho : Table.Ordered t)
    (hb : ∀ e ∈ t, e.1 < 2 ^ 256 ∧ e.2.key < 2 ^ 256) :
    (load [] (some (serialize_json ⟨t, pw⟩))).2.table =
      t.map (fun e => (e.1, wallet_value.of_key e.2.key)) ∧
    serialize_json (load [] (some (serialize_json ⟨t, pw⟩))).2 = serialize_json ⟨t, pw⟩ := by
  have hk : ∀ e ∈ t, e.1 < 2 ^ 256 := fun e he => (hb e he).1
  have hser := serialize_json_eq t pw ho hk
  have htab : (load [] (some (serialize_json ⟨t, pw⟩))).2.table =
      t.map (fun e => (e.1, wallet_value.of_key e.2.key)) := by
    unfold load
    simp only [Option.getD_some, hser]
    rw [load_loop_map _ t _ _ (fun e he => ⟨(hb e he).1, (hb e he).2,
      ptree_get_map t ho hk e he⟩)]
    rw [fold_put_ordered t _ ho (by simp)]
    simp
  refine ⟨htab, ?_⟩
  have ho2 : Table.Ordered (t.map (fun e => (e.1, wallet_value.of_key e.2.key))) := by
    unfold Table.Ordered
    rw [List.pairwise_map]
    exact ho
  have hk2 : ∀ e ∈ t.map (fun e => (e.1, wallet_value.of_key e.2.key)), e.1 < 2 ^ 256 := by
    intro e he
    obtain ⟨x, hx, rfl⟩ := List.mem_map.1 he
    exact hk x hx
  have hs2 : serialize_json (load [] (some (serialize_json ⟨t, pw⟩))).2 =
      serialize_json ⟨t.map (fun e => (e.1, wallet_value.of_key e.2.key)), 0⟩ := by
    rw [serialize_json_table (load [] _).2, htab]
  rw [hs2, serialize_json_eq _ 0 ho2 hk2, hser, List.map_map]
  rfl

end wallet_store

/-- C6: for every wallet table (keys in increasing order, keys and slots of 32 bytes),
loading the output of `serialize_json` into an empty table with the JSON constructor gives
the same entries with the work reset to 0, and `serialize_json` of the loaded table is the
same export again. -/
theorem C6_serialize_load_serialize (t : Table) (pw : Nat) (ho : Table.Ordered t)
    (hb : ∀ e ∈ t, e.1 < 2 ^ 256 ∧ e.2.key < 2 ^ 256) :
    (wallet_store.load [] (some (wallet_store.serialize_json ⟨t, pw⟩))).2.table =
      t.map (fun e => (e.1, wallet_value.of_key e.2.key)) ∧
    wallet_store.serialize_json
      (wallet_store.load [] (some (wallet_store.serialize_json ⟨t, pw⟩))).2 =
      wallet_store.serialize_json ⟨t, pw⟩ :=
  wallet_store.serialize_load_serialize t pw ho hb

/-- C6 (witness): a table with the reserved entry 0 and two user entries carrying cached
work. -/
theorem C6_serialize_load_serialize_witness :
    (wallet_store.load [] (some (wallet_store.serialize_json
      ⟨[(0, ⟨3, 0⟩), (13, ⟨2 ^ 70, 5⟩), (40, ⟨2 ^ 32 + 1, 9⟩)], 0⟩))).2.table =
      ([(0, ⟨3, 0⟩), (13, ⟨2 ^ 70, 5⟩), (40, ⟨2 ^ 32 + 1, 9⟩)] : Table).map
        (fun e => (e.1, wallet_value.of_key e.2.key)) ∧
    wallet_store.serialize_json
      (wallet_store.load [] (some (wallet_store.serialize_json
        ⟨[(0, ⟨3, 0⟩), (13, ⟨2 ^ 70, 5⟩), (40, ⟨2 ^ 32 + 1, 9⟩)], 0⟩))).2 =
      wallet_store.serialize_json ⟨[(0, ⟨3, 0⟩), (13, ⟨2 ^ 70, 5⟩), (40, ⟨2 ^ 32 + 1, 9⟩)], 0⟩ :=
  C6_serialize_load_serialize [(0, ⟨3, 0⟩), (13, ⟨2 ^ 70, 5⟩), (40, ⟨2 ^ 32 + 1, 9⟩)] 0
    (by decide) (by decide)

/-! ## Claim C7 -/

namespace work_pool

theorem loop_inner_output (P : Primitives) (root : Nat) (rng : Nat → Nat)
    (iteration n work output : Nat)
    (h : output = 0 ∨ output = work_value P root work) :
    (loop_inner P root rng iteration n work output).2.2 = 0 ∨
    (loop_inner P root rng iteration n work output).2.2 =
      work_value P root (loop_inner P root rng iteration n work output).2.1 := by
  induction iteration generalizing n work output with
  | zero => exact h
  | succ iteration ih =>
    unfold loop_inner
    split_ifs with hlt
    · exact ih _ _ _ (Or.inr rfl)
    · exact h

/-- A search that ends while every reading of the ticket was the snapshot ends on a `work`
whose value has reached the threshold. -/
theorem loop_search_threshold (P : Primitives) (root : Nat) (rng : Nat → Nat)
    (observed : Nat → Nat) (ticket_l : Nat) (hun : ∀ k, observed k = ticket_l)
    (fuel k n work output : Nat) (r : Nat × Nat × Nat)
    (h : output = 0 ∨ output = work_value P root work)
    (hs : loop_search P root rng observed ticket_l fuel k n work output = some r) :
    P.publish_threshold ≤ work_value P root r.2.1 := by
  induction fuel generalizing k n work output with
  | zero => simp [loop_search] at hs
  | succ fuel ih =>
    unfold loop_search at hs
    split_ifs at hs with hc
    · exact ih _ _ _ _ (loop_inner_output P root rng 256 n work output h) hs
    · simp only [Option.some.injEq] at hs
      subst hs
      have hge : P.publish_threshold ≤ output := by
        by_contra hlt
        exact hc ⟨hun k, by omega⟩
      rcases h with h | h
      · show P.publish_threshold ≤ work_value P root work
        omega
      · show P.publish_threshold ≤ work_value P root work
        omega

/-- The body of C7. -/
theorem loop_round_solver (P : Primitives) (pool now : work_pool) (rng observed : Nat → Nat)
    (work0 fuel : Nat) (res : work_pool × List (Nat × Option Nat))
    (hmono : now.ticket = pool.ticket → ∀ k, observed k = pool.ticket)
    (h : loop_round P pool rng observed now work0 fuel = some res)
    (cb w : Nat) (hcb : (cb, some w) ∈ res.2) :
    ∃ root, pool.pending.head? = some (root, cb) ∧
      P.publish_threshold ≤ work_value P root w ∧ work_validate P root w = false := by
  unfold loop_round at h
  split at h
  · simp at h
  · rename_i current_l rest hp
    simp only [] at h
    split at h
    · simp at h
    · rename_i r hs
      simp only [Option.some.injEq] at h
      subst h
      unfold loop_deliver at hcb
      split_ifs at hcb with ht
      · simp only [List.mem_singleton, Prod.mk.injEq, Option.some.injEq] at hcb
        have hthr := loop_search_threshold P current_l.1 rng observed pool.ticket (hmono ht)
          fuel 0 0 work0 0 r (Or.inl rfl) hs
        refine ⟨current_l.1, ?_, ?_, ?_⟩
        · rw [hp, hcb.1]; rfl
        · rw [hcb.2]; exact hthr
        · rw [hcb.2]
          simp only [work_validate, decide_eq_false_iff_not, not_lt]
          exact hthr
      · simp at hcb

end work_pool

/-- C7 (counterexample): in the example instance `work_value (1, w) = (w + 1) mod 2^64`. A
worker on the request `(root 1, callback 9)` that draws `7` and then `2^64 - 2`, with the
ticket unchanged, delivers `2^64 - 2` to the callback, and `work_validate (1, 2^64 - 2)` is
false: the delivered nonce has `work_value ≥ publish_threshold`. -/
theorem C7_counterexample :
    work_pool.loop_round example_primitives ⟨0, [(1, 9)], false⟩
      (fun n => if n = 0 then 7 else 2 ^ 64 - 2) (fun _ => 0) ⟨0, [(1, 9)], false⟩ 0 4 =
      some (⟨1, [], false⟩, [(9, some (2 ^ 64 - 2))]) ∧
    work_pool.work_validate example_primitives 1 (2 ^ 64 - 2) = false ∧
    ¬ (work_pool.work_value example_primitives 1 (2 ^ 64 - 2) <
      example_primitives.publish_threshold) := by
  decide

/-- C7 (amended): for every root, the nonce `w` that a work-pool worker delivers to a
request's callback as the solver (ticket unchanged since its snapshot) satisfies
`work_value (root, w) ≥ publish_threshold`, that is `work_validate (root, w) == false`
(`work_validate` returns true for work that is below the threshold). -/
theorem C7_solver_nonce (P : Primitives) (pool now : work_pool) (rng observed : Nat → Nat)
    (work0 fuel : Nat) (res : work_pool × List (Nat × Option Nat))
    (hmono : now.ticket = pool.ticket → ∀ k, observed k = pool.ticket)
    (h : work_pool.loop_round P pool rng observed now work0 fuel = some res)
    (cb w : Nat) (hcb : (cb, some w) ∈ res.2) :
    ∃ root, pool.pending.head? = some (root, cb) ∧
      P.publish_threshold ≤ work_pool.work_value P root w ∧
      work_pool.work_validate P root w = false :=
  work_pool.loop_round_solver P pool now rng observed work0 fuel res hmono h cb w hcb

/-- C7 (witness): the run of the counterexample, read through the theorem. -/
theorem C7_solver_nonce_witness :
    ∃ root, (([(1, 9)] : List (Nat × Nat))).head? = some (root, 9) ∧
      example_primitives.publish_threshold ≤
        work_pool.work_value example_primitives root (2 ^ 64 - 2) ∧
      work_pool.work_validate example_primitives root (2 ^ 64 - 2) = false :=
  C7_solver_nonce example_primitives ⟨0, [(1, 9)], false⟩ ⟨0, [(1, 9)], false⟩
    (fun n => if n = 0 then 7 else 2 ^ 64 - 2) (fun _ => 0) 0 4
    (⟨1, [], false⟩, [(9, some (2 ^ 64 - 2))]) (fun _ _ => rfl) (by decide) 9 (2 ^ 64 - 2)
    (by decide)

/-! ## Claim C8 -/

namespace wallets

theorem pending_find_set_self (m : List (Nat × List (Nat × Nat))) (a : Nat)
    (entries : List (Nat × Nat)) : pending_find (pending_set m a entries) a = some entries := by
  induction m with
  | nil => simp [pending_set, pending_find]
  | cons e m ih =>
    obtain ⟨b, old⟩ := e
    by_cases h : b = a
    · simp [pending_set, pending_find, h]
    · simp [pending_set, pending_find, h, ih]

theorem pending_find_erase_self (m : List (Nat × List (Nat × Nat))) (a : Nat) :
    pending_find (pending_erase m a) a = none := by
  induction m with
  | nil => simp [pending_erase, pending_find]
  | cons e m ih =>
    obtain ⟨b, old⟩ := e
    have ih2 : pending_find (List.filter (fun e => !decide (e.1 = a)) m) a = none := ih
    by_cases h : b = a
    · simp [pending_erase, h, ih2]
    · simp [pending_erase, pending_find, h, ih2]

theorem multimap_insert_perm (entries : List (Nat × Nat)) (p f : Nat) :
    (multimap_insert entries p f).Perm ((p, f) :: entries) := by
  induction entries with
  | nil => simp [multimap_insert]
  | cons e entries ih =>
    obtain ⟨q, g⟩ := e
    unfold multimap_insert
    split_ifs with h
    · exact List.Perm.refl _
    · exact (List.Perm.cons _ ih).trans (List.Perm.swap _ _ _)

theorem multimap_insert_sorted (entries : List (Nat × Nat)) (p f : Nat)
    (hs : entries.Pairwise (fun x y => x.1 > y.1)) (hne : ∀ e ∈ entries, e.1 ≠ p) :
    (multimap_insert entries p f).Pairwise (fun x y => x.1 > y.1) := by
  induction entries with
  | nil => simp [multimap_insert]
  | cons e entries ih =>
    obtain ⟨q, g⟩ := e
    have hc := List.pairwise_cons.1 hs
    unfold multimap_insert
    split_ifs with h
    · refine List.pairwise_cons.2 ⟨?_, hs⟩
      intro x hx
      rcases List.mem_cons.1 hx with hx | hx
      · subst hx; exact h
      · have := hc.1 x hx
        simp only at this
        show p > x.1
        omega
    · refine List.pairwise_cons.2 ⟨?_, ih hc.2 (fun x hx => hne x (List.mem_cons_of_mem _ hx))⟩
      intro x hx
      rcases List.mem_cons.1 ((multimap_insert_perm entries p f).mem_iff.1 hx) with hx | hx
      · have hq : q ≠ p := hne (q, g) (List.mem_cons_self _ _)
        subst hx
        show q > p
        omega
      · exact hc.1 x hx

/-- Entries inserted one after the other with pairwise distinct priorities end up in
strictly decreasing priority order. -/
theorem multimap_insert_all (actions : List (Nat × Nat)) (entries : List (Nat × Nat))
    (hs : entries.Pairwise (fun x y => x.1 > y.1))
    (hne : ∀ e ∈ entries, e.1 ∉ actions.map Prod.fst)
    (hd : (actions.map Prod.fst).Nodup) :
    (actions.foldl (fun es e => multimap_insert es e.1 e.2) entries).Pairwise
      (fun x y => x.1 > y.1) ∧
    (actions.foldl (fun es e => multimap_insert es e.1 e.2) entries).Perm
      (entries ++ actions) := by
  induction actions generalizing entries with
  | nil => simpa using hs
  | cons a actions ih =>
    simp only [List.map_cons, List.nodup_cons] at hd
    simp only [List.foldl_cons]
    have h1 : (multimap_insert entries a.1 a.2).Pairwise (fun x y => x.1 > y.1) :=
      multimap_insert_sorted entries a.1 a.2 hs (fun e he hea => hne e he (by simp [hea]))
    have h2 : ∀ e ∈ multimap_insert entries a.1 a.2, e.1 ∉ actions.map Prod.fst := by
      intro e he
      rcases List.mem_cons.1 ((multimap_insert_perm entries a.1 a.2).mem_iff.1 he) with he | he
      · subst he; exact hd.1
      · intro hm
        exact hne e he (List.mem_cons_of_mem _ hm)
    obtain ⟨h3, h4⟩ := ih (multimap_insert entries a.1 a.2) h1 h2 hd.2
    refine ⟨h3, h4.trans ?_⟩
    have h5 : (multimap_insert entries a.1 a.2 ++ actions).Perm ((a :: entries) ++ actions) :=
      List.Perm.append_right _ (multimap_insert_perm entries a.1 a.2)
    exact h5.trans (by simpa using (List.perm_middle).symm)

/-- After a series of `queue_wallet_action` calls for one account its multimap holds the
entries inserted one after the other. -/
theorem queue_all_find (actions : List (Nat × Nat)) (w : wallets) (a : Nat) :
    pending_find (actions.foldl (fun w e => (queue_wallet_action w a e.1 e.2).1) w).pending_actions
      a =
    match actions with
    | [] => pending_find w.pending_actions a
    | _ :: _ => some (actions.foldl (fun es e => multimap_insert es e.1 e.2)
        ((pending_find w.pending_actions a).getD [])) := by
  induction actions generalizing w with
  | nil => rfl
  | cons e actions ih =>
    simp only [List.foldl_cons]
    have hq : pending_find (queue_wallet_action w a e.1 e.2).1.pending_actions a =
        some (multimap_insert ((pending_find w.pending_actions a).getD []) e.1 e.2) := by
      unfold queue_wallet_action
      simp only []
      split_ifs <;> exact pending_find_set_self _ _ _
    rw [ih]
    cases actions with
    | nil => simpa using hq
    | cons e2 actions => simp [hq]

/-- Started on an account whose multimap holds `entries`, and left alone, the loop of
`do_wallet_actions` runs exactly these entries in the multimap's order and then erases the
account from `pending_actions` and `current_actions`. -/
theorem do_wallet_actions_entries (entries : List (Nat × Nat)) (w : wallets) (a : Nat)
    (h : pending_find w.pending_actions a = some entries) :
    ∃ w1, (∀ fuel, entries.length + 2 ≤ fuel → do_wallet_actions fuel w a = some (entries, w1)) ∧
      pending_find w1.pending_actions a = none ∧ a ∉ w1.current_actions := by
  induction entries generalizing w with
  | nil =>
    refine ⟨⟨pending_erase w.pending_actions a,
      w.current_actions.filter (fun b => !decide (b = a))⟩, ?_, pending_find_erase_self _ _, ?_⟩
    · intro fuel hf
      obtain ⟨f, rfl⟩ : ∃ f, fuel = f + 2 := ⟨fuel - 2, by simp at hf; omega⟩
      simp [do_wallet_actions, do_wallet_actions_iteration, h, pending_find_erase_self]
    · simp [List.mem_filter]
  | cons first entries ih =>
    obtain ⟨w1, h1, h2, h3⟩ := ih ⟨pending_set w.pending_actions a entries, w.current_actions⟩
      (pending_find_set_self _ _ _)
    refine ⟨w1, ?_, h2, h3⟩
    intro fuel hf
    obtain ⟨f, rfl⟩ : ∃ f, fuel = f + 1 := ⟨fuel - 1, by simp at hf; omega⟩
    have hf2 : entries.length + 2 ≤ f := by simp at hf; omega
    simp [do_wallet_actions, do_wallet_actions_iteration, h, h1 f hf2]

/-- The body of C8. -/
theorem do_wallet_actions_queued (w0 : wallets) (account_a : Nat) (actions : List (Nat × Nat))
    (hd : (actions.map Prod.fst).Nodup)
    (hp : pending_find w0.pending_actions account_a = none)
    (hc : account_a ∉ w0.current_actions) :
    ∃ run w1,
      (∀ fuel, actions.length + 2 ≤ fuel →
        do_wallet_actions fuel
          (actions.foldl (fun w e => (queue_wallet_action w account_a e.1 e.2).1) w0)
          account_a = some (run, w1)) ∧
      run.Perm actions ∧ run.Pairwise (fun x y => x.1 > y.1) ∧
      pending_find w1.pending_actions account_a = none ∧
      account_a ∉ w1.current_actions := by
  cases actions with
  | nil =>
    refine ⟨[], w0, ?_, List.Perm.refl _, List.Pairwise.nil, hp, hc⟩
    intro fuel hf
    obtain ⟨f, rfl⟩ : ∃ f, fuel = f + 1 := ⟨fuel - 1, by simp at hf; omega⟩
    simp [do_wallet_actions, do_wallet_actions_iteration, hp]
  | cons e actions =>
    have hfind := queue_all_find (e :: actions) w0 account_a
    simp only [hp, Option.getD_none] at hfind
    obtain ⟨hs, hperm⟩ := multimap_insert_all (e :: actions) [] List.Pairwise.nil
      (by simp) hd
    obtain ⟨w1, h1, h2, h3⟩ := do_wallet_actions_entries _ _ account_a hfind
    refine ⟨_, w1, ?_, by simpa using hperm, hs, h2, h3⟩
    intro fuel hf
    exact h1 fuel (by rw [hperm.length_eq]; simpa using hf)

end wallets

/-- C8: if K actions with pairwise distinct priorities are enqueued for one account (that
had nothing pending and no loop in flight) and nothing more is enqueued, the loop of
`do_wallet_actions`, given K + 2 or more passes, ends, invokes each of them exactly once
(`run` is a permutation of the enqueued actions), in strictly decreasing priority order, and
leaves the account neither in `pending_actions` nor in `current_actions`. -/
theorem C8_do_wallet_actions (w0 : wallets) (account_a : Nat) (actions : List (Nat × Nat))
    (hd : (actions.map Prod.fst).Nodup)
    (hp : wallets.pending_find w0.pending_actions account_a = none)
    (hc : account_a ∉ w0.current_actions) :
    ∃ run w1,
      (∀ fuel, actions.length + 2 ≤ fuel →
        wallets.do_wallet_actions fuel
          (actions.foldl (fun w e => (wallets.queue_wallet_action w account_a e.1 e.2).1) w0)
          account_a = some (run, w1)) ∧
      run.Perm actions ∧ run.Pairwise (fun x y => x.1 > y.1) ∧
      wallets.pending_find w1.pending_actions account_a = none ∧
      account_a ∉ w1.current_actions :=
  wallets.do_wallet_actions_queued w0 account_a actions hd hp hc

/-- C8 (witness): the actions 1, 2, 3 enqueued with priorities 10, 20, 30 on account 5 of an
empty queue. -/
theorem C8_do_wallet_actions_witness :
    ∃ run w1,
      (∀ fuel, 3 + 2 ≤ fuel →
        wallets.do_wallet_actions fuel
          (([(10, 1), (20, 2), (30, 3)] : List (Nat × Nat)).foldl
            (fun w e => (wallets.queue_wallet_action w 5 e.1 e.2).1) ⟨[], []⟩) 5
          = some (run, w1)) ∧
      run.Perm [(10, 1), (20, 2), (30, 3)] ∧ run.Pairwise (fun x y => x.1 > y.1) ∧
      wallets.pending_find w1.pending_actions 5 = none ∧ 5 ∉ w1.current_actions :=
  C8_do_wallet_actions ⟨[], []⟩ 5 [(10, 1), (20, 2), (30, 3)] (by decide) (by decide)
    (by decide)

/-! ## Claim C9 -/

namespace wallets

/-- A locked region of the task of account `a` changes `current_actions` at most at `a`. -/
theorem locked_current_ne (fuel : Nat) (w w1 : wallets) (a : Nat) (r : Option (Nat × Nat))
    (h : do_wallet_actions_locked fuel w a = some (w1, r)) (b : Nat) (hb : b ≠ a) :
    b ∈ w1.current_actions ↔ b ∈ w.current_actions := by
  induction fuel generalizing w with
  | zero => simp [do_wallet_actions_locked] at h
  | succ fuel ih =>
    unfold do_wallet_actions_locked do_wallet_actions_iteration at h
    split at h
    · rename_i w2 heq
      split at heq
      · simp only [Prod.mk.injEq, Option.some.injEq] at heq h
        rw [← h.1, ← heq.1]
      · simp only [Prod.mk.injEq, reduceCtorEq, and_false] at heq
      · simp only [Prod.mk.injEq, reduceCtorEq, and_false] at heq
    · rename_i w2 heq
      split at heq
      · simp only [Prod.mk.injEq, reduceCtorEq, and_false] at heq
      · simp only [Prod.mk.injEq, and_true] at heq
        rw [ih w2 h, ← heq]
        simp [List.mem_filter, hb]
      · simp only [Prod.mk.injEq, reduceCtorEq, and_false] at heq
    · rename_i w2 first heq
      split at heq
      · simp only [Prod.mk.injEq, reduceCtorEq, and_false] at heq
      · simp only [Prod.mk.injEq, reduceCtorEq, and_false] at heq
      · simp only [Prod.mk.injEq, Option.some.injEq] at heq h
        rw [← h.1, ← heq.1]

/-- A locked region that takes an action out to run it leaves `current_actions` as it is. -/
theorem locked_current_run (fuel : Nat) (w w1 : wallets) (a : Nat) (first : Nat × Nat)
    (h : do_wallet_actions_locked fuel w a = some (w1, some first)) (b : Nat)
    (hb : b ∈ w.current_actions) : b ∈ w1.current_actions := by
  induction fuel generalizing w with
  | zero => simp [do_wallet_actions_locked] at h
  | succ fuel ih =>
    unfold do_wallet_actions_locked do_wallet_actions_iteration at h
    split at h
    · simp at h
    · rename_i w2 heq
      split at heq
      · simp only [Prod.mk.injEq, reduceCtorEq, and_false] at heq
      · rename_i hfind
        simp only [Prod.mk.injEq, and_true] at heq
        subst heq
        -- after the erase the account has no multimap: the region ends without an action
        cases fuel with
        | zero => simp [do_wallet_actions_locked] at h
        | succ fuel =>
          simp [do_wallet_actions_locked, do_wallet_actions_iteration,
            pending_find_erase_self] at h
      · simp only [Prod.mk.injEq, reduceCtorEq, and_false] at heq
    · rename_i w2 first2 heq
      split at heq
      · simp only [Prod.mk.injEq, reduceCtorEq, and_false] at heq
      · simp only [Prod.mk.injEq, reduceCtorEq, and_false] at heq
      · simp only [Prod.mk.injEq, Option.some.injEq] at heq h
        rw [← h.1, ← heq.1]
        exact hb

theorem filter_length_le_one {α : Type} (f : α → Nat) (l : List α) (a : Nat)
    (h : (l.map f).Nodup) : (l.filter (fun t => decide (f t = a))).length ≤ 1 := by
  induction l with
  | nil => simp
  | cons x l ih =>
    simp only [List.map_cons, List.nodup_cons] at h
    by_cases hx : f x = a
    · have hnil : l.filter (fun t => decide (f t = a)) = [] := by
        rw [List.filter_eq_nil_iff]
        intro t ht
        simp only [decide_eq_true_eq]
        intro hta
        exact h.1 (List.mem_map.2 ⟨t, ht, hta.trans hx.symm⟩)
      simp [List.filter_cons, hx, hnil]
    · simp only [List.filter_cons, hx, decide_False]
      exact ih h.2

/-- In every reachable state no two tasks serve the same account, and every account with a
task is in `current_actions`. -/
theorem reachable_tasks (st : node_state) (h : reachable st) :
    (st.tasks.map Prod.fst).Nodup ∧
    ∀ a ∈ st.tasks.map Prod.fst, a ∈ st.wallets.current_actions := by
  unfold reachable at h
  induction h with
  | refl => simp
  | @tail mid _ _ hstep ih =>
    obtain ⟨ih1, ih2⟩ := ih
    cases hstep with
    | queue _ a p f =>
      by_cases hin : a ∈ mid.wallets.current_actions
      · have h2 : (queue_wallet_action mid.wallets a p f).2 = false := by
          simp [queue_wallet_action, hin]
        have h1 : (queue_wallet_action mid.wallets a p f).1.current_actions =
            mid.wallets.current_actions := by
          simp [queue_wallet_action, hin]
        simp only [h2, Bool.false_eq_true, if_false, h1]
        exact ⟨ih1, ih2⟩
      · have h2 : (queue_wallet_action mid.wallets a p f).2 = true := by
          simp [queue_wallet_action, hin]
        have h1 : (queue_wallet_action mid.wallets a p f).1.current_actions =
            a :: mid.wallets.current_actions := by
          simp [queue_wallet_action, hin]
        simp only [h2, if_true, h1]
        refine ⟨?_, ?_⟩
        · simp only [List.map_append, List.map_cons, List.map_nil]
          rw [List.nodup_append]
          refine ⟨ih1, by simp, ?_⟩
          intro b hb hb2
          simp only [List.mem_singleton] at hb2
          subst hb2
          exact hin (ih2 b hb)
        · intro b hb
          simp only [List.map_append, List.map_cons, List.map_nil, List.mem_append,
            List.mem_singleton] at hb
          rcases hb with hb | hb
          · exact List.mem_cons_of_mem _ (ih2 b hb)
          · subst hb; exact List.mem_cons_self _ _
    | locked_end w w1 before after a fuel hl =>
      simp only [List.map_append, List.map_cons] at ih1 ih2 ⊢
      have hmid := List.nodup_middle.1 ih1
      rw [List.nodup_cons] at hmid
      refine ⟨hmid.2, ?_⟩
      intro b hb
      have hba : b ≠ a := fun e => hmid.1 (e ▸ hb)
      rw [locked_current_ne fuel w w1 a none hl b hba]
      apply ih2
      simp only [List.mem_append, List.mem_cons] at hb ⊢
      tauto
    | locked_run w w1 before after a fuel first hl =>
      simp only [List.map_append, List.map_cons] at ih1 ih2 ⊢
      exact ⟨ih1, fun b hb => locked_current_run fuel w w1 a first hl b (ih2 b hb)⟩
    | action_end w before after a first =>
      simp only [List.map_append, List.map_cons] at ih1 ih2 ⊢
      exact ⟨ih1, ih2⟩

/-- The body of C9. -/
theorem reachable_one_loop (st : node_state) (h : reachable st) (a : Nat) :
    (st.tasks.filter (fun t => decide (t.1 = a))).length ≤ 1 ∧
    (st.tasks.filter (fun t => decide (t.1 = a) && t.2.isSome)).length ≤ 1 := by
  have h1 := filter_length_le_one Prod.fst st.tasks a (reachable_tasks st h).1
  refine ⟨h1, le_trans ?_ h1⟩
  apply List.Sublist.length_le
  have : st.tasks.filter (fun t => decide (t.1 = a) && t.2.isSome) =
      (st.tasks.filter (fun t => decide (t.1 = a))).filter (fun t => t.2.isSome) := by
    rw [List.filter_filter]
    congr 1
    funext t
    exact Bool.and_comm _ _
  rw [this]
  exact List.filter_sublist _

end wallets

/-- C9: in every state reached from the empty queue by `queue_wallet_action` calls, locked
regions of `do_wallet_actions` tasks and ends of running actions, taken in any order, any
account has at most one `do_wallet_actions` task, hence at most one action that is being
run. -/
theorem C9_one_loop_per_account (st : wallets.node_state) (h : wallets.reachable st)
    (a : Nat) :
    (st.tasks.filter (fun t => decide (t.1 = a))).length ≤ 1 ∧
    (st.tasks.filter (fun t => decide (t.1 = a) && t.2.isSome)).length ≤ 1 :=
  wallets.reachable_one_loop st h a

/-- C9 (witness): account 5 after two `queue_wallet_action` calls and the first locked
region of its task, which takes out the action of priority 20. -/
theorem C9_one_loop_per_account_witness :
    wallets.reachable ⟨⟨[(5, [(10, 1)])], [5]⟩, [(5, some (20, 2))]⟩ ∧
    (([(5, some (20, 2))] : List (Nat × Option (Nat × Nat))).filter
      (fun t => decide (t.1 = 5))).length ≤ 1 ∧
    (([(5, some (20, 2))] : List (Nat × Option (Nat × Nat))).filter
      (fun t => decide (t.1 = 5) && t.2.isSome)).length ≤ 1 :=
  have hr : wallets.reachable ⟨⟨[(5, [(10, 1)])], [5]⟩, [(5, some (20, 2))]⟩ :=
    Relation.ReflTransGen.tail
      (Relation.ReflTransGen.tail
        (Relation.ReflTransGen.single (wallets.step.queue ⟨⟨[], []⟩, []⟩ 5 10 1))
        (wallets.step.queue ⟨⟨[(5, [(10, 1)])], [5]⟩, [(5, none)]⟩ 5 20 2))
      (wallets.step.locked_run ⟨[(5, [(20, 2), (10, 1)])], [5]⟩ ⟨[(5, [(10, 1)])], [5]⟩
        [] [] 5 1 (20, 2) (by decide))
  ⟨hr, C9_one_loop_per_account _ hr 5⟩

/-! ## Claim C10 -/

/-- With the check passed and the version current, `attempt_password` runs no upgrade and
leaves the table with the derived key cached. -/
theorem wallet_store.attempt_password_current (P : Primitives) (s : wallet_store)
    (password_a : String) (seed : Nat)
    (hv : wallet_store.valid_password P ⟨s.table, wallet_store.derive_key P s password_a⟩ = true)
    (h3 : wallet_store.version s = 3) :
    wallet_store.attempt_password P s password_a seed =
      (false, ⟨s.table, wallet_store.derive_key P s password_a⟩) := by
  have hver : wallet_store.version ⟨s.table, wallet_store.derive_key P s password_a⟩ = 3 := h3
  unfold wallet_store.attempt_password
  simp [hv, hver, wallet_store.version_1, wallet_store.version_2]

/-- What `enter_initial_password` leaves of a keystore just produced by `create`: the table
written by `rekey ("")` and the key derived from the empty password. -/
theorem wallet.enter_initial_password_create (P : Primitives) (t : Table)
    (representative_a salt_l wallet_key seed rnd : Nat)
    (ht : Table.get t wallet_store.version_special = none) :
    wallet.enter_initial_password P
      (wallet_store.create P t representative_a salt_l wallet_key seed) rnd =
      ⟨(wallet_store.rekey P (wallet_store.create P t representative_a salt_l wallet_key seed)
        "").2.table, P.PHS "" salt_l⟩ := by
  have hv := wallet_store.create_valid_password P t representative_a salt_l wallet_key seed ht
  have hs := wallet_store.create_salt P t representative_a salt_l wallet_key seed ht
  have hc := wallet_store.create_core P t representative_a salt_l wallet_key seed ht
  have hsr := wallet_store.salt_after_rekey P
    (wallet_store.create P t representative_a salt_l wallet_key seed) ""
  have hd : ∀ d : Nat, wallet_store.derive_key P ⟨(wallet_store.rekey P (wallet_store.create P t
      representative_a salt_l wallet_key seed) "").2.table, d⟩ "" = P.PHS "" salt_l := by
    intro d
    unfold wallet_store.derive_key
    simp only []
    rw [hsr, hs]
  have hval : ∀ d : Nat, wallet_store.valid_password P ⟨(wallet_store.rekey P
      (wallet_store.create P t representative_a salt_l wallet_key seed) "").2.table,
      wallet_store.derive_key P ⟨(wallet_store.rekey P (wallet_store.create P t
      representative_a salt_l wallet_key seed) "").2.table, d⟩ ""⟩ = true := by
    intro d
    rw [hd, wallet_store.valid_password_after_rekey P _ "" hv]
    simp [wallet_store.derive_key, hs, Nat.xor_cancel_right]
  have hver : ∀ d : Nat, wallet_store.version ⟨(wallet_store.rekey P (wallet_store.create P t
      representative_a salt_l wallet_key seed) "").2.table, d⟩ = 3 := by
    intro d
    rw [wallet_store.rekey_of_valid P _ "" hv]
    have e0 : Table.get ((wallet_store.create P t representative_a salt_l wallet_key
        seed).table.put wallet_store.wallet_key_special (wallet_value.of_key
        (encrypt P (wallet_store.wallet_key P (wallet_store.create P t representative_a salt_l
        wallet_key seed)) (wallet_store.derive_key P (wallet_store.create P t representative_a
        salt_l wallet_key seed) "") (owords0 (wallet_store.salt (wallet_store.create P t
        representative_a salt_l wallet_key seed)))))) wallet_store.version_special =
        Table.get (wallet_store.create P t representative_a salt_l wallet_key seed).table
          wallet_store.version_special :=
      Table.get_put_ne _ _ (by decide)
    have h0 := hc.2.1
    simp only [wallet_store.entry_get_raw] at h0
    simp only [wallet_store.version, wallet_store.entry_get_raw, e0, h0]
    rfl
  unfold wallet.enter_initial_password wallet.enter_password
  simp only [hc.1, if_true, hv]
  have hres := wallet_store.attempt_password_current P
    ⟨(wallet_store.rekey P (wallet_store.create P t representative_a salt_l wallet_key seed)
      "").2.table, (wallet_store.rekey P (wallet_store.create P t representative_a salt_l
      wallet_key seed) "").2.password⟩ "" rnd (hval _) (hver _)
  rw [show (wallet_store.rekey P (wallet_store.create P t representative_a salt_l wallet_key
    seed) "").2 = ⟨(wallet_store.rekey P (wallet_store.create P t representative_a salt_l
    wallet_key seed) "").2.table, (wallet_store.rekey P (wallet_store.create P t
    representative_a salt_l wallet_key seed) "").2.password⟩ from rfl, hres, hd]

/-- C10 (counterexample): on the example wallet, just created on the empty table,
`attempt_password ("")` reports locked (returns true). -/
theorem C10_counterexample :
    Table.get ([] : Table) wallet_store.version_special = none ∧
    (wallet_store.attempt_password example_primitives
      (wallet_store.create example_primitives [] 100 (5 * 2 ^ 128 + 9) 1234 77) "" 0).1
        = true := by
  decide

/-- C10 (amended): a keystore just produced by `create` passes `valid_password` under the
cached zero key; a direct `attempt_password ("")` on it reports unlocked exactly when the
wallet key decrypted under `derive ("", salt)` reproduces the check value; and after
`enter_initial_password`, which re-keys the fresh store to the empty password, the store is
unlocked and `attempt_password ("")` reports unlocked (returns false). -/
theorem C10_create_empty_password (P : Primitives) (t : Table)
    (representative_a salt_l wallet_key seed : Nat)
    (ht : Table.get t wallet_store.version_special = none) :
    wallet_store.valid_password P
      (wallet_store.create P t representative_a salt_l wallet_key seed) = true ∧
    (∀ rnd : Nat, (wallet_store.attempt_password P
      (wallet_store.create P t representative_a salt_l wallet_key seed) "" rnd).1 = false ↔
      P.aes_ctr ((wallet_key ^^^ P.aes_ctr 0 (owords0 salt_l)) ^^^
        P.aes_ctr (P.PHS "" salt_l) (owords0 salt_l)) (owords0 salt_l) =
        P.aes_ctr wallet_key (owords0 salt_l)) ∧
    (∀ rnd rnd' : Nat,
      wallet_store.valid_password P (wallet.enter_initial_password P
        (wallet_store.create P t representative_a salt_l wallet_key seed) rnd) = true ∧
      (wallet_store.attempt_password P (wallet.enter_initial_password P
        (wallet_store.create P t representative_a salt_l wallet_key seed) rnd) "" rnd').1
          = false) := by
  have hv := wallet_store.create_valid_password P t representative_a salt_l wallet_key seed ht
  have hs := wallet_store.create_salt P t representative_a salt_l wallet_key seed ht
  have hc := wallet_store.create_core P t representative_a salt_l wallet_key seed ht
  have hk := wallet_store.create_check P t representative_a salt_l wallet_key seed ht
  refine ⟨hv, ?_, ?_⟩
  · intro rnd
    rw [wallet_store.attempt_password_fst, Bool.not_eq_false', wallet_store.valid_password_iff]
    have hs2 : ∀ d : Nat, wallet_store.salt ⟨(wallet_store.create P t representative_a salt_l
        wallet_key seed).table, d⟩ = salt_l := fun _ => hs
    have hk2 : ∀ d : Nat, wallet_store.check ⟨(wallet_store.create P t representative_a salt_l
        wallet_key seed).table, d⟩ = P.aes_ctr wallet_key (owords0 salt_l) := fun _ => hk
    have he : ∀ d : Nat, wallet_store.entry_get_raw ⟨(wallet_store.create P t representative_a
        salt_l wallet_key seed).table, d⟩ wallet_store.wallet_key_special =
        wallet_value.of_key (encrypt P wallet_key 0 (owords0 salt_l)) := fun _ => hc.2.2.2.1
    rw [hk2]
    unfold wallet_store.wallet_key
    simp only [hs2, he, wallet_value.of_key, encrypt, decrypt, wallet_store.derive_key, hs]
    exact eq_comm
  · intro rnd rnd'
    rw [wallet.enter_initial_password_create P t representative_a salt_l wallet_key seed rnd ht]
    have hval : wallet_store.valid_password P ⟨(wallet_store.rekey P (wallet_store.create P t
        representative_a salt_l wallet_key seed) "").2.table, P.PHS "" salt_l⟩ = true := by
      rw [wallet_store.valid_password_after_rekey P _ "" hv]
      simp [wallet_store.derive_key, hs, Nat.xor_cancel_right]
    refine ⟨hval, ?_⟩
    rw [wallet_store.attempt_password_fst]
    have hd : wallet_store.derive_key P ⟨(wallet_store.rekey P (wallet_store.create P t
        representative_a salt_l wallet_key seed) "").2.table, P.PHS "" salt_l⟩ "" =
        P.PHS "" salt_l := by
      unfold wallet_store.derive_key
      simp only []
      rw [wallet_store.salt_after_rekey, hs]
    simp only [hd, hval]
    rfl

/-- C10 (witness): the example wallet created on the empty table. -/
theorem C10_create_empty_password_witness :
    Table.get ([] : Table) wallet_store.version_special = none ∧
    (wallet_store.attempt_password example_primitives (wallet.enter_initial_password
      example_primitives example_store 0) "" 0).1 = false :=
  ⟨by decide,
   ((C10_create_empty_password example_primitives [] 100 (5 * 2 ^ 128 + 9) 1234 77
      (by decide)).2.2 0 0).2⟩

/-! ## Claim C13 -/

/-- C13: on every keystore on which `valid_password` is false and for every new password,
`rekey` returns true (failure) and returns the store as it was: every stored entry and the
cached password are unchanged. -/
theorem C13_rekey_locked (P : Primitives) (s : wallet_store) (password_a : String)
    (h : wallet_store.valid_password P s = false) :
    (wallet_store.rekey P s password_a).1 = true ∧ (wallet_store.rekey P s password_a).2 = s := by
  unfold wallet_store.rekey
  simp [h]

/-- C13 (witness): the example wallet with the cached password replaced by 999. -/
theorem C13_rekey_locked_witness :
    (wallet_store.rekey example_primitives ⟨example_store.table, 999⟩ "new").1 = true ∧
    (wallet_store.rekey example_primitives ⟨example_store.table, 999⟩ "new").2 =
      ⟨example_store.table, 999⟩ :=
  C13_rekey_locked example_primitives ⟨example_store.table, 999⟩ "new" (by decide)

/-! ## Claims C16 and C17 -/

namespace work_pool

/-- The queue and the calls that `remove_if` leaves: the requests of other roots in their
order, and one call without result for each request of the root, in queue order. -/
theorem cancel_remove_eq (root_a : Nat) (pending : List (Nat × Nat)) :
    cancel_remove root_a pending =
      (pending.filter (fun i => !decide (i.1 = root_a)),
       (pending.filter (fun i => decide (i.1 = root_a))).map (fun i => (i.2, none))) := by
  induction pending with
  | nil => rfl
  | cons item_a rest ih =>
    unfold cancel_remove
    rw [ih]
    by_cases h : item_a.1 = root_a
    · simp [h]
    · simp [h]

end work_pool

/-- C16: for every pending queue and every root `r`, after `cancel (r)` the queue is the
earlier queue with exactly the requests whose root equals `r` removed and the others in
their earlier order; the callbacks invoked are those of the removed requests, each once and
with no result, in queue order, and no other. -/
theorem C16_cancel (pool : work_pool) (root_a : Nat) :
    (work_pool.cancel pool root_a).1.pending =
      pool.pending.filter (fun i => !decide (i.1 = root_a)) ∧
    (work_pool.cancel pool root_a).2 =
      (pool.pending.filter (fun i => decide (i.1 = root_a))).map (fun i => (i.2, none)) ∧
    (work_pool.cancel pool root_a).1.done = pool.done := by
  unfold work_pool.cancel
  rw [work_pool.cancel_remove_eq]
  exact ⟨rfl, rfl, rfl⟩

/-- C19: for every account with an entry in the wallet, every root and every nonce `w`,
`work_update` sets the account's cached work to `w`, keeps its slot and every other entry,
when `latest_root (account) == root`, and leaves the store as it was otherwise. -/
theorem C19_work_update (store : wallet_store) (latest_root : Nat → Nat)
    (account_a root_a work_a : Nat) (v : wallet_value)
    (h : Table.get store.table account_a = some v) :
    (latest_root account_a = root_a →
      Table.get (wallet.work_update store latest_root account_a root_a work_a).table account_a
        = some ⟨v.key, work_a⟩ ∧
      (∀ k, k ≠ account_a →
        Table.get (wallet.work_update store latest_root account_a root_a work_a).table k =
          Table.get store.table k) ∧
      (wallet.work_update store latest_root account_a root_a work_a).password =
        store.password) ∧
    (latest_root account_a ≠ root_a →
      wallet.work_update store latest_root account_a root_a work_a = store) := by
  have he : wallet_store.entry_get_raw store account_a = v := by
    simp [wallet_store.entry_get_raw, h]
  constructor
  · intro hl
    unfold wallet.work_update wallet_store.work_put
    simp only [hl, if_true, he]
    refine ⟨Table.get_put_self _ _ _, fun k hk => Table.get_put_ne _ _ hk, rfl⟩
  · intro hl
    unfold wallet.work_update
    simp [hl]

/-- C19 (witness): account 13 of the example wallet, whose latest root is 50. -/
theorem C19_work_update_witness :
    Table.get (wallet.work_update example_store_adhoc (fun _ => 50) 13 50 777).table 13 =
      some ⟨22873962651399844003851, 777⟩ ∧
    wallet.work_update example_store_adhoc (fun _ => 50) 13 51 777 = example_store_adhoc :=
  ⟨((C19_work_update example_store_adhoc (fun _ => 50) 13 50 777
      ⟨22873962651399844003851, 0⟩ (by decide)).1 rfl).1,
   (C19_work_update example_store_adhoc (fun _ => 50) 13 51 777
      ⟨22873962651399844003851, 0⟩ (by decide)).2 (by decide)⟩

/-! ## Claims C11 and C12 -/

theorem ptree_get_mem {tree : ptree} {key value : String} (h : ptree_get tree key = some value) :
    (key, value) ∈ tree := by
  induction tree with
  | nil => simp [ptree_get] at h
  | cons e tree ih =>
    obtain ⟨k, v⟩ := e
    unfold ptree_get at h
    split_ifs at h with hk
    · simp only [Option.some.injEq] at h
      rw [hk, h]
      exact List.mem_cons_self _ _
    · exact List.mem_cons_of_mem _ (ih h)

theorem ptree_get_of_mem {tree : ptree} {i : String × String} (h : i ∈ tree) :
    ∃ value, ptree_get tree i.1 = some value := by
  induction tree with
  | nil => simp at h
  | cons e tree ih =>
    obtain ⟨k, v⟩ := e
    unfold ptree_get
    by_cases hk : k = i.1
    · exact ⟨v, by rw [if_pos hk]⟩
    · rw [if_neg hk]
      rcases List.mem_cons.1 h with h | h
      · exact absurd (by rw [h]) hk
      · exact ih h

namespace wallet_store

/-- The import loop over children that all decode: the flag ends false unless there was no
child, and the keys in the table are the earlier ones and the decoded keys of the
children. -/
theorem load_loop_all_ok (wallet_l : ptree) (rest : List (String × String)) (init_a : Bool)
    (s : wallet_store)
    (h : ∀ i ∈ rest, ∃ key value, decode_hex i.1 = some key ∧
      (ptree_get wallet_l i.1).bind decode_hex = some value) :
    (rest ≠ [] → (load_loop wallet_l rest init_a s).1 = false) ∧
    (rest = [] → (load_loop wallet_l rest init_a s).1 = init_a) ∧
    ∀ k, (Table.get (load_loop wallet_l rest init_a s).2.table k).isSome = true ↔
      ((Table.get s.table k).isSome = true ∨ ∃ i ∈ rest, decode_hex i.1 = some k) := by
  induction rest generalizing init_a s with
  | nil =>
    refine ⟨fun h => absurd rfl h, fun _ => rfl, fun k => ?_⟩
    simp [load_loop]
  | cons i rest ih =>
    obtain ⟨key, value, hk, hv⟩ := h i (List.mem_cons_self _ _)
    rw [load_loop_cons_ok wallet_l i rest init_a s key value hk hv]
    obtain ⟨h1, h2, h3⟩ := ih false (entry_put_raw s key (wallet_value.of_key value))
      (fun x hx => h x (List.mem_cons_of_mem _ hx))
    refine ⟨fun _ => ?_, fun hc => absurd hc (List.cons_ne_nil _ _), fun k => ?_⟩
    · by_cases hr : rest = []
      · exact h2 hr
      · exact h1 hr
    · rw [h3 k]
      have hput : (Table.get (entry_put_raw s key (wallet_value.of_key value)).table k).isSome
          = true ↔ ((Table.get s.table k).isSome = true ∨ key = k) := by
        show (Table.get (Table.put s.table key _) k).isSome = true ↔ _
        by_cases hkk : k = key
        · subst hkk
          rw [Table.get_put_self]
          simp
        · rw [Table.get_put_ne _ _ hkk]
          have : ¬ key = k := fun e => hkk e.symm
          simp [this]
      rw [hput]
      constructor
      · rintro (h | h)
        · rcases h with h | h
          · exact Or.inl h
          · exact Or.inr ⟨i, List.mem_cons_self _ _, by rw [hk, h]⟩
        · obtain ⟨x, hx, hxk⟩ := h
          exact Or.inr ⟨x, List.mem_cons_of_mem _ hx, hxk⟩
      · rintro (h | ⟨x, hx, hxk⟩)
        · exact Or.inl (Or.inl h)
        · rcases List.mem_cons.1 hx with hx | hx
          · left; right
            rw [hx, hk] at hxk
            exact Option.some.inj hxk
          · exact Or.inr ⟨x, hx, hxk⟩

/-- The body of C12. -/
theorem load_all_decoded (tree : ptree)
    (h : ∀ i ∈ tree, (decode_hex i.1).isSome = true ∧ (decode_hex i.2).isSome = true) :
    (load [] (some tree)).1 = false ↔
      ∀ k ∈ [version_special, salt_special, wallet_key_special, check_special,
        representative_special], ∃ i ∈ tree, decode_hex i.1 = some k := by
  have hall : ∀ i ∈ tree, ∃ key value, decode_hex i.1 = some key ∧
      (ptree_get tree i.1).bind decode_hex = some value := by
    intro i hi
    obtain ⟨key, hkey⟩ := Option.isSome_iff_exists.1 (h i hi).1
    obtain ⟨v, hv⟩ := ptree_get_of_mem hi
    obtain ⟨value, hvalue⟩ := Option.isSome_iff_exists.1 (h _ (ptree_get_mem hv)).2
    refine ⟨key, value, hkey, ?_⟩
    rw [hv, Option.some_bind]
    exact hvalue
  obtain ⟨h1, h2, h3⟩ := load_loop_all_ok tree tree false ⟨[], 0⟩ hall
  have hflag : (load_loop tree tree false ⟨[], 0⟩).1 = false := by
    by_cases ht : tree = []
    · exact h2 ht
    · exact h1 ht
  have hk : ∀ k, (Table.get (load_loop tree tree false ⟨[], 0⟩).2.table k).isNone = false ↔
      ∃ i ∈ tree, decode_hex i.1 = some k := by
    intro k
    have h4 := h3 k
    have hnil : (Table.get ([] : Table) k).isSome = false := rfl
    have h5 : (Table.get (⟨[], 0⟩ : wallet_store).table k).isSome = false := hnil
    rw [h5] at h4
    have hconv : ∀ o : Option wallet_value, o.isNone = false ↔ o.isSome = true := by
      intro o
      cases o <;> simp
    rw [hconv, h4]
    constructor
    · rintro (hf | hx)
      · exact absurd hf (by decide)
      · exact hx
    · exact Or.inr
  unfold load
  simp only [Option.isNone_some, Option.getD_some, hflag, Bool.false_or, Bool.or_eq_false_iff,
    hk, List.mem_cons, List.mem_singleton, forall_eq_or_imp, forall_eq, List.not_mem_nil,
    false_imp_iff, implies_true, and_true]
  tauto

end wallet_store

/-- C11 (evaluation at the failing input): the key "xyz" does not decode; an object with
that entry first and the five required reserved keys after it loads with `init_a == false`,
while the same entries with the bad one last load with `init_a == true`. -/
theorem C11_load_bad_entry_first :
    decode_hex "xyz" = none ∧
    (wallet_store.load [] (some (("xyz", to_string 1) ::
      [0, 1, 2, 3, 4].map (fun k => (to_string k, to_string 9))))).1 = false ∧
    (wallet_store.load [] (some ([0, 1, 2, 3, 4].map (fun k => (to_string k, to_string 9)) ++
      [("xyz", to_string 1)]))).1 = true := by
  decide

/-- C12: for every JSON object whose keys and values all decode as hexadecimal 32-byte
numbers, loading it into an empty table reports success (`init_a == false`) if and only if
the keys version (0), salt (1), wallet_key (2), check (3) and representative (4) are all
among the object's keys. -/
theorem C12_load_required_keys (tree : ptree)
    (h : ∀ i ∈ tree, (decode_hex i.1).isSome = true ∧ (decode_hex i.2).isSome = true) :
    (wallet_store.load [] (some tree)).1 = false ↔
      ∀ k ∈ [wallet_store.version_special, wallet_store.salt_special,
        wallet_store.wallet_key_special, wallet_store.check_special,
        wallet_store.representative_special], ∃ i ∈ tree, decode_hex i.1 = some k :=
  wallet_store.load_all_decoded tree h

/-- C12 (witness): the export of the example wallet, which has all five keys. -/
theorem C12_load_required_keys_witness :
    (wallet_store.load [] (some (wallet_store.serialize_json example_store))).1 = false ↔
      ∀ k ∈ [wallet_store.version_special, wallet_store.salt_special,
        wallet_store.wallet_key_special, wallet_store.check_special,
        wallet_store.representative_special],
        ∃ i ∈ wallet_store.serialize_json example_store, decode_hex i.1 = some k :=
  C12_load_required_keys (wallet_store.serialize_json example_store) (by decide)

/-! ## Claim C14 -/

namespace wallet_store

/-- The result of `fetch` is determined by the password check, the entry, the wallet key,
the salt and the derived keys. -/
theorem fetch_congr (P : Primitives) {s s' : wallet_store} (pub : Nat)
    (hv : valid_password P s' = valid_password P s)
    (he : entry_get_raw s' pub = entry_get_raw s pub)
    (hw : wallet_key P s' = wallet_key P s) (hs : salt s' = salt s)
    (hd : ∀ i, deterministic_key P s' i = deterministic_key P s i) :
    fetch P s' pub = fetch P s pub := by
  unfold fetch
  simp only [hv, he, hw, hs, hd]

end wallet_store

namespace wallet_store

/-- The body of C18. -/
theorem seed_set_clears (P : Primitives) (s : wallet_store) (sd : Nat)
    (ho : Table.Ordered s.table) :
    (∀ fuel, (entry_put_raw s seed_special (wallet_value.of_key
        (encrypt P sd (wallet_key P s) (owords0 (salt s))))).table.length < fuel →
      deterministic_clear_loop fuel (entry_put_raw s seed_special (wallet_value.of_key
        (encrypt P sd (wallet_key P s) (owords0 (salt s))))) special_count =
      deterministic_clear_loop ((entry_put_raw s seed_special (wallet_value.of_key
        (encrypt P sd (wallet_key P s) (owords0 (salt s))))).table.length + 1)
        (entry_put_raw s seed_special (wallet_value.of_key
        (encrypt P sd (wallet_key P s) (owords0 (salt s))))) special_count) ∧
    (∀ k v, special_count ≤ k → Table.get (seed_set P s sd).table k = some v →
      key_type v ≠ rai.key_type.deterministic) ∧
    (∀ k v, special_count ≤ k → Table.get s.table k = some v →
      key_type v ≠ rai.key_type.deterministic →
      Table.get (seed_set P s sd).table k = some v) ∧
    deterministic_index_get (seed_set P s sd) = 0 ∧ seed P (seed_set P s sd) = sd := by
  have ho0 : Table.Ordered (entry_put_raw s seed_special (wallet_value.of_key
      (encrypt P sd (wallet_key P s) (owords0 (salt s))))).table :=
    Table.ordered_put ho _ _
  have hseed := seed_set_seed P s sd
  refine ⟨?_, ?_, ?_, hseed.2, hseed.1⟩
  · intro fuel hf
    have h1 := deterministic_clear_loop_eq fuel _ special_count ho0
      (lt_of_le_of_lt (List.length_filter_le _ _) hf)
    have h2 := deterministic_clear_loop_eq ((entry_put_raw s seed_special (wallet_value.of_key
      (encrypt P sd (wallet_key P s) (owords0 (salt s))))).table.length + 1) _ special_count ho0
      (Nat.lt_succ_of_le (List.length_filter_le _ _))
    have h3 := deterministic_clear_loop_password fuel (entry_put_raw s seed_special
      (wallet_value.of_key (encrypt P sd (wallet_key P s) (owords0 (salt s))))) special_count
    have h4 := deterministic_clear_loop_password ((entry_put_raw s seed_special
      (wallet_value.of_key (encrypt P sd (wallet_key P s) (owords0 (salt s))))).table.length + 1)
      (entry_put_raw s seed_special (wallet_value.of_key (encrypt P sd (wallet_key P s)
      (owords0 (salt s))))) special_count
    rw [← h2] at h1
    rw [← h4] at h3
    generalize deterministic_clear_loop fuel _ _ = a at h1 h3
    generalize deterministic_clear_loop _ _ _ = b at h1 h3
    cases a
    cases b
    simp only at h1 h3
    rw [h1, h3]
  · intro k v hk hg
    have hk7 : 7 ≤ k := hk
    have hg1 : Table.get (Table.put (deterministic_clear_loop
        ((entry_put_raw s seed_special (wallet_value.of_key (encrypt P sd (wallet_key P s)
          (owords0 (salt s))))).table.length + 1)
        (entry_put_raw s seed_special (wallet_value.of_key (encrypt P sd (wallet_key P s)
          (owords0 (salt s))))) special_count).table
        deterministic_index_special (wallet_value.of_key 0)) k = some v := hg
    rw [Table.get_put_ne _ _ (by simp [deterministic_index_special]; omega)] at hg1
    exact (deterministic_clear_loop_get _ ho0 k v hk hg1).2
  · intro k v hk hg hnd
    have hk7 : 7 ≤ k := hk
    show Table.get (Table.put (deterministic_clear_loop _ _ _).table
      deterministic_index_special _) k = some v
    rw [Table.get_put_ne _ _ (by simp [deterministic_index_special]; omega),
      deterministic_clear_loop_eq _ _ special_count ho0
        (Nat.lt_succ_of_le (List.length_filter_le _ _)),
      Table.get_filter ho0]
    have hg0 : Table.get (entry_put_raw s seed_special (wallet_value.of_key
        (encrypt P sd (wallet_key P s) (owords0 (salt s))))).table k = some v := by
      show Table.get (Table.put s.table seed_special _) k = some v
      rw [Table.get_put_ne _ _ (by simp [seed_special]; omega)]
      exact hg
    rw [hg0]
    simp [Option.filter, hnd]

/-- In a table in key order the loop of `deterministic_clear` reaches `i == n` within as
many rounds as there are entries at or above the seek key, plus one; the store it leaves
is the one `deterministic_clear_loop` computes. -/
theorem deterministic_clear_run_some (fuel : Nat) (s : wallet_store) (c : Nat)
    (ho : Table.Ordered s.table) (hf : (Table.seek s.table c).length < fuel) :
    deterministic_clear_run fuel s c = some (deterministic_clear_loop fuel s c) := by
  induction fuel generalizing s c with
  | zero => omega
  | succ fuel ih =>
    unfold deterministic_clear_run deterministic_clear_loop
    cases hseek : begin_at s c with
    | nil => rfl
    | cons e rest =>
      obtain ⟨k, v⟩ := e
      simp only []
      have hseek1 : Table.seek s.table c = (k, v) :: rest := hseek
      obtain ⟨_, _, hnext, hdel⟩ := seek_cons_ordered ho hseek1
      have hlen : rest.length < fuel := by
        rw [hseek1] at hf
        simp only [List.length_cons] at hf
        omega
      cases hkt : key_type v with
      | deterministic =>
        exact ih (erase s k) k (Table.ordered_del ho k) (by
          show (Table.seek (Table.del s.table k) k).length < fuel
          rw [hdel]; exact hlen)
      | adhoc => exact ih s (k + 1) ho (by rw [hnext]; exact hlen)
      | unknown => exact ih s (k + 1) ho (by rw [hnext]; exact hlen)

/-- The loop of `seed_set` ends: every run with more rounds than the table has entries
reaches `i == n`, always with the same store, and `seed_set` is that store with the index
entry set to 0. -/
theorem seed_set_terminates (P : Primitives) (s : wallet_store) (sd : Nat)
    (ho : Table.Ordered s.table) :
    ∃ s1, (∀ fuel, (entry_put_raw s seed_special (wallet_value.of_key
        (encrypt P sd (wallet_key P s) (owords0 (salt s))))).table.length < fuel →
      deterministic_clear_run fuel (entry_put_raw s seed_special (wallet_value.of_key
        (encrypt P sd (wallet_key P s) (owords0 (salt s))))) special_count = some s1) ∧
      seed_set P s sd = deterministic_index_set s1 0 := by
  have ho0 : Table.Ordered (entry_put_raw s seed_special (wallet_value.of_key
      (encrypt P sd (wallet_key P s) (owords0 (salt s))))).table :=
    Table.ordered_put ho _ _
  refine ⟨deterministic_clear_loop ((entry_put_raw s seed_special (wallet_value.of_key
      (encrypt P sd (wallet_key P s) (owords0 (salt s))))).table.length + 1)
      (entry_put_raw s seed_special (wallet_value.of_key
      (encrypt P sd (wallet_key P s) (owords0 (salt s))))) special_count, ?_, rfl⟩
  intro fuel hf
  rw [deterministic_clear_run_some fuel _ special_count ho0
    (lt_of_le_of_lt (List.length_filter_le _ _) hf)]
  exact congrArg some ((seed_set_clears P s sd ho).1 fuel hf)

end wallet_store

/-- C18: for every keystore with its table in key order and every seed `s`, `seed_set (s)`
terminates: its loop reaches `i == n` in every run of more rounds than the table has
entries, always with the same store, to which `seed_set` adds the index entry; afterwards
no user entry (key ≥ 7) has a deterministic-type slot, every user entry that was not
deterministic is still present with an unchanged record, the stored deterministic index is
0, and `seed ()` returns `s`. -/
theorem C18_seed_set (P : Primitives) (s : wallet_store) (sd : Nat)
    (ho : Table.Ordered s.table) :
    (∃ s1, (∀ fuel, (wallet_store.entry_put_raw s wallet_store.seed_special
        (wallet_value.of_key (encrypt P sd (wallet_store.wallet_key P s)
          (owords0 (wallet_store.salt s))))).table.length < fuel →
      wallet_store.deterministic_clear_run fuel (wallet_store.entry_put_raw s
        wallet_store.seed_special (wallet_value.of_key (encrypt P sd
        (wallet_store.wallet_key P s) (owords0 (wallet_store.salt s)))))
        wallet_store.special_count = some s1) ∧
      wallet_store.seed_set P s sd = wallet_store.deterministic_index_set s1 0) ∧
    (∀ k v, wallet_store.special_count ≤ k →
      Table.get (wallet_store.seed_set P s sd).table k = some v →
      wallet_store.key_type v ≠ key_type.deterministic) ∧
    (∀ k v, wallet_store.special_count ≤ k → Table.get s.table k = some v →
      wallet_store.key_type v ≠ key_type.deterministic →
      Table.get (wallet_store.seed_set P s sd).table k = some v) ∧
    wallet_store.deterministic_index_get (wallet_store.seed_set P s sd) = 0 ∧
    wallet_store.seed P (wallet_store.seed_set P s sd) = sd :=
  ⟨wallet_store.seed_set_terminates P s sd ho, (wallet_store.seed_set_clears P s sd ho).2⟩

set_option maxRecDepth 20000 in
/-- C18 (witness): the example wallet with the ad-hoc account 13 and one deterministic
account, nine entries in all: the loop of `seed_set (99)` ends within 10 rounds, after it
the account 13 is still there and the seed is 99. -/
theorem C18_seed_set_witness :
    (wallet_store.deterministic_clear_run 10 (wallet_store.entry_put_raw
      example_deterministic.2 wallet_store.seed_special (wallet_value.of_key
      (encrypt example_primitives 99
        (wallet_store.wallet_key example_primitives example_deterministic.2)
        (owords0 (wallet_store.salt example_deterministic.2)))))
      wallet_store.special_count).isSome = true ∧
    Table.get (wallet_store.seed_set example_primitives example_deterministic.2 99).table 13 =
      some ⟨22873962651399844003851, 0⟩ ∧
    wallet_store.accounts (wallet_store.seed_set example_primitives example_deterministic.2 99)
      = [13] ∧
    wallet_store.seed example_primitives
      (wallet_store.seed_set example_primitives example_deterministic.2 99) = 99 :=
  ⟨(match (C18_seed_set example_primitives example_deterministic.2 99 (by decide)).1 with
    | ⟨_, h, _⟩ => by rw [h 10 (by decide)]; rfl),
   (C18_seed_set example_primitives example_deterministic.2 99 (by decide)).2.2.1 13
      ⟨22873962651399844003851, 0⟩ (by decide) (by decide) (by decide),
   by decide,
   (C18_seed_set example_primitives example_deterministic.2 99 (by decide)).2.2.2.2⟩

/-! ## Claim C20 -/

namespace wallet_store

/-- The version read back after `version_put` is the low byte of what was put. -/
theorem version_version_put (s : wallet_store) (version_a : Nat) :
    version (version_put s version_a) = version_a % 256 := by
  unfold version version_put
  rw [entry_get_raw_put_self]
  rfl

/-- The upgrade from version 1 ends by storing the version 2. -/
theorem version_upgrade_v1_v2 (P : Primitives) (s : wallet_store) :
    version (upgrade_v1_v2 P s) = 2 :=
  version_version_put _ 2

/-- The upgrade from version 2 ends by storing the version 3. -/
theorem version_upgrade_v2_v3 (P : Primitives) (s : wallet_store) (seed : Nat) :
    version (upgrade_v2_v3 P s seed) = 3 :=
  version_version_put _ 3

/-- When the transaction that `attempt_password` reads is the one the upgrades write, a
successful attempt on a version 1 or 2 store leaves the version 3. -/
theorem attempt_password_version (P : Primitives) (s : wallet_store) (password_a : String)
    (seed : Nat) (hr : (attempt_password P s password_a seed).1 = false)
    (hver : version s = 1 ∨ version s = 2) :
    version (attempt_password P s password_a seed).2 = 3 := by
  cases s with
  | mk t p =>
  rw [attempt_password_fst] at hr
  have hv : valid_password P ⟨t, derive_key P ⟨t, p⟩ password_a⟩ = true := by
    simpa using hr
  unfold attempt_password
  simp only [hv, Bool.not_true, Bool.not_false, if_true]
  rcases hver with h1 | h2
  · have h1a : version (⟨t, derive_key P ⟨t, p⟩ password_a⟩ : wallet_store) = version_1 := h1
    rw [if_pos h1a, if_pos (show version (upgrade_v1_v2 P _) = version_2 from
      version_upgrade_v1_v2 P _)]
    exact version_upgrade_v2_v3 P _ seed
  · have h2a : version (⟨t, derive_key P ⟨t, p⟩ password_a⟩ : wallet_store) = version_2 := h2
    have h2b : ¬ version (⟨t, derive_key P ⟨t, p⟩ password_a⟩ : wallet_store) = version_1 := by
      rw [h2a]
      decide
    rw [if_neg h2b, if_pos h2a]
    exact version_upgrade_v2_v3 P _ seed

/-- The flag of `attempt_password_read` on the current table is that of `attempt_password`. -/
theorem attempt_password_read_fst (P : Primitives) (s : wallet_store) (password_a : String)
    (seed : Nat) :
    (attempt_password_read P s.table s password_a seed).1 =
      !valid_password P ⟨s.table, derive_key P s password_a⟩ := by
  unfold attempt_password_read
  simp only []
  split <;> rfl

/-- The versions `attempt_password_read` leaves when the caller's transaction began on the
current table. -/
theorem attempt_password_read_versions (P : Primitives) (s : wallet_store)
    (password_a : String) (seed : Nat) :
    ((attempt_password_read P s.table s password_a seed).1 = true →
      (attempt_password_read P s.table s password_a seed).2.table = s.table) ∧
    ((attempt_password_read P s.table s password_a seed).1 = false → version s = 2 →
      version (attempt_password_read P s.table s password_a seed).2 = 3) ∧
    ((attempt_password_read P s.table s password_a seed).1 = false → version s = 1 →
      version (attempt_password_read P s.table s password_a seed).2 = 2) ∧
    version s ≤ version (attempt_password_read P s.table s password_a seed).2 := by
  cases s with
  | mk t p =>
  rw [attempt_password_read_fst]
  unfold attempt_password_read
  simp only []
  cases hv : valid_password P ⟨t, derive_key P ⟨t, p⟩ password_a⟩
  · simp only [Bool.not_false, Bool.not_true]
    refine ⟨fun _ => rfl, fun h => ?_, fun h => ?_, le_of_eq rfl⟩
    · simp at h
    · simp at h
  · simp only [Bool.not_true, Bool.not_false, if_true]
    refine ⟨fun h => ?_, fun _ h2 => ?_, fun _ h1 => ?_, ?_⟩
    · simp at h
    · have h2a : version (⟨t, derive_key P ⟨t, p⟩ password_a⟩ : wallet_store) = version_2 := h2
      have h2b : ¬ version (⟨t, derive_key P ⟨t, p⟩ password_a⟩ : wallet_store) = version_1 := by
        rw [h2a]
        decide
      rw [if_neg h2b, if_pos h2a]
      exact version_upgrade_v2_v3 P _ seed
    · have h1a : version (⟨t, derive_key P ⟨t, p⟩ password_a⟩ : wallet_store) = version_1 := h1
      have h1b : ¬ version (⟨t, derive_key P ⟨t, p⟩ password_a⟩ : wallet_store) = version_2 := by
        rw [h1a]
        decide
      rw [if_pos h1a, if_neg h1b]
      exact version_upgrade_v1_v2 P _
    · by_cases h1 : version (⟨t, derive_key P ⟨t, p⟩ password_a⟩ : wallet_store) = version_1
      · have h1b : ¬ version (⟨t, derive_key P ⟨t, p⟩ password_a⟩ : wallet_store) = version_2 := by
          rw [h1]
          decide
        have h1c : version (⟨t, p⟩ : wallet_store) = 1 := h1
        rw [if_pos h1, if_neg h1b, version_upgrade_v1_v2, h1c]
        decide
      · rw [if_neg h1]
        by_cases h2 : version (⟨t, derive_key P ⟨t, p⟩ password_a⟩ : wallet_store) = version_2
        · have h2c : version (⟨t, p⟩ : wallet_store) = 2 := h2
          rw [if_pos h2, version_upgrade_v2_v3, h2c]
          decide
        · rw [if_neg h2]
          exact le_of_eq rfl

end wallet_store

/-- C20: `attempt_password` called through a read transaction that began on the current
table never lowers the stored version, a failed attempt leaves every stored entry
unchanged, and a successful attempt on a version 2 store leaves the version 3; but a
successful attempt on a version 1 store leaves the version 2, not 3: `upgrade_v1_v2`
commits the version 2 through its own transaction, and the test for `version_2` that
follows still reads the version 1 through `transaction_a`. -/
theorem C20_attempt_password_read (P : Primitives) (s : wallet_store)
    (password_a : String) (seed : Nat) :
    ((wallet_store.attempt_password_read P s.table s password_a seed).1 = true →
      (wallet_store.attempt_password_read P s.table s password_a seed).2.table = s.table) ∧
    ((wallet_store.attempt_password_read P s.table s password_a seed).1 = false →
      wallet_store.version s = 2 →
      wallet_store.version (wallet_store.attempt_password_read P s.table s password_a seed).2
        = 3) ∧
    ((wallet_store.attempt_password_read P s.table s password_a seed).1 = false →
      wallet_store.version s = 1 →
      wallet_store.version (wallet_store.attempt_password_read P s.table s password_a seed).2
        = 2) ∧
    wallet_store.version s ≤
      wallet_store.version (wallet_store.attempt_password_read P s.table s password_a seed).2 :=
  wallet_store.attempt_password_read_versions P s password_a seed

set_option maxRecDepth 20000 in
/-- C20 (witness): the version 1 example wallet, unlocked with its password "abc" through
a read transaction, is left at version 2. -/
theorem C20_attempt_password_read_witness :
    wallet_store.version example_store_v1 = 1 ∧
    (wallet_store.attempt_password_read example_primitives example_store_v1.table
      example_store_v1 "abc" 55).1 = false ∧
    wallet_store.version (wallet_store.attempt_password_read example_primitives
      example_store_v1.table example_store_v1 "abc" 55).2 = 2 :=
  ⟨by decide, by decide,
   (C20_attempt_password_read example_primitives example_store_v1 "abc" 55).2.2.1
     (by decide) (by decide)⟩

/-! ## Claim C15 -/

namespace wallet_store

/-- A store that agrees with `s` on the cached password, on the reserved entries salt,
wallet_key, check and seed and on the entry `k` fetches the same for `k`. -/
theorem fetch_frame (P : Primitives) {s s' : wallet_store} (k : Nat)
    (hp : s'.password = s.password)
    (h1 : entry_get_raw s' salt_special = entry_get_raw s salt_special)
    (h2 : entry_get_raw s' wallet_key_special = entry_get_raw s wallet_key_special)
    (h3 : entry_get_raw s' check_special = entry_get_raw s check_special)
    (h5 : entry_get_raw s' seed_special = entry_get_raw s seed_special)
    (he : entry_get_raw s' k = entry_get_raw s k) :
    fetch P s' k = fetch P s k :=
  fetch_congr P k (valid_password_congr P hp h1 h2 h3) he (wallet_key_congr P hp h1 h2)
    (salt_congr h1) (deterministic_key_congr P hp h1 h2 h5)

/-- An absent or zero entry is not fetched. -/
theorem fetch_of_zero (P : Primitives) (s : wallet_store) (k : Nat)
    (h : (entry_get_raw s k).key = 0) : fetch P s k = none := by
  unfold fetch
  simp [h]

/-- The entry read back at an erased key is the zero value. -/
theorem entry_get_raw_erase_self (s : wallet_store) (k : Nat) :
    (entry_get_raw (erase s k) k).key = 0 := by
  simp [entry_get_raw, erase, Table.get_del_self]

/-- A user key is none of the reserved keys salt, wallet_key, check and seed. -/
theorem special_ne {i : Nat} (h : special_count ≤ i) :
    salt_special ≠ i ∧ wallet_key_special ≠ i ∧ check_special ≠ i ∧ seed_special ≠ i := by
  have h7 : 7 ≤ i := h
  simp only [salt_special, wallet_key_special, check_special, seed_special]
  omega

/-- The loop of `move` on distinct user keys that all fetch from `other_a`, their
ciphertexts under the wallet key of `s` being at least `2^64`. -/
theorem move_spec (P : Primitives) (keys : List Nat) : ∀ (s other_a : wallet_store),
    valid_password P s = true → valid_password P other_a = true → keys.Nodup →
    (∀ k ∈ keys, special_count ≤ k ∧ ∃ prv, fetch P other_a k = some prv ∧
      2 ^ 64 ≤ encrypt P prv (wallet_key P s) (owords0 (salt s))) →
    (move P s other_a keys false).1 = false ∧
    (∀ k ∈ keys, fetch P (move P s other_a keys false).2.2 k = none ∧
      fetch P (move P s other_a keys false).2.1 k = fetch P other_a k) ∧
    (∀ k, k ∉ keys →
      entry_get_raw (move P s other_a keys false).2.2 k = entry_get_raw other_a k) ∧
    (∀ k, k ∉ keys → fetch P (move P s other_a keys false).2.1 k = fetch P s k) := by
  induction keys with
  | nil =>
    intro s other_a _ _ _ _
    exact ⟨rfl, fun k hk => absurd hk (List.not_mem_nil k), fun _ _ => rfl, fun _ _ => rfl⟩
  | cons i rest ih =>
    intro s other_a hvs hvo hnd hk
    obtain ⟨h7, prv, hf, hct⟩ := hk i (List.mem_cons_self i rest)
    have hpub : P.ed25519_publickey prv = i := fetch_some_pub P other_a i prv hf
    obtain ⟨n1, n2, n3, n5⟩ := special_ne h7
    have hmove : move P s other_a (i :: rest) false =
        move P (insert_adhoc P s prv).2 (erase other_a i) rest false := by
      rw [move]
      simp only [hf]
      rfl
    -- the store written to
    have hins : ∀ k, k ≠ i →
        entry_get_raw (insert_adhoc P s prv).2 k = entry_get_raw s k := by
      intro k hki
      exact entry_get_raw_put_ne s _ (by rw [hpub]; exact hki)
    have hpw : (insert_adhoc P s prv).2.password = s.password := rfl
    have hvs1 : valid_password P (insert_adhoc P s prv).2 = true :=
      (valid_password_congr P hpw (hins _ n1) (hins _ n2) (hins _ n3)).trans hvs
    have hwk1 : wallet_key P (insert_adhoc P s prv).2 = wallet_key P s :=
      wallet_key_congr P hpw (hins _ n1) (hins _ n2)
    have hsalt1 : salt (insert_adhoc P s prv).2 = salt s := salt_congr (hins _ n1)
    have hfs : ∀ k, k ≠ i → fetch P (insert_adhoc P s prv).2 k = fetch P s k := by
      intro k hki
      exact fetch_frame P k hpw (hins _ n1) (hins _ n2) (hins _ n3) (hins _ n5) (hins k hki)
    have hfi : fetch P (insert_adhoc P s prv).2 i = some prv := by
      have h := (insert_adhoc_fetch P s prv hvs (by rw [hpub]; exact n1.symm)
        (by rw [hpub]; exact n2.symm) (by rw [hpub]; exact n3.symm) hct).2
      rw [hpub] at h
      exact h
    -- the store read from
    have hers : ∀ k, k ≠ i → entry_get_raw (erase other_a i) k = entry_get_raw other_a k :=
      fun k hki => entry_get_raw_erase_ne other_a hki
    have hpo : (erase other_a i).password = other_a.password := rfl
    have hvo1 : valid_password P (erase other_a i) = true :=
      (valid_password_congr P hpo (hers _ n1) (hers _ n2) (hers _ n3)).trans hvo
    have hfo : ∀ k, k ≠ i → fetch P (erase other_a i) k = fetch P other_a k := by
      intro k hki
      exact fetch_frame P k hpo (hers _ n1) (hers _ n2) (hers _ n3) (hers _ n5) (hers k hki)
    have hni : i ∉ rest := (List.nodup_cons.1 hnd).1
    have hne : ∀ k ∈ rest, k ≠ i := fun k hkr hki => hni (hki ▸ hkr)
    have hk1 : ∀ k ∈ rest, special_count ≤ k ∧ ∃ prv1, fetch P (erase other_a i) k = some prv1 ∧
        2 ^ 64 ≤ encrypt P prv1 (wallet_key P (insert_adhoc P s prv).2)
          (owords0 (salt (insert_adhoc P s prv).2)) := by
      intro k hkr
      obtain ⟨g7, prv1, gf, gct⟩ := hk k (List.mem_cons_of_mem i hkr)
      refine ⟨g7, prv1, ?_, ?_⟩
      · rw [hfo k (hne k hkr)]
        exact gf
      · rw [hwk1, hsalt1]
        exact gct
    obtain ⟨r1, r2, r3, r4⟩ := ih (insert_adhoc P s prv).2 (erase other_a i) hvs1 hvo1
      (List.nodup_cons.1 hnd).2 hk1
    rw [hmove]
    refine ⟨r1, ?_, ?_, ?_⟩
    · intro k hkm
      rcases List.mem_cons.1 hkm with hki | hkr
      · subst hki
        refine ⟨fetch_of_zero P _ k ?_, ?_⟩
        · rw [r3 k hni]
          exact entry_get_raw_erase_self other_a k
        · rw [r4 k hni, hfi, hf]
      · exact ⟨(r2 k hkr).1, (r2 k hkr).2.trans (hfo k (hne k hkr))⟩
    · intro k hkn
      have hki : k ≠ i := fun h => hkn (h ▸ List.mem_cons_self i rest)
      have hkr : k ∉ rest := fun h => hkn (List.mem_cons_of_mem i h)
      rw [r3 k hkr]
      exact hers k hki
    · intro k hkn
      have hki : k ≠ i := fun h => hkn (h ▸ List.mem_cons_self i rest)
      have hkr : k ∉ rest := fun h => hkn (List.mem_cons_of_mem i h)
      rw [r4 k hkr]
      exact hfs k hki

end wallet_store

set_option maxRecDepth 20000 in
/-- C15 (counterexample): both example wallets are unlocked and the account
`1240 * 2^64 + 2` fetches from the second one, yet after the move the first one does not
fetch it: its private key is the keystream of the first wallet, so the ciphertext written
there is 0, which `fetch` treats as absent. -/
theorem C15_counterexample :
    wallet_store.valid_password example_primitives example_store = true ∧
    wallet_store.valid_password example_primitives example_store_other = true ∧
    wallet_store.fetch example_primitives example_store_other (1240 * 2 ^ 64 + 2) =
      some (1240 * 2 ^ 64) ∧
    (wallet_store.move example_primitives example_store example_store_other
      [1240 * 2 ^ 64 + 2] false).1 = false ∧
    wallet_store.fetch example_primitives
      (wallet_store.move example_primitives example_store example_store_other
        [1240 * 2 ^ 64 + 2] false).2.1 (1240 * 2 ^ 64 + 2) = none := by
  decide

/-- C15 (amended): for unlocked keystores `other_a` (W1) and `s` (W2) and every list of
distinct public keys, none of them a reserved key (each is at least 7), each of which
fetches from W1 a private key whose ciphertext under the wallet key of W2 is at least
`2^64`, `move` returns false (success); afterwards the fetch of every listed key from W1
reports an error and the fetch from W2 returns the private key W1 held for it. -/
theorem C15_move (P : Primitives) (s other_a : wallet_store) (keys : List Nat)
    (hvs : wallet_store.valid_password P s = true)
    (hvo : wallet_store.valid_password P other_a = true) (hnd : keys.Nodup)
    (hk : ∀ k ∈ keys, wallet_store.special_count ≤ k ∧
      ∃ prv, wallet_store.fetch P other_a k = some prv ∧
        2 ^ 64 ≤ encrypt P prv (wallet_store.wallet_key P s) (owords0 (wallet_store.salt s))) :
    (wallet_store.move P s other_a keys false).1 = false ∧
    ∀ k ∈ keys,
      wallet_store.fetch P (wallet_store.move P s other_a keys false).2.2 k = none ∧
      wallet_store.fetch P (wallet_store.move P s other_a keys false).2.1 k =
        wallet_store.fetch P other_a k :=
  ⟨(wallet_store.move_spec P keys s other_a hvs hvo hnd hk).1,
   (wallet_store.move_spec P keys s other_a hvs hvo hnd hk).2.1⟩

set_option maxRecDepth 20000 in
/-- C15 (witness): the accounts 13 and 22 moved from the second example wallet to the
first; afterwards the first one fetches the private key 20 for 22. -/
theorem C15_move_witness :
    (wallet_store.move example_primitives example_store example_store_other [13, 22]
      false).1 = false ∧
    wallet_store.fetch example_primitives
      (wallet_store.move example_primitives example_store example_store_other [13, 22]
        false).2.1 22 = some 20 :=
  ⟨(C15_move example_primitives example_store example_store_other [13, 22] (by decide)
      (by decide) (by decide)
      (fun k hk => by
        rcases List.mem_cons.1 hk with h | h
        · rw [h]
          exact ⟨by decide, 11, by decide, by decide⟩
        · rw [List.mem_singleton.1 h]
          exact ⟨by decide, 20, by decide, by decide⟩)).1,
   ((C15_move example_primitives example_store example_store_other [13, 22] (by decide)
      (by decide) (by decide)
      (fun k hk => by
        rcases List.mem_cons.1 hk with h | h
        · rw [h]
          exact ⟨by decide, 11, by decide, by decide⟩
        · rw [List.mem_singleton.1 h]
          exact ⟨by decide, 20, by decide, by decide⟩)).2 22 (by decide)).2.trans
     (by decide)⟩

/-! ## Claim C25 -/

namespace wallet_store

/-- The store that a failed `attempt_password` returns. -/
theorem attempt_password_failed (P : Primitives) (s : wallet_store) (password_a : String)
    (seed : Nat) (hf : (attempt_password P s password_a seed).1 = true) :
    (attempt_password P s password_a seed).2 = ⟨s.table, derive_key P s password_a⟩ := by
  have hv : valid_password P ⟨s.table, derive_key P s password_a⟩ = false := by
    rw [attempt_password_fst] at hf
    simpa using hf
  unfold attempt_password
  simp only [hv, Bool.not_false, Bool.not_true]
  rfl

end wallet_store

/-- C25: `attempt_password` overwrites the cached password with `derive (password, salt)`
before it checks it: for every keystore and every password for which the attempt fails
(returns true), the cached password after the call is the derived key, `valid_password` is
false, and the stored entries are unchanged; so a failed attempt locks a wallet that was
unlocked. -/
theorem C25_attempt_password_locks (P : Primitives) (s : wallet_store) (password_a : String)
    (seed : Nat) (hf : (wallet_store.attempt_password P s password_a seed).1 = true) :
    (wallet_store.attempt_password P s password_a seed).2.password =
      P.PHS password_a (wallet_store.salt s) ∧
    wallet_store.valid_password P (wallet_store.attempt_password P s password_a seed).2 = false ∧
    (wallet_store.attempt_password P s password_a seed).2.table = s.table := by
  have hv : wallet_store.valid_password P ⟨s.table, wallet_store.derive_key P s password_a⟩ =
      false := by
    rw [wallet_store.attempt_password_fst] at hf
    simpa using hf
  rw [wallet_store.attempt_password_failed P s password_a seed hf]
  exact ⟨rfl, hv, rfl⟩

/-- C25 (witness): the example wallet is unlocked; after the attempt with "wrong" it is
locked and its table is the same. -/
theorem C25_attempt_password_locks_witness :
    wallet_store.valid_password example_primitives example_store = true ∧
    wallet_store.valid_password example_primitives
      (wallet_store.attempt_password example_primitives example_store "wrong" 0).2 = false ∧
    (wallet_store.attempt_password example_primitives example_store "wrong" 0).2.table =
      example_store.table :=
  ⟨by decide,
   (C25_attempt_password_locks example_primitives example_store "wrong" 0 (by decide)).2⟩

/-! ## Claims C23 and C24 -/

namespace wallet

/-- The body of C24. -/
theorem send_sync_null (P : Primitives) (N : node) (store : wallet_store) (w w1 : wallets)
    (source_a account_a amount_a : Nat)
    (h : send_action P N store w source_a account_a amount_a = some (none, w1)) :
    send_sync P N store w source_a account_a amount_a = sync_result.null_dereference := by
  unfold send_sync
  rw [h]
  rfl

end wallet

/-- C24 (evaluation at the failing inputs): whenever `send_action` returns the null block,
the continuation of `send_sync` reads through it (`block_a->hash ()`) and `send_sync`
returns no value, while the continuation of `change_sync` and `receive_sync` on the same
null block yields the value `true`. -/
theorem C24_send_sync_null (P : Primitives) (N : node) (store : wallet_store)
    (w w1 : wallets) (source_a account_a amount_a : Nat)
    (h : wallet.send_action P N store w source_a account_a amount_a = some (none, w1)) :
    wallet.send_sync P N store w source_a account_a amount_a =
      wallet.sync_result.null_dereference ∧
    (∀ v, wallet.send_sync P N store w source_a account_a amount_a ≠
      wallet.sync_result.value v) ∧
    wallet.change_sync_continuation none = wallet.sync_result.value true := by
  have hs := wallet.send_sync_null P N store w w1 source_a account_a amount_a h
  refine ⟨hs, fun v hv => ?_, rfl⟩
  rw [hs] at hv
  exact absurd hv (by simp)

/-- C24 (witness): a send from the example wallet while it is locked. -/
theorem C24_send_sync_null_witness :
    wallet_store.valid_password example_primitives ⟨example_store_adhoc.table, 999⟩ = false ∧
    wallet.send_sync example_primitives example_node ⟨example_store_adhoc.table, 999⟩
      ⟨[], []⟩ 13 99 300 = wallet.sync_result.null_dereference :=
  ⟨by decide,
   (C24_send_sync_null example_primitives example_node ⟨example_store_adhoc.table, 999⟩
      ⟨[], []⟩ ⟨[], []⟩ 13 99 300 (by decide)).1⟩

/-! ## Claim C26 -/

namespace wallet_store

/-- Once the error of `move` is set, the remaining keys are passed over. -/
theorem move_true (P : Primitives) (keys : List Nat) (s other_a : wallet_store) :
    move P s other_a keys true = (true, s, other_a) := by
  induction keys with
  | nil => rfl
  | cons i rest ih =>
    rw [move]
    cases hf : fetch P other_a i with
    | none => simpa using ih
    | some prv => simpa using ih

end wallet_store

namespace wallets

theorem pending_find_set_ne (m : List (Nat × List (Nat × Nat))) {a b : Nat}
    (entries : List (Nat × Nat)) (h : b ≠ a) :
    pending_find (pending_set m a entries) b = pending_find m b := by
  induction m with
  | nil => simp [pending_set, pending_find, h.symm]
  | cons e m ih =>
    obtain ⟨c, old⟩ := e
    by_cases hc : c = a
    · subst hc
      simp [pending_set, pending_find, h.symm]
    · by_cases hb : c = b
      · subst hb
        simp [pending_set, pending_find, hc]
      · simp [pending_set, pending_find, hc, hb, ih]

theorem pending_find_erase_ne (m : List (Nat × List (Nat × Nat))) {a b : Nat} (h : b ≠ a) :
    pending_find (pending_erase m a) b = pending_find m b := by
  induction m with
  | nil => simp [pending_erase, pending_find]
  | cons e m ih =>
    obtain ⟨c, old⟩ := e
    have ih2 : pending_find (List.filter (fun e => !decide (e.1 = a)) m) b =
      pending_find m b := ih
    by_cases hc : c = a
    · subst hc
      simp [pending_erase, pending_find, h.symm, ih2]
    · by_cases hb : c = b
      · subst hb
        simp [pending_erase, pending_find, hc]
      · simp [pending_erase, pending_find, hc, hb, ih2]

theorem keys_current_queue (w : wallets) (a p f : Nat) (h : keys_current w) :
    keys_current (queue_wallet_action w a p f).1 := by
  obtain ⟨h1, h2⟩ := h
  unfold queue_wallet_action
  simp only []
  by_cases hin : a ∈ w.current_actions
  · rw [if_pos hin]
    refine ⟨fun b => ?_, h2⟩
    by_cases hb : b = a
    · subst hb
      simp only [pending_find_set_self, Option.isSome_some, true_iff]
      exact hin
    · simp only [pending_find_set_ne _ _ hb]
      exact h1 b
  · rw [if_neg hin]
    refine ⟨fun b => ?_, List.nodup_cons.2 ⟨hin, h2⟩⟩
    by_cases hb : b = a
    · subst hb
      simp [pending_find_set_self]
    · simp only [pending_find_set_ne _ _ hb, List.mem_cons, hb, false_or]
      exact h1 b

theorem keys_current_iteration (w : wallets) (a : Nat) (h : keys_current w) :
    keys_current (do_wallet_actions_iteration w a).1 := by
  obtain ⟨h1, h2⟩ := h
  unfold do_wallet_actions_iteration
  split
  · exact ⟨h1, h2⟩
  · refine ⟨fun b => ?_, h2.filter _⟩
    by_cases hb : b = a
    · subst hb
      simp [pending_find_erase_self]
    · simp only [pending_find_erase_ne _ hb, List.mem_filter, hb, decide_False, Bool.not_false,
        and_true]
      exact h1 b
  · rename_i first entries hfind
    refine ⟨fun b => ?_, h2⟩
    by_cases hb : b = a
    · subst hb
      simp only [pending_find_set_self, Option.isSome_some, true_iff]
      exact (h1 b).1 (by rw [hfind]; rfl)
    · simp only [pending_find_set_ne _ _ hb]
      exact h1 b

theorem keys_current_locked (fuel : Nat) (w w1 : wallets) (a : Nat) (r : Option (Nat × Nat))
    (h : do_wallet_actions_locked fuel w a = some (w1, r)) (hk : keys_current w) :
    keys_current w1 := by
  induction fuel generalizing w with
  | zero => simp [do_wallet_actions_locked] at h
  | succ fuel ih =>
    have hit := keys_current_iteration w a hk
    unfold do_wallet_actions_locked at h
    split at h
    · rename_i w2 heq
      simp only [Option.some.injEq, Prod.mk.injEq] at h
      rw [heq] at hit
      rw [← h.1]
      exact hit
    · rename_i w2 heq
      rw [heq] at hit
      exact ih w2 h hit
    · rename_i w2 first heq
      simp only [Option.some.injEq, Prod.mk.injEq] at h
      rw [heq] at hit
      rw [← h.1]
      exact hit

theorem reachable_keys_current (st : node_state) (h : reachable st) :
    keys_current st.wallets := by
  unfold reachable at h
  induction h with
  | refl => exact ⟨fun a => by simp [pending_find], List.nodup_nil⟩
  | @tail mid _ _ hstep ih =>
    cases hstep with
    | queue _ a p f => exact keys_current_queue mid.wallets a p f ih
    | locked_end w w1 before after a fuel hl => exact keys_current_locked fuel w w1 a none hl ih
    | locked_run w w1 before after a fuel first hl =>
      exact keys_current_locked fuel w w1 a (some first) hl ih
    | action_end w before after a first => exact ih

theorem keys_current_iterate (w : wallets) (a : Nat) (h : keys_current w) (n : Nat) :
    keys_current ((fun w => (do_wallet_actions_iteration w a).1)^[n] w) := by
  induction n with
  | zero => exact h
  | succ n ih =>
    rw [Function.iterate_succ_apply']
    exact keys_current_iteration _ a ih

theorem keys_current_erased (w : wallets) (a : Nat) (h : keys_current w)
    (he : pending_find w.pending_actions a = some []) : erased w a = 1 := by
  unfold erased
  exact List.count_eq_one_of_mem h.2 ((h.1 a).1 (by rw [he]; rfl))

end wallets

/-- C22: in every state the action queue reaches, and in every state a locked region of
`do_wallet_actions` passes through from there, the accounts that have a key in
`pending_actions` are exactly those of `current_actions`; and whenever the loop finds the
account's queue empty, `current_actions.erase (account_a)` removes exactly one element
(`erased == 1`). -/
theorem C22_pending_current (st : wallets.node_state) (h : wallets.reachable st)
    (account_a n : Nat) :
    (∀ a, (wallets.pending_find ((fun w => (wallets.do_wallet_actions_iteration w
        account_a).1)^[n] st.wallets).pending_actions a).isSome = true ↔
      a ∈ ((fun w => (wallets.do_wallet_actions_iteration w account_a).1)^[n]
        st.wallets).current_actions) ∧
    (wallets.pending_find ((fun w => (wallets.do_wallet_actions_iteration w
        account_a).1)^[n] st.wallets).pending_actions account_a = some [] →
      wallets.erased ((fun w => (wallets.do_wallet_actions_iteration w account_a).1)^[n]
        st.wallets) account_a = 1) :=
  ⟨(wallets.keys_current_iterate st.wallets account_a
      (wallets.reachable_keys_current st h) n).1,
   wallets.keys_current_erased _ account_a
     (wallets.keys_current_iterate st.wallets account_a
       (wallets.reachable_keys_current st h) n)⟩

/-- C22 (witness): account 5 after one `queue_wallet_action` call and the locked region of
its task that takes the action out: the queue of 5 is empty and still has its key, and the
next pass of the loop erases exactly one element. -/
theorem C22_pending_current_witness :
    wallets.reachable ⟨⟨[(5, [])], [5]⟩, [(5, some (10, 1))]⟩ ∧
    wallets.erased ⟨[(5, [])], [5]⟩ 5 = 1 :=
  have hr : wallets.reachable ⟨⟨[(5, [])], [5]⟩, [(5, some (10, 1))]⟩ :=
    Relation.ReflTransGen.tail
      (Relation.ReflTransGen.single (wallets.step.queue ⟨⟨[], []⟩, []⟩ 5 10 1))
      (wallets.step.locked_run ⟨[(5, [(10, 1)])], [5]⟩ ⟨[(5, [])], [5]⟩
        [] [] 5 1 (10, 1) (by decide))
  ⟨hr, (C22_pending_current _ hr 5 0).2 (by decide)⟩

/-! ## Claim C21 -/

namespace wallet_store

/-- The bound passes to a store whose stored index is not smaller and whose deterministic
user entries are old ones or within the new bound. -/
theorem index_bound_of (s s1 : wallet_store) (h : index_bound s)
    (hidx : deterministic_index_get s ≤ deterministic_index_get s1)
    (hent : ∀ k v, special_count ≤ k → Table.get s1.table k = some v →
      key_type v = rai.key_type.deterministic →
      Table.get s.table k = some v ∨ v.key % 2 ^ 32 < deterministic_index_get s1) :
    index_bound s1 := by
  intro k v hk hg hd
  rcases hent k v hk hg hd with h1 | h1
  · exact lt_of_lt_of_le (h k v hk h1 hd) hidx
  · exact h1

theorem deterministic_index_get_congr {s s1 : wallet_store}
    (h : entry_get_raw s1 deterministic_index_special =
      entry_get_raw s deterministic_index_special) :
    deterministic_index_get s1 = deterministic_index_get s := by
  unfold deterministic_index_get
  rw [h]

theorem user_ne_index {k : Nat} (h : special_count ≤ k) : deterministic_index_special ≠ k := by
  have h7 : 7 ≤ k := h
  simp only [deterministic_index_special]
  omega

theorem index_bound_erase (s : wallet_store) (pub : Nat) (h7 : special_count ≤ pub)
    (h : Table.Ordered s.table ∧ index_bound s) :
    Table.Ordered (erase s pub).table ∧ index_bound (erase s pub) := by
  refine ⟨Table.ordered_del h.1 pub, index_bound_of s _ h.2 (le_of_eq ?_) ?_⟩
  · exact (deterministic_index_get_congr (entry_get_raw_erase_ne s (user_ne_index h7))).symm
  · intro k v _ hg _
    left
    by_cases hk : k = pub
    · subst hk
      have : Table.get (erase s k).table k = none := Table.get_del_self _ _
      rw [this] at hg
      exact absurd hg (by simp)
    · have : Table.get (erase s pub).table k = Table.get s.table k := Table.get_del_ne _ hk
      rw [← this]
      exact hg

theorem index_bound_insert_adhoc (P : Primitives) (s : wallet_store) (prv : Nat)
    (h7 : special_count ≤ P.ed25519_publickey prv)
    (hct : 2 ^ 64 ≤ encrypt P prv (wallet_key P s) (owords0 (salt s)))
    (h : Table.Ordered s.table ∧ index_bound s) :
    Table.Ordered (insert_adhoc P s prv).2.table ∧ index_bound (insert_adhoc P s prv).2 := by
  refine ⟨Table.ordered_put h.1 _ _, index_bound_of s _ h.2 (le_of_eq ?_) ?_⟩
  · exact (deterministic_index_get_congr (entry_get_raw_put_ne s _ (user_ne_index h7))).symm
  · intro k v _ hg hd
    left
    by_cases hk : k = P.ed25519_publickey prv
    · subst hk
      have : Table.get (insert_adhoc P s prv).2.table (P.ed25519_publickey prv) =
          some (wallet_value.of_key (encrypt P prv (wallet_key P s) (owords0 (salt s)))) :=
        Table.get_put_self _ _ _
      rw [this] at hg
      have hv := Option.some.inj hg
      rw [← hv, key_type_adhoc (by exact hct)] at hd
      exact absurd hd (by decide)
    · have : Table.get (insert_adhoc P s prv).2.table k = Table.get s.table k :=
        Table.get_put_ne _ _ hk
      rw [← this]
      exact hg

theorem index_bound_rekey (P : Primitives) (s : wallet_store) (password_a : String)
    (h : Table.Ordered s.table ∧ index_bound s) :
    Table.Ordered (rekey P s password_a).2.table ∧ index_bound (rekey P s password_a).2 := by
  by_cases hv : valid_password P s = true
  · rw [rekey_of_valid P s password_a hv]
    refine ⟨Table.ordered_put h.1 _ _, index_bound_of s _ h.2 (le_of_eq ?_) ?_⟩
    · symm
      apply deterministic_index_get_congr
      exact entry_get_raw_congr (Table.get_put_ne _ _ (by decide))
    · intro k v hk hg _
      left
      have h7 : 7 ≤ k := hk
      have : Table.get (Table.put s.table wallet_key_special (wallet_value.of_key
          (encrypt P (wallet_key P s) (derive_key P s password_a) (owords0 (salt s))))) k =
          Table.get s.table k :=
        Table.get_put_ne _ _ (by simp only [wallet_key_special]; omega)
      rw [← this]
      exact hg
  · have hr : rekey P s password_a = (true, s) := by
      unfold rekey
      simp [hv]
    rw [hr]
    exact h

theorem index_bound_seed_set (P : Primitives) (s : wallet_store) (prv_a : Nat)
    (h : Table.Ordered s.table) :
    Table.Ordered (seed_set P s prv_a).table ∧ index_bound (seed_set P s prv_a) := by
  refine ⟨?_, ?_⟩
  · exact Table.ordered_put (deterministic_clear_loop_ordered _ (Table.ordered_put h _ _)) _ _
  · intro k v hk hg hd
    exact absurd hd ((seed_set_clears P s prv_a h).2.1 k v hk hg)

theorem index_bound_create (P : Primitives) (representative_a salt_l wallet_key seed : Nat) :
    Table.Ordered (create P [] representative_a salt_l wallet_key seed).table ∧
    index_bound (create P [] representative_a salt_l wallet_key seed) := by
  refine ⟨(invariant_create P representative_a salt_l wallet_key seed).1, ?_⟩
  intro k v hk hg _
  have hmem := (get_isSome_iff _ k).1 (by rw [hg]; rfl)
  rw [create_keys] at hmem
  have h7 : 7 ≤ k := hk
  simp at hmem
  omega

theorem index_bound_deterministic_insert (P : Primitives) (s : wallet_store)
    (r : Nat × wallet_store) (hr : deterministic_insert P s = some r)
    (hlt : deterministic_index_get s < deterministic_index_get r.2)
    (h : Table.Ordered s.table ∧ index_bound s) :
    Table.Ordered r.2.table ∧ index_bound r.2 := by
  obtain ⟨i, hi, _, _, hst⟩ := deterministic_insert_some P s r hr
  have hp : (2 : Nat) ^ 32 = 4294967296 := by norm_num
  have hget : deterministic_index_get r.2 = (i + 1) % 2 ^ 32 := by
    rw [hst, deterministic_index_get_set, Nat.mod_mod]
  have hi1 : (i + 1) % 2 ^ 32 = i + 1 := by
    rw [hget] at hlt
    by_cases hw : i + 1 < 2 ^ 32
    · exact Nat.mod_eq_of_lt hw
    · have : i + 1 = 2 ^ 32 := by omega
      rw [this, Nat.mod_self] at hlt
      omega
  refine ⟨?_, index_bound_of s _ h.2 (le_of_lt hlt) ?_⟩
  · rw [hst]
    exact Table.ordered_put (Table.ordered_put h.1 _ _) _ _
  · intro k v hk hg _
    rw [hget, hi1]
    rw [hst] at hg
    have hg1 : Table.get (Table.put (Table.put s.table r.1 (wallet_value.of_key (2 ^ 32 + i)))
        deterministic_index_special (wallet_value.of_key ((i + 1) % 2 ^ 32))) k = some v := hg
    rw [Table.get_put_ne _ _ (user_ne_index hk).symm] at hg1
    by_cases hkr : k = r.1
    · right
      rw [hkr, Table.get_put_self] at hg1
      have hv := Option.some.inj hg1
      rw [← hv]
      simp only [wallet_value.of_key]
      omega
    · left
      rw [Table.get_put_ne _ _ hkr] at hg1
      exact hg1

theorem index_bound_move_other (P : Primitives) (keys : List Nat) :
    ∀ (s other_a : wallet_store), (∀ k ∈ keys, special_count ≤ k) →
    Table.Ordered other_a.table ∧ index_bound other_a →
    Table.Ordered (move P s other_a keys false).2.2.table ∧
      index_bound (move P s other_a keys false).2.2 := by
  induction keys with
  | nil =>
    intro s other_a _ h
    exact h
  | cons i rest ih =>
    intro s other_a h7 h
    cases hf : fetch P other_a i with
    | none =>
      have hmove : move P s other_a (i :: rest) false = (true, s, other_a) := by
        rw [move]
        simp only [hf]
        exact move_true P rest s other_a
      rw [hmove]
      exact h
    | some prv =>
      have hmove : move P s other_a (i :: rest) false =
          move P (insert_adhoc P s prv).2 (erase other_a i) rest false := by
        rw [move]
        simp only [hf]
        rfl
      rw [hmove]
      exact ih _ _ (fun k hk => h7 k (List.mem_cons_of_mem i hk))
        (index_bound_erase other_a i (h7 i (List.mem_cons_self i rest)) h)

theorem index_bound_move_self (P : Primitives) (keys : List Nat) :
    ∀ (s other_a : wallet_store),
    (∀ k ∈ keys, special_count ≤ k ∧ ∀ prv, fetch P other_a k = some prv →
      2 ^ 64 ≤ encrypt P prv (wallet_key P s) (owords0 (salt s))) →
    Table.Ordered s.table ∧ index_bound s →
    Table.Ordered (move P s other_a keys false).2.1.table ∧
      index_bound (move P s other_a keys false).2.1 := by
  induction keys with
  | nil =>
    intro s other_a _ h
    exact h
  | cons i rest ih =>
    intro s other_a hk h
    obtain ⟨hi7, hct⟩ := hk i (List.mem_cons_self i rest)
    obtain ⟨n1, n2, n3, n5⟩ := special_ne hi7
    cases hf : fetch P other_a i with
    | none =>
      have hmove : move P s other_a (i :: rest) false = (true, s, other_a) := by
        rw [move]
        simp only [hf]
        exact move_true P rest s other_a
      rw [hmove]
      exact h
    | some prv =>
      have hpub : P.ed25519_publickey prv = i := fetch_some_pub P other_a i prv hf
      have hmove : move P s other_a (i :: rest) false =
          move P (insert_adhoc P s prv).2 (erase other_a i) rest false := by
        rw [move]
        simp only [hf]
        rfl
      have hins : ∀ k, k ≠ i →
          entry_get_raw (insert_adhoc P s prv).2 k = entry_get_raw s k := by
        intro k hki
        exact entry_get_raw_put_ne s _ (by rw [hpub]; exact hki)
      have hpw : (insert_adhoc P s prv).2.password = s.password := rfl
      have hwk1 : wallet_key P (insert_adhoc P s prv).2 = wallet_key P s :=
        wallet_key_congr P hpw (hins _ n1) (hins _ n2)
      have hsalt1 : salt (insert_adhoc P s prv).2 = salt s := salt_congr (hins _ n1)
      have hers : ∀ k, k ≠ i → entry_get_raw (erase other_a i) k = entry_get_raw other_a k :=
        fun k hki => entry_get_raw_erase_ne other_a hki
      have hpo : (erase other_a i).password = other_a.password := rfl
      have hfo : ∀ k, k ≠ i → fetch P (erase other_a i) k = fetch P other_a k := by
        intro k hki
        exact fetch_frame P k hpo (hers _ n1) (hers _ n2) (hers _ n3) (hers _ n5) (hers k hki)
      rw [hmove]
      apply ih
      · intro k hkr
        obtain ⟨hk7, hkct⟩ := hk k (List.mem_cons_of_mem i hkr)
        refine ⟨hk7, fun prv1 hf1 => ?_⟩
        rw [hwk1, hsalt1]
        apply hkct
        by_cases hki : k = i
        · subst hki
          rw [fetch_of_zero P _ k (entry_get_raw_erase_self other_a k)] at hf1
          exact absurd hf1 (by simp)
        · rw [← hfo k hki]
          exact hf1
      · exact index_bound_insert_adhoc P s prv (by rw [hpub]; exact hi7) (hct prv hf) h

theorem reachable_index_bound (P : Primitives) (s : wallet_store) (h : reachable_index P s) :
    Table.Ordered s.table ∧ index_bound s := by
  induction h with
  | create representative_a salt_l wallet_key seed =>
    exact index_bound_create P representative_a salt_l wallet_key seed
  | deterministic_insert s r _ hr hlt ih => exact index_bound_deterministic_insert P s r hr hlt ih
  | insert_adhoc s prv _ hk hct ih => exact index_bound_insert_adhoc P s prv hk hct ih
  | seed_set s prv_a _ ih => exact index_bound_seed_set P s prv_a ih.1
  | rekey s password_a _ ih => exact index_bound_rekey P s password_a ih
  | erase s pub _ hp ih => exact index_bound_erase s pub hp ih
  | move_self s other_a keys _ _ hk ih1 _ => exact index_bound_move_self P keys s other_a hk ih1
  | move_other s other_a keys _ _ hk _ ih2 => exact index_bound_move_other P keys s other_a hk ih2

/-- A marker `(1 << 32) | index` is classified deterministic and carries `index`. -/
theorem marker_index (index : Nat) (hi : index < 2 ^ 32) (v : wallet_value)
    (hv : v.key = (1 <<< 32) ||| index) :
    key_type v = rai.key_type.deterministic ∧ v.key % 2 ^ 32 = index := by
  have h1 : (1 <<< 32 : Nat) = 2 ^ 32 * 1 := by decide
  have hp : (2 : Nat) ^ 32 = 4294967296 := by norm_num
  have hq : (2 : Nat) ^ 64 = 18446744073709551616 := by norm_num
  have hk : v.key = 2 ^ 32 + index := by
    rw [hv, h1, ← Nat.mul_add_lt_is_or hi]
    omega
  refine ⟨key_type_deterministic (by omega) ?_, by omega⟩
  rw [Nat.shiftRight_eq_div_pow]
  omega

end wallet_store

set_option maxRecDepth 20000 in
/-- C21 (counterexample): `insert_adhoc` on the example wallet of a private key whose
ciphertext is `(1 << 32) | 5`: the user entry is a deterministic marker with index 5, and
the stored deterministic index is 0. -/
theorem C21_counterexample :
    Table.get (wallet_store.insert_adhoc example_primitives example_store
      (1240 * 2 ^ 64 + 2 ^ 32 + 5)).2.table (1240 * 2 ^ 64 + 2 ^ 32 + 7) =
      some ⟨(1 <<< 32) ||| 5, 0⟩ ∧
    wallet_store.deterministic_index_get (wallet_store.insert_adhoc example_primitives
      example_store (1240 * 2 ^ 64 + 2 ^ 32 + 5)).2 = 0 := by
  decide

/-- C21 (amended): in every keystore state reached from `create` through
`deterministic_insert` calls that leave the stored index larger than it was, `insert_adhoc`
and `move` of private keys with a public key that is not reserved and a ciphertext of at
least `2^64`, `seed_set`, `rekey` and `erase` of keys that are not reserved, every user
entry whose slot is a deterministic marker `(1 << 32) | index` has `index` below the stored
deterministic index. -/
theorem C21_index_bound (P : Primitives) (s : wallet_store)
    (h : wallet_store.reachable_index P s) (k index : Nat) (v : wallet_value)
    (hk : wallet_store.special_count ≤ k) (hg : Table.get s.table k = some v)
    (hi : index < 2 ^ 32) (hv : v.key = (1 <<< 32) ||| index) :
    index < wallet_store.deterministic_index_get s := by
  have hm := wallet_store.marker_index index hi v hv
  have hb := (wallet_store.reachable_index_bound P s h).2 k v hk hg hm.1
  rw [hm.2] at hb
  exact hb

set_option maxRecDepth 20000 in
/-- C21 (witness): the example wallet after `insert_adhoc` and one `deterministic_insert`:
its deterministic account carries the index 0 and the stored index is 1. -/
theorem C21_index_bound_witness :
    0 < wallet_store.deterministic_index_get example_deterministic.2 :=
  C21_index_bound example_primitives example_deterministic.2
    (wallet_store.reachable_index.deterministic_insert example_store_adhoc
      example_deterministic
      (wallet_store.reachable_index.insert_adhoc example_store 11
        (wallet_store.reachable_index.create 100 (5 * 2 ^ 128 + 9) 1234 77)
        (by decide) (by decide))
      (by decide) (by decide))
    8109046458478903375739688131642623288554922345842281566581945270351 0
    ⟨4294967296, 0⟩ (by decide) (by decide) (by decide) (by decide)

end rai
